import Mathlib

/-!
Path translation core of PRoot (`src/path.c`).

A shallow embedding of the path canonicalizer, the mirror table lookup, the
translate / detranslate entry points, the module initialisation and the checks on open
descriptors of `src/path.c`, followed by theorems about them.

Conventions of the embedding.

* A C string is the list of its bytes before the terminating NUL (`Path`); the byte read
  at index `strlen` is the terminator, written `path.getD i '\x00'`.
* A function that fills a caller buffer and returns an `int` becomes a function returning
  the status together with the new buffer content.
* `PATH_MAX`, `NAME_MAX` and `MAXSYMLINKS` come from system headers; they are the fields of
  `Limits`.  The host system calls (`lstat`, `readlink`, `stat`, `realpath`, `getpid`) are the
  fields of `FS`.
* The module globals `root`, `use_runner` and `mirror_list` are the fields of `State`;
  `root_length` is computed from `root` exactly as `init_module_path` does.
* A result of type `Option _` is `none` for a run that does not return to its caller
  (a failed `assert`, or the unrolling bound of the model being exhausted; the latter
  never happens, see `canonicalize_returns`).
-/

set_option autoImplicit false

namespace PRoot

/-- A C string: the bytes before the terminating NUL. -/
abbrev Path := List Char

/-- The constants taken from the system headers. -/
structure Limits where
  PATH_MAX : Nat
  NAME_MAX : Nat
  MAXSYMLINKS : Nat
  deriving Repr

/-- The values of `<limits.h>` and `<sys/param.h>` on Linux with glibc. -/
def Limits.linux : Limits := ⟨4096, 255, 20⟩

/-- Value of `EPERM` in the Linux `<errno.h>`. -/
def EPERM : Int := 1
/-- Value of `ENOTDIR` in the Linux `<errno.h>`. -/
def ENOTDIR : Int := 20
/-- Value of `EINVAL` in the Linux `<errno.h>`. -/
def EINVAL : Int := 22
/-- Value of `ENAMETOOLONG` in the Linux `<errno.h>`. -/
def ENAMETOOLONG : Int := 36
/-- Value of `ELOOP` in the Linux `<errno.h>`. -/
def ELOOP : Int := 40
/-- Value of `AT_FDCWD` in the Linux `<fcntl.h>`. -/
def AT_FDCWD : Int := -100

/-- Answer of `lstat(2)`: the call failed, or it succeeded on something that is not a
symbolic link, or it succeeded on a symbolic link (`S_ISLNK`). -/
inductive LstatResult where
  | failed
  | other
  | symlink
  deriving DecidableEq, Repr

/-- The host system as seen by `path.c`. `readlink p = none` is a failed call (`-1`),
`some t` the complete stored value of the link; `stat_isdir p` is `S_ISDIR(statl.st_mode)`
after `stat(p, &statl)`; `realpath p = none` is a `NULL` result. -/
structure FS where
  lstat : Path → LstatResult
  readlink : Path → Option Path
  stat_isdir : Path → Bool
  realpath : Path → Option Path
  getpid : Int

/-- One entry of `mirror_list` (`struct mirror`). The `length` fields of the two
`struct mirror_path` always hold `strlen` of the path for a sanitized entry
(lines 88 and 576-582), so they are read off the paths. `need_substitution` is true
when the C field is not zero. -/
structure mirror where
  real : Path
  location : Path
  sanitized : Bool
  need_substitution : Bool
  deriving DecidableEq, Repr

/-- The module globals after `init_module_path`. -/
structure State where
  root : Path
  use_runner : Bool
  mirror_list : List mirror
  deriving Repr

/-- The global `root_length` as set by `init_module_path` (lines 541-544). -/
def root_length (s : State) : Nat :=
  if s.root = ['/'] then 0 else s.root.length

/-- The two fields of `struct child_info` that `path.c` uses. -/
structure child_info where
  pid : Int
  trigger : Option Path
  deriving DecidableEq, Repr

def MIRROR_LOCATION : Nat := 1
def MIRROR_REAL : Nat := 2
def FINAL_NORMAL : Int := 1
def FINAL_FORCE_DIR : Int := 2

/-- Result of `strncmp(a, b, n)`, used in the source only through `!= 0`: `0` when the
first `n` bytes (or the whole strings, if shorter) agree, `1` otherwise. -/
def strncmp (a b : Path) (n : Nat) : Int :=
  if a.take n = b.take n then 0 else 1

/-- Output of `sprintf` with the format `"%d"`: the decimal digits, after a `-` for a
negative number. -/
def fmt_d : Int → Path
  | Int.ofNat m => Nat.toDigits 10 m
  | Int.negSucc m => '-' :: Nat.toDigits 10 (m + 1)

/-- Loop of `substitute_mirror` over the list starting at `mirror` (lines 134-189). -/
def substitute_mirror_from (L : Limits) (which : Nat) (path : Path) : List mirror → Int × Path
  | [] => (-1, path)
  | m :: next =>
    if !m.sanitized then substitute_mirror_from L which path next
    else if which ≠ MIRROR_LOCATION ∧ which ≠ MIRROR_REAL then (-1, path)
    else
      let ref := if which = MIRROR_LOCATION then m.location else m.real
      let anti_ref := if which = MIRROR_LOCATION then m.real else m.location
      if ref.length > path.length then substitute_mirror_from L which path next
      else if path.getD ref.length '\x00' ≠ '/' ∧ path.getD ref.length '\x00' ≠ '\x00' then
        substitute_mirror_from L which path next
      else if strncmp ref path ref.length ≠ 0 then substitute_mirror_from L which path next
      else if !m.need_substitution then (0, path)
      else if path.length - ref.length + anti_ref.length ≥ L.PATH_MAX then (-1, path)
      else (1, anti_ref ++ path.drop ref.length)

/-- Source function `substitute_mirror` (lines 129-190): status and new content of `path`. -/
def substitute_mirror (L : Limits) (s : State) (which : Nat) (path : Path) : Int × Path :=
  substitute_mirror_from L which path s.mirror_list

/-- Result of `next_component`: the returned status, the content of `component` and the
new position of `*cursor` (the rest of the string from there). -/
structure NextComponent where
  status : Int
  component : Path
  cursor : Path
  deriving DecidableEq, Repr

/-- Source function `next_component` (lines 209-249). When the component is too long the
buffer `component` is left as it was; the model reports it empty. -/
def next_component (L : Limits) (cursor : Path) : NextComponent :=
  let start := cursor.dropWhile (fun c => c = '/')
  let component := start.takeWhile (fun c => c ≠ '/')
  let cursor := start.dropWhile (fun c => c ≠ '/')
  if component.length ≥ L.NAME_MAX then ⟨-ENAMETOOLONG, [], cursor⟩
  else
    let want_dir := decide (cursor.head? = some '/')
    let cursor := cursor.dropWhile (fun c => c = '/')
    if cursor = [] then ⟨if want_dir then FINAL_FORCE_DIR else FINAL_NORMAL, component, cursor⟩
    else ⟨0, component, cursor⟩

/-- First loop of `pop_component`: `while (offset > 1 && path[offset] == '/') offset--;`. -/
def skip_separators_back (path : Path) : Nat → Nat
  | 0 => 0
  | offset + 1 =>
    if offset + 1 > 1 ∧ path.getD (offset + 1) '\x00' = '/' then skip_separators_back path offset
    else offset + 1

/-- Second loop of `pop_component`: `while (offset > 1 && path[offset] != '/') offset--;`. -/
def skip_name_back (path : Path) : Nat → Nat
  | 0 => 0
  | offset + 1 =>
    if offset + 1 > 1 ∧ path.getD (offset + 1) '\x00' ≠ '/' then skip_name_back path offset
    else offset + 1

/-- Source function `pop_component` (lines 254-281): the new content of `path`, or `none`
when one of its assertions fails. -/
def pop_component (path : Path) : Option Path :=
  if path.length = 0 then none
  else if path.length - 1 = 0 then
    if path = ['/'] then some path else none
  else
    let offset := skip_name_back path (skip_separators_back path (path.length - 1))
    let path := path.take offset
    if path.head? = some '/' then some path else none

/-- Loop of `join_paths` over the remaining variadic arguments; `result` is what has
been written so far (`length` of the source is its length). -/
def join_paths_from (L : Limits) : List (Option Path) → Path → Int × Path
  | [], result => (0, result)
  | none :: paths, result => join_paths_from L paths result
  | some path :: paths, result =>
    let need_separator : Nat :=
      if result.length > 0 ∧ result.getLast? ≠ some '/' ∧ path.head? ≠ some '/' then 1 else 0
    if result.length + (path.length + need_separator) ≥ L.PATH_MAX then (-ENAMETOOLONG, result)
    else join_paths_from L paths (result ++ (if need_separator ≠ 0 then ['/'] else []) ++ path)

/-- Source function `join_paths` (lines 288-330); a `NULL` argument is `none`. -/
def join_paths (L : Limits) (paths : List (Option Path)) : Int × Path :=
  join_paths_from L paths []

/-- Source function `detranslate_path` (lines 725-762). -/
def detranslate_path (L : Limits) (s : State) (path : Path) (sanity_check : Bool) : Int × Path :=
  let r := substitute_mirror L s MIRROR_REAL path
  if r.1 = 0 then (0, r.2)
  else if r.1 = 1 then ((r.2.length : Int) + 1, r.2)
  else
    let path := r.2
    if strncmp path s.root (root_length s) ≠ 0 then
      if sanity_check then (-EPERM, path) else (0, path)
    else
      let new_length := path.length - root_length s
      if new_length ≠ 0 then ((new_length : Int) + 1, path.drop (root_length s))
      else (2, ['/'])

/-- What one iteration of the loop of `canonicalize` does. -/
inductive Iteration where
  /-- the function returns `status` -/
  | ret (status : Int) (result : Path)
  /-- the iteration ends (`continue` or the end of the body) -/
  | next (result : Path) (nb_readlink : Nat)
  /-- the function does not return -/
  | stuck
  deriving DecidableEq, Repr

/-- Lines 390-400 of `canonicalize`, the special case of `/proc/self`: a status and the
content of `component` afterwards. -/
def proc_self_case (L : Limits) (pid : Int) (deref_final : Bool) (is_final : Int)
    (component result : Path) : Int × Path :=
  if component = ['s', 'e', 'l', 'f'] ∧ result = ['/', 'p', 'r', 'o', 'c']
      ∧ (is_final = 0 ∨ deref_final = true) then
    if (fmt_d pid).length ≥ L.NAME_MAX then (-EPERM, fmt_d pid) else (0, fmt_d pid)
  else (0, component)

/-- Lines 402-416 of `canonicalize`: a status and the content of `real_entry`, the host
path that `lstat` is asked about. -/
def real_entry (L : Limits) (s : State) (result component : Path) : Int × Path :=
  let t := join_paths L [some result, some component]
  if t.1 < 0 then (t.1, [])
  else
    let m := substitute_mirror L s MIRROR_LOCATION t.2
    if m.1 ≥ 0 then (0, m.2) else join_paths L [some s.root, some m.2]

/-- Lines 436-457 of `canonicalize`: the entry is a link that has to be followed.
`recur fake_path result nb_readlink` is the recursive call
`canonicalize(pid, fake_path, 1, result, nb_readlink)`. -/
def follow_link (L : Limits) (fs : FS) (s : State)
    (recur : Path → Path → Nat → Option (Int × Path))
    (entry : Path) (result : Path) (nb_readlink : Nat) : Iteration :=
  match fs.readlink entry with
  | none => .ret (-1) result
  | some target =>
    if min target.length L.PATH_MAX = L.PATH_MAX then .ret (-ENAMETOOLONG) result
    else
      let d := detranslate_path L s target false
      if d.1 < 0 then .ret d.1 result
      else
        match recur d.2 result (nb_readlink + 1) with
        | none => .stuck
        | some r => if r.1 < 0 then .ret r.1 r.2 else .next r.2 (nb_readlink + 1)

/-- Body of the loop of `canonicalize` after `next_component` (lines 382-457), for the
component just read with status `is_final`. -/
def canonicalize_body (L : Limits) (fs : FS) (s : State) (pid : Int) (deref_final : Bool)
    (recur : Path → Path → Nat → Option (Int × Path))
    (is_final : Int) (component : Path) (result : Path) (nb_readlink : Nat) : Iteration :=
  if component = ['.'] then .next result nb_readlink
  else if component = ['.', '.'] then
    match pop_component result with
    | none => .stuck
    | some result => .next result nb_readlink
  else
    let p := proc_self_case L pid deref_final is_final component result
    if p.1 < 0 then .ret p.1 result
    else
      let e := real_entry L s result p.2
      if e.1 < 0 then .ret e.1 result
      else if fs.lstat e.2 ≠ .symlink ∨ (is_final = FINAL_NORMAL ∧ deref_final = false) then
        let j := join_paths L [some result, some p.2]
        if j.1 < 0 then .ret j.1 j.2 else .next j.2 nb_readlink
      else follow_link L fs s recur e.2 result nb_readlink

/-- End of `canonicalize` (lines 460-468). -/
def canonicalize_end (L : Limits) (is_final : Int) (result : Path) : Int × Path :=
  if is_final = FINAL_FORCE_DIR then
    let j := join_paths L [some result, some []]
    if j.1 < 0 then j else (0, j.2)
  else (0, result)

/-- The loop `while (!is_final)` of `canonicalize` (lines 372-458), unrolled at most
`fuel` times. -/
def canonicalize_loop (L : Limits) (fs : FS) (s : State) (pid : Int) (deref_final : Bool)
    (recur : Path → Path → Nat → Option (Int × Path)) :
    Nat → Path → Path → Nat → Option (Int × Path)
  | 0, _, _, _ => none
  | fuel + 1, cursor, result, nb_readlink =>
    let c := next_component L cursor
    if c.status < 0 then some (c.status, result)
    else
      match canonicalize_body L fs s pid deref_final recur c.status c.component result
          nb_readlink with
      | .ret status result => some (status, result)
      | .stuck => none
      | .next result nb_readlink =>
        if c.status = 0 then canonicalize_loop L fs s pid deref_final recur fuel c.cursor result
          nb_readlink
        else some (canonicalize_end L c.status result)

/-- Source function `canonicalize` (lines 342-469) with the nesting of recursive calls
bounded by `depth`. -/
def canonicalize_depth (L : Limits) (fs : FS) (s : State) (pid : Int) :
    Nat → Path → Bool → Path → Nat → Option (Int × Path)
  | 0, _, _, result, nb_readlink =>
    if nb_readlink > L.MAXSYMLINKS then some (-ELOOP, result) else none
  | depth + 1, fake_path, deref_final, result, nb_readlink =>
    if nb_readlink > L.MAXSYMLINKS then some (-ELOOP, result)
    else if fake_path.head? ≠ some '/' ∧ result.head? ≠ some '/' then some (-EINVAL, result)
    else
      let result := if fake_path.head? ≠ some '/' then result else ['/']
      canonicalize_loop L fs s pid deref_final
        (fun fake_path result nb_readlink =>
          canonicalize_depth L fs s pid depth fake_path true result nb_readlink)
        (fake_path.length + 1) fake_path result nb_readlink

/-- Source function `canonicalize` (lines 342-469): status and content of `result`.
A call is made only with `nb_readlink ≤ MAXSYMLINKS + 1` nested at most
`MAXSYMLINKS + 1` deep, and each turn of the loop consumes input. -/
def canonicalize (L : Limits) (fs : FS) (s : State) (pid : Int) (fake_path : Path)
    (deref_final : Bool) (result : Path) (nb_readlink : Nat) : Option (Int × Path) :=
  canonicalize_depth L fs s pid (L.MAXSYMLINKS + 1) fake_path deref_final result nb_readlink

/-- Source function `is_delayed` (lines 603-615): the returned value and the child
afterwards. -/
def is_delayed (child : child_info) (path : Path) : Bool × child_info :=
  match child.trigger with
  | none => (false, child)
  | some trigger =>
    if trigger ≠ path then (true, child)
    else (false, { child with trigger := none })

/-- Result of `translate_path`: status, content of `result`, and the child afterwards. -/
structure Translation where
  status : Int
  result : Path
  child : Option child_info
  deriving DecidableEq, Repr

/-- Lines 684-716 of `translate_path`, after a successful canonicalization into `result`. -/
def translate_tail (L : Limits) (fs : FS) (s : State) (child : Option child_info)
    (fake_path : Path) (deref_final : Bool) (result : Path) : Translation :=
  let d : Bool × Option child_info :=
    match child with
    | none => (false, none)
    | some c => if s.use_runner then ((is_delayed c fake_path).1, some (is_delayed c fake_path).2)
                else (false, some c)
  if d.1 then
    if fake_path.length ≥ L.PATH_MAX then ⟨-ENAMETOOLONG, result, d.2⟩
    else ⟨0, fake_path, d.2⟩
  else
    let m := substitute_mirror L s MIRROR_LOCATION result
    if m.1 ≥ 0 then ⟨0, m.2, d.2⟩
    else
      let j := join_paths L [some s.root, some m.2]
      if j.1 < 0 then ⟨j.1, j.2, d.2⟩
      else
        match (if deref_final then fs.realpath j.2 else none) with
        | some tmp =>
          if strncmp tmp s.root (root_length s) ≠ 0 then ⟨-EPERM, j.2, d.2⟩ else ⟨0, j.2, d.2⟩
        | none => ⟨0, j.2, d.2⟩

/-- Lines 635-675 of `translate_path`: the base of the canonicalization, as status and
content of `result`. -/
def translate_base (L : Limits) (fs : FS) (s : State) (pid : Int) (result : Path)
    (dir_fd : Int) (fake_path : Path) : Int × Path :=
  if fake_path.head? = some '/' then (0, ['/'])
  else
    let link := if dir_fd = AT_FDCWD then "/proc/".toList ++ fmt_d pid ++ "/cwd".toList
      else "/proc/".toList ++ fmt_d pid ++ "/fd/".toList ++ fmt_d dir_fd
    if link.length ≥ 32 then (-EPERM, result)
    else
      match fs.readlink link with
      | none => (-EPERM, result)
      | some target =>
        if min target.length L.PATH_MAX ≥ L.PATH_MAX then (-ENAMETOOLONG, target.take L.PATH_MAX)
        else if dir_fd ≠ AT_FDCWD ∧ fs.stat_isdir target = false then (-ENOTDIR, target)
        else
          let d := detranslate_path L s target true
          if d.1 < 0 then d else (0, d.2)

/-- Source function `translate_path` (lines 624-716). `child = none` is a `NULL` child;
`result` is the content of the caller buffer on entry. -/
def translate_path (L : Limits) (fs : FS) (s : State) (child : Option child_info)
    (result : Path) (dir_fd : Int) (fake_path : Path) (deref_final : Bool) :
    Option Translation :=
  let pid := match child with
    | some c => c.pid
    | none => fs.getpid
  let b := translate_base L fs s pid result dir_fd fake_path
  if b.1 < 0 then some ⟨b.1, b.2, child⟩
  else
    match canonicalize L fs s pid fake_path deref_final b.2 0 with
    | none => none
    | some c =>
      if c.1 < 0 then some ⟨c.1, c.2, child⟩
      else some (translate_tail L fs s child fake_path deref_final c.2)

/-! ## Auxiliary definitions for the statements and proofs -/

/-- The text `/c₁/c₂/…/cₙ` of a list of components (empty for no component). -/
def flat : List Path → Path
  | [] => []
  | c :: cs => '/' :: c ++ flat cs

/-- The absolute path with components `cs`, with a trailing `/` when `tr` is set;
the path without components is `/`. -/
def render (cs : List Path) (tr : Bool) : Path :=
  if cs = [] then ['/'] else flat cs ++ (if tr then ['/'] else [])

/-- A name that can stand between two separators. -/
def IsName (c : Path) : Prop := c ≠ [] ∧ '/' ∉ c

instance (c : Path) : Decidable (IsName c) := inferInstanceAs (Decidable (_ ∧ _))

/-- A normal component: a name other than `.` and `..`. -/
def IsNormal (c : Path) : Prop := IsName c ∧ c ≠ ['.'] ∧ c ≠ ['.', '.']

instance (c : Path) : Decidable (IsNormal c) := inferInstanceAs (Decidable (_ ∧ _ ∧ _))

/-- A sanitized absolute path: `/` followed by normal components separated by single `/`,
with an optional trailing `/`. -/
def Sanitized (p : Path) : Prop :=
  ∃ cs tr, (∀ c ∈ cs, IsNormal c) ∧ p = render cs tr

/-- What `join_paths` writes for two arguments when it fits. -/
def joined (a b : Path) : Path :=
  if a.length > 0 ∧ a.getLast? ≠ some '/' ∧ b.head? ≠ some '/' then a ++ '/' :: b else a ++ b

/-- The characters `sprintf("%d")` can write. -/
def decimalChars : List Char := ['-', '0', '1', '2', '3', '4', '5', '6', '7', '8', '9']

/-- A property of the content of `result` that the steps of `canonicalize` keep: it holds
of `/`, and it is kept by `pop_component` and by appending (within `PATH_MAX`) a component
that has no `/` and is neither `.` nor `..`. -/
structure StepInvariant (L : Limits) (Inv : Path → Prop) : Prop where
  root : Inv ['/']
  pop : ∀ p q, Inv p → pop_component p = some q → Inv q
  join : ∀ p c, Inv p → '/' ∉ c → c ≠ ['.'] → c ≠ ['.', '.'] →
    (joined p c).length < L.PATH_MAX → Inv (joined p c)

/-- The property of the recursive call used while reasoning on one level of `canonicalize`. -/
def Keeps (Inv : Path → Prop) (recur : Path → Path → Nat → Option (Int × Path)) : Prop :=
  ∀ fake_path result nb out, Inv result → recur fake_path result nb = some out →
    ¬ out.1 < 0 → Inv out.2

/-- No two adjacent `/`. -/
def NoDoubleSlash (p : Path) : Prop := List.Chain' (fun a b => ¬ (a = '/' ∧ b = '/')) p

/-- The textual description of a sanitized absolute path: it begins with `/`, none of its
components (the pieces between separators) is `.` or `..`, and it has no two adjacent `/`. -/
def Clean (p : Path) : Prop :=
  p.head? = some '/' ∧ (∀ c ∈ p.splitOn '/', c ≠ ['.'] ∧ c ≠ ['.', '.']) ∧ NoDoubleSlash p

/-- The side of a mirror that `substitute_mirror` compares with the path (`ref`). -/
def mirror.ref (m : mirror) (which : Nat) : Path :=
  if which = MIRROR_LOCATION then m.location else m.real

/-- The side of a mirror that `substitute_mirror` writes (`anti_ref`). -/
def mirror.anti_ref (m : mirror) (which : Nat) : Path :=
  if which = MIRROR_LOCATION then m.real else m.location

/-- The test of `substitute_mirror` (lines 157-168): `ref` is a leading part of `path` that
ends where a component of `path` ends. -/
def Matches (ref path : Path) : Prop :=
  ref.length ≤ path.length ∧
    (path.getD ref.length '\x00' = '/' ∨ path.getD ref.length '\x00' = '\x00') ∧
    ref = path.take ref.length

instance (ref path : Path) : Decidable (Matches ref path) :=
  inferInstanceAs (Decidable (_ ∧ _ ∧ _))

/-- What `init_module_path` establishes for the entries it marks as sanitized
(lines 563-586): the location is a sanitized path other than `/` without a trailing `/`,
and an entry that needs no substitution has the same text on both sides. -/
def Initialised (s : State) : Prop :=
  ∀ m ∈ s.mirror_list, m.sanitized = true →
    (∃ cs, cs ≠ [] ∧ (∀ c ∈ cs, IsNormal c) ∧ m.location = render cs false) ∧
    (m.need_substitution = false → m.real = m.location)

/-- `lstat` on a path that ends with `/` resolves the entry before the `/` and so never
reports a symbolic link (path_resolution(7)). -/
def TrailingSlashResolved (fs : FS) : Prop :=
  ∀ p : Path, p.getLast? = some '/' → fs.lstat p ≠ .symlink

/-- A host on which nothing is a symbolic link, `realpath` fails and the process id
is 1234. -/
def plainHost : FS := ⟨fun _ => .other, fun _ => none, fun _ => true, fun _ => none, 1234⟩

/-- The module state of the scenarios: new root `/opt/jail`, no runner, no mirror. -/
def jail : State := ⟨"/opt/jail".toList, false, []⟩

/-- The module state of the scenarios with the runner enabled. -/
def jailWithRunner : State := ⟨"/opt/jail".toList, true, []⟩

/-- A child that waits for `/trigger`. -/
def waitingChild : child_info := ⟨7, some "/trigger".toList⟩

/-- The first component of the rest of the input, as `next_component` reads it. -/
def first_name (cursor : Path) : Path :=
  (cursor.dropWhile (fun c => c = '/')).takeWhile (fun c => c ≠ '/')

/-- The rest of the input after its first component. -/
def after_name (cursor : Path) : Path :=
  (cursor.dropWhile (fun c => c = '/')).dropWhile (fun c => c ≠ '/')

/-- The rest of the input after its first component and the separators that follow it. -/
def after_separators (cursor : Path) : Path :=
  (after_name cursor).dropWhile (fun c => c = '/')

/-- The host of the counterexample to C8: the only symbolic link is `/loop/loop`, whose
stored value is `/loop`. -/
def loopHost : FS :=
  ⟨fun p => if p = "/loop/loop".toList then .symlink else .other,
   fun p => if p = "/loop/loop".toList then some "/loop".toList else none,
   fun _ => true, fun _ => none, 1234⟩

/-- The module state of the counterexample to C8: the new root is `/loop`. -/
def loopJail : State := ⟨"/loop".toList, false, []⟩

/-- The components of a path: the pieces between separators, empty pieces left out. -/
def components (g : Path) : List Path := (g.splitOn '/').filter (fun c => decide (c ≠ []))

/-- One step of the lexical normalisation on the components kept so far: `.` is dropped,
`..` removes the last kept component (nothing at the root), another component is kept. -/
def lexical_step (kept : List Path) (c : Path) : List Path :=
  if c = ['.'] then kept else if c = ['.', '.'] then kept.dropLast else kept ++ [c]

/-- The components kept by the lexical normalisation of `cs`, starting from `kept`. -/
def lexical_walk (kept : List Path) (cs : List Path) : List Path := cs.foldl lexical_step kept

/-- The lexical normalisation of an absolute path: its components taken left to right,
`.` dropped, `..` removing the last kept component, joined by single `/` after a leading
`/`, plus one trailing `/` when the path ends with `/` and the result is not `/`. -/
def lexical_normalisation (g : Path) : Path :=
  render (lexical_walk [] (components g)) (decide (g.getLast? = some '/'))

/-- Lines 409-416 of `canonicalize`: the host path that `lstat` is asked about, for the
guest path `tmp`. -/
def probe (L : Limits) (s : State) (tmp : Path) : Int × Path :=
  if (substitute_mirror L s MIRROR_LOCATION tmp).1 ≥ 0 then
    (0, (substitute_mirror L s MIRROR_LOCATION tmp).2)
  else join_paths L [some s.root, some (substitute_mirror L s MIRROR_LOCATION tmp).2]

/-- The status that `next_component` returns with a component, given the components
`rest` that follow it and whether the input ends with `/`. -/
def final_status (rest : List Path) (tr : Bool) : Int :=
  if rest ≠ [] then 0 else if tr then FINAL_FORCE_DIR else FINAL_NORMAL

/-- The component `c`, read with status `is_final` when `result` holds the components
`kept`, is appended as it is: it is not rewritten to the pid, the paths fit, and the host
entry is not a link that has to be followed. -/
def CommitOK (L : Limits) (fs : FS) (s : State) (deref_final : Bool) (is_final : Int)
    (kept : List Path) (c : Path) : Prop :=
  ¬ (c = ['s', 'e', 'l', 'f'] ∧ render kept false = ['/', 'p', 'r', 'o', 'c']
      ∧ (is_final = 0 ∨ deref_final = true)) ∧
  (render (kept ++ [c]) false).length < L.PATH_MAX ∧
  ¬ (probe L s (render (kept ++ [c]) false)).1 < 0 ∧
  (fs.lstat (probe L s (render (kept ++ [c]) false)).2 ≠ .symlink
    ∨ (is_final = FINAL_NORMAL ∧ deref_final = false))

/-- Every component of `cs` that is neither `.` nor `..` is appended as it is, when the
walk starts with the components `kept`; `tr` tells if the input ends with `/`. -/
def Commits (L : Limits) (fs : FS) (s : State) (deref_final : Bool) (tr : Bool) :
    List Path → List Path → Prop
  | _, [] => True
  | kept, c :: rest =>
    (c ≠ ['.'] → c ≠ ['.', '.'] → CommitOK L fs s deref_final (final_status rest tr) kept c) ∧
    Commits L fs s deref_final tr (lexical_step kept c) rest

/-- The module state with the new root `/`. -/
def rootJail : State := ⟨['/'], false, []⟩

/-- The module state of scenario S5 with `/proc` in place of `/lib`: one sanitized mirror
that shows the host directory `/hostproc` at the guest location `/proc`. -/
def procMirrorJail : State :=
  ⟨"/opt/jail".toList, false, [⟨"/hostproc".toList, "/proc".toList, true, true⟩]⟩

/-- The module state of scenario S5: the mirror `real = /usr/lib`, `location = /lib`. -/
def libMirrorJail : State :=
  ⟨"/opt/jail".toList, false, [⟨"/usr/lib".toList, "/lib".toList, true, true⟩]⟩

/-- The component `c` was appended to the components `kept`: it is a normal component
shorter than `NAME_MAX`, the paths fit, and (when `strong`) the host entry that `lstat`
was asked about is not a link. -/
def Probed (L : Limits) (fs : FS) (s : State) (strong : Bool) (kept : List Path) (c : Path) :
    Prop :=
  IsNormal c ∧ c.length < L.NAME_MAX ∧ (render (kept ++ [c]) false).length < L.PATH_MAX ∧
    ¬ (probe L s (render (kept ++ [c]) false)).1 < 0 ∧
    (strong = true → fs.lstat (probe L s (render (kept ++ [c]) false)).2 ≠ .symlink)

/-- Every component of `cs` was appended after its host entry was found not to be a
link. -/
def AllProbed (L : Limits) (fs : FS) (s : State) (cs : List Path) : Prop :=
  ∀ pre c, pre ++ [c] <+: cs → Probed L fs s true pre c

/-- The content of `result` at the head of the loop of `canonicalize`: a sanitized path
each component of which was appended after a look at its host entry. -/
def Walked (L : Limits) (fs : FS) (s : State) (p : Path) : Prop :=
  ∃ cs tr, AllProbed L fs s cs ∧ p = render cs tr

/-- The output of a successful `canonicalize`: as `Walked`, except that without
`deref_final` the last component may be a link that was not followed. -/
def Resolved (L : Limits) (fs : FS) (s : State) (deref_final : Bool) (p : Path) : Prop :=
  Walked L fs s p ∨
    (deref_final = false ∧ ∃ cs c, AllProbed L fs s cs ∧ Probed L fs s false cs c ∧
      p = render (cs ++ [c]) false)

/-- The host of the counterexamples to C9: `/opt/jail/a` is a link to `/b` and
`/opt/jail/l` is a link to `/proc/`; nothing else is a link. -/
def linkHost : FS :=
  ⟨fun p => if p = "/opt/jail/a".toList ∨ p = "/opt/jail/l".toList then .symlink else .other,
   fun p => if p = "/opt/jail/a".toList then some "/b".toList
     else if p = "/opt/jail/l".toList then some "/proc/".toList else none,
   fun _ => true, fun _ => none, 1234⟩

/-! ## `canonicalize` with a count of the links it follows -/

/-- Result of a run of `canonicalize` together with two observations of the run:
`followed`, the number of links followed in all (one for each recursive call made), and
`peak`, the largest value of `nb_readlink` with which a call was entered. -/
structure Traced where
  status : Int
  result : Path
  followed : Nat
  peak : Nat
  deriving DecidableEq, Repr

/-- What the source function returns, without the observations. -/
def Traced.erase (t : Traced) : Int × Path := (t.status, t.result)

/-- `follow_link`, with the links followed and the peak of the nested call. -/
def follow_link_traced (L : Limits) (fs : FS) (s : State)
    (recur : Path → Path → Nat → Option Traced)
    (entry : Path) (result : Path) (nb_readlink : Nat) : Iteration × Nat × Nat :=
  match fs.readlink entry with
  | none => (.ret (-1) result, 0, 0)
  | some target =>
    if min target.length L.PATH_MAX = L.PATH_MAX then (.ret (-ENAMETOOLONG) result, 0, 0)
    else
      let d := detranslate_path L s target false
      if d.1 < 0 then (.ret d.1 result, 0, 0)
      else
        match recur d.2 result (nb_readlink + 1) with
        | none => (.stuck, 0, 0)
        | some r =>
          (if r.status < 0 then .ret r.status r.result else .next r.result (nb_readlink + 1),
            r.followed + 1, r.peak)

/-- `canonicalize_body`, with the links followed in this iteration and the peak of the
nested call. -/
def canonicalize_body_traced (L : Limits) (fs : FS) (s : State) (pid : Int)
    (deref_final : Bool) (recur : Path → Path → Nat → Option Traced)
    (is_final : Int) (component : Path) (result : Path) (nb_readlink : Nat) :
    Iteration × Nat × Nat :=
  if component = ['.'] then (.next result nb_readlink, 0, 0)
  else if component = ['.', '.'] then
    match pop_component result with
    | none => (.stuck, 0, 0)
    | some result => (.next result nb_readlink, 0, 0)
  else
    let p := proc_self_case L pid deref_final is_final component result
    if p.1 < 0 then (.ret p.1 result, 0, 0)
    else
      let e := real_entry L s result p.2
      if e.1 < 0 then (.ret e.1 result, 0, 0)
      else if fs.lstat e.2 ≠ .symlink ∨ (is_final = FINAL_NORMAL ∧ deref_final = false) then
        let j := join_paths L [some result, some p.2]
        if j.1 < 0 then (.ret j.1 j.2, 0, 0) else (.next j.2 nb_readlink, 0, 0)
      else follow_link_traced L fs s recur e.2 result nb_readlink

/-- `canonicalize_loop`, accumulating the links followed and the peak. -/
def canonicalize_loop_traced (L : Limits) (fs : FS) (s : State) (pid : Int)
    (deref_final : Bool) (recur : Path → Path → Nat → Option Traced) :
    Nat → Path → Path → Nat → Nat → Nat → Option Traced
  | 0, _, _, _, _, _ => none
  | fuel + 1, cursor, result, nb_readlink, followed, peak =>
    let c := next_component L cursor
    if c.status < 0 then some ⟨c.status, result, followed, peak⟩
    else
      match canonicalize_body_traced L fs s pid deref_final recur c.status c.component result
          nb_readlink with
      | (.ret status result, f, p) => some ⟨status, result, followed + f, max peak p⟩
      | (.stuck, _, _) => none
      | (.next result nb_readlink, f, p) =>
        if c.status = 0 then
          canonicalize_loop_traced L fs s pid deref_final recur fuel c.cursor result
            nb_readlink (followed + f) (max peak p)
        else
          some ⟨(canonicalize_end L c.status result).1, (canonicalize_end L c.status result).2,
            followed + f, max peak p⟩

/-- `canonicalize_depth`, with the observations. -/
def canonicalize_depth_traced (L : Limits) (fs : FS) (s : State) (pid : Int) :
    Nat → Path → Bool → Path → Nat → Option Traced
  | 0, _, _, result, nb_readlink =>
    if nb_readlink > L.MAXSYMLINKS then some ⟨-ELOOP, result, 0, nb_readlink⟩ else none
  | depth + 1, fake_path, deref_final, result, nb_readlink =>
    if nb_readlink > L.MAXSYMLINKS then some ⟨-ELOOP, result, 0, nb_readlink⟩
    else if fake_path.head? ≠ some '/' ∧ result.head? ≠ some '/' then
      some ⟨-EINVAL, result, 0, nb_readlink⟩
    else
      let result := if fake_path.head? ≠ some '/' then result else ['/']
      canonicalize_loop_traced L fs s pid deref_final
        (fun fake_path result nb_readlink =>
          canonicalize_depth_traced L fs s pid depth fake_path true result nb_readlink)
        (fake_path.length + 1) fake_path result nb_readlink 0 nb_readlink

/-- `canonicalize`, with the number of links followed and the largest counter reached. -/
def canonicalize_traced (L : Limits) (fs : FS) (s : State) (pid : Int) (fake_path : Path)
    (deref_final : Bool) (result : Path) (nb_readlink : Nat) : Option Traced :=
  canonicalize_depth_traced L fs s pid (L.MAXSYMLINKS + 1) fake_path deref_final result
    nb_readlink

/-- The host of the failing input of C7: `/opt/jail/y` is a link to `/x/x` and
`/opt/jail/x` is a link to `/`; nothing else is a link. -/
def chainHost : FS :=
  ⟨fun p => if p = "/opt/jail/y".toList ∨ p = "/opt/jail/x".toList then .symlink else .other,
   fun p => if p = "/opt/jail/y".toList then some "/x/x".toList
     else if p = "/opt/jail/x".toList then some "/".toList else none,
   fun _ => true, fun _ => none, 1234⟩

/-- The host of scenario S4: `/opt/jail/loop` is a link to `/loop`. -/
def selfLinkHost : FS :=
  ⟨fun p => if p = "/opt/jail/loop".toList then .symlink else .other,
   fun p => if p = "/opt/jail/loop".toList then some "/loop".toList else none,
   fun _ => true, fun _ => none, 1234⟩

/-! ## Module initialisation and the checks on open descriptors -/

/-- Source function `mirror_path` (lines 73-111): the mirror list afterwards; `location`
is `none` for a `NULL` argument. The entry is not added when `realpath` fails or the
location is too long (the branch `goto error`); a failure of `calloc` is left out. -/
def mirror_path (L : Limits) (fs : FS) (mirror_list : List mirror) (path : Path)
    (location : Option Path) : List mirror :=
  match fs.realpath path with
  | none => mirror_list
  | some real =>
    let tmp := match location with
      | some l => l
      | none => path
    if tmp.length ≥ L.PATH_MAX then mirror_list
    else ⟨real, tmp, false, false⟩ :: mirror_list

/-- One turn of the loop of `init_module_path` (lines 548-594) on the entry `m`, the module
globals being `s` during the turn: the entry afterwards, or `none` when the assertion
fails or `canonicalize` does not return. The call of `canonicalize` writes into the
cleared `location.path`; a successful output is never empty, so the byte tested at line
579 exists. When the entry is left unsanitized its location holds what `canonicalize`
wrote and nothing reads it. -/
def init_mirror (L : Limits) (fs : FS) (s : State) (m : mirror) : Option mirror :=
  if m.sanitized then none
  else
    match canonicalize L fs s 0 m.location true [] 0 with
    | none => none
    | some c =>
      if c.1 < 0 then some { m with location := c.2, sanitized := false }
      else if c.2 = ['/'] then some { m with location := c.2, sanitized := false }
      else
        let need_substitution := decide (m.real ≠ c.2)
        let location := if c.2.getLast? = some '/' then c.2.dropLast else c.2
        some ⟨m.real, location, true, need_substitution⟩

/-- The loop of `init_module_path` over the mirror list: `done` are the entries already
visited, as the loop left them, and the second list the entries still to visit. The list
is updated in place, so each call of `canonicalize` sees the entries before the current
one as they are now, and the current one with its location cleared. `create_dummy`
only adds directories on the host, which `canonicalize` does not tell from missing
entries, so the host is the same `fs` at every turn. -/
def init_mirrors (L : Limits) (fs : FS) (root : Path) (use_runner : Bool) :
    List mirror → List mirror → Option (List mirror)
  | done, [] => some done
  | done, m :: rest =>
    match init_mirror L fs ⟨root, use_runner, done ++ { m with location := [] } :: rest⟩ m with
    | none => none
    | some m' => init_mirrors L fs root use_runner (done ++ [m']) rest

/-- Source function `init_module_path` (lines 534-595): the module globals afterwards.
`root` is what `realpath(new_root, root)` stored and `mirror_list` the list built by the
calls of `mirror_path`. -/
def init_module_path (L : Limits) (fs : FS) (root : Path) (opt_runner : Bool)
    (mirror_list : List mirror) : Option State :=
  match init_mirrors L fs root opt_runner [] mirror_list with
  | none => none
  | some l => some ⟨root, opt_runner, l⟩

/-- One entry of the directory `/proc/<pid>/fd` as `foreach_fd` sees it: the name that
`readdir` gives, the value of `atoi` on it, and the value that `readlink` (or
`readlinkat`) stores for it, `none` for a failed call. -/
structure dirent where
  d_name : Path
  fd : Int
  link : Option Path
  deriving DecidableEq, Repr

/-- The text that `sprintf(proc_fd, "/proc/%d/fd", pid)` writes. -/
def proc_fd (pid : Int) : Path := "/proc/".toList ++ fmt_d pid ++ "/fd".toList

/-- The loop of `foreach_fd` over the entries that `readdir` gives (lines 797-816).
`has_readlinkat` tells which branch of `#ifdef readlinkat` is compiled. -/
def foreach_fd_loop (L : Limits) (has_readlinkat : Bool) (pid : Int)
    (callback : Int → Int → Path → Int) : List dirent → Int
  | [] => 0
  | d :: rest =>
    if has_readlinkat = false ∧ (proc_fd pid).length + d.d_name.length + 1 ≥ L.PATH_MAX then
      foreach_fd_loop L has_readlinkat pid callback rest
    else
      match d.link with
      | none => foreach_fd_loop L has_readlinkat pid callback rest
      | some target =>
        if min target.length L.PATH_MAX ≥ L.PATH_MAX then
          foreach_fd_loop L has_readlinkat pid callback rest
        else if target.head? ≠ some '/' then foreach_fd_loop L has_readlinkat pid callback rest
        else
          let status := callback pid d.fd target
          if status < 0 then status else foreach_fd_loop L has_readlinkat pid callback rest

/-- Source function `foreach_fd` (lines 766-822). `dir` is the content of the directory
`/proc/<pid>/fd`, `none` when `opendir` fails. -/
def foreach_fd (L : Limits) (has_readlinkat : Bool) (dir : Option (List dirent)) (pid : Int)
    (callback : Int → Int → Path → Int) : Int :=
  if (proc_fd pid).length ≥ 32 then 0
  else
    match dir with
    | none => 0
    | some entries => foreach_fd_loop L has_readlinkat pid callback entries

/-- Source function `check_fd_callback` (lines 824-836). -/
def check_fd_callback (s : State) (pid : Int) (_fd : Int) (path : Path) : Int :=
  if strncmp s.root path (root_length s) ≠ 0 then -pid else 0

/-- Source function `check_fd` (lines 838-846). -/
def check_fd (L : Limits) (has_readlinkat : Bool) (s : State) (dir : Option (List dirent))
    (pid : Int) : Int :=
  foreach_fd L has_readlinkat dir pid (check_fd_callback s)

/-- Source function `list_open_fd_callback` (lines 848-855). -/
def list_open_fd_callback (_pid : Int) (_fd : Int) (_path : Path) : Int := 0

/-- Source function `list_open_fd` (lines 860-863). -/
def list_open_fd (L : Limits) (has_readlinkat : Bool) (dir : Option (List dirent)) (pid : Int) :
    Int :=
  foreach_fd L has_readlinkat dir pid list_open_fd_callback

/-! ## Auxiliary definitions for the later statements -/

/-- The leading part of a host path that `root_length` delimits: the new root, or
nothing when the new root is `/`. -/
def stored_root (s : State) : Path := s.root.take (root_length s)

/-- No sanitized entry of the mirror list matches `path` on the side `which`. -/
def NoMatch (s : State) (which : Nat) (path : Path) : Prop :=
  ∀ m ∈ s.mirror_list, m.sanitized = true → ¬ Matches (m.ref which) path

/-- A sequence of calls of `is_delayed` on the same child, one for each path: the values
returned, in order, and the child after the last call. -/
def is_delayed_calls (child : child_info) : List Path → List Bool × child_info
  | [] => ([], child)
  | path :: rest =>
    (((is_delayed child path).1 :: (is_delayed_calls (is_delayed child path).2 rest).1),
      (is_delayed_calls (is_delayed child path).2 rest).2)

/-- The directory entry of the descriptor `fd` whose link has the value `target`. -/
def dirent.of (e : Int × Path) : dirent := ⟨fmt_d e.1, e.1, some e.2⟩

/-- A host without links on which `realpath` resolves `/usr/lib/` (and `/usr/lib`) to
`/usr/lib` and nothing else. -/
def libHost : FS :=
  ⟨fun _ => .other, fun _ => none, fun _ => true,
   fun p => if p = "/usr/lib/".toList ∨ p = "/usr/lib".toList then some "/usr/lib".toList
     else none, 1234⟩

/-- A path of 4095 bytes under the mirror location `/lib`. -/
def longMirrored : Path := ['/', 'l', 'i', 'b', '/'] ++ List.replicate 4090 'a'

/-! ## Reference definition of the mirror lookup, in the words of the specification -/

/-- The result `NOT_A_MIRROR` of the specification. -/
def NOT_A_MIRROR : Int := -1

/-- The result `MATCHED_NO_SUBSTITUTION` of the specification. -/
def MATCHED_NO_SUBSTITUTION : Int := 0

/-- The result `SUBSTITUTED` of the specification. -/
def SUBSTITUTED : Int := 1

/-- Specification, section 4.B: the lookup scans the sanitized entries and accepts an
entry if and only if `|ref| ≤ |path|`, the byte at `path[|ref|]` is `/` or the end of
the string, and `path[0..|ref|]` equals `ref`. -/
def spec_accepts (which : Nat) (path : Path) (m : mirror) : Bool :=
  m.sanitized &&
    (decide ((m.ref which).length ≤ path.length) &&
      (decide (path.get? (m.ref which).length = some '/' ∨ (m.ref which).length = path.length) &&
        decide (path.take (m.ref which).length = m.ref which)))

/-- Specification, section 4.B: `substitute(direction, path)`. The first accepted entry
in list order decides: without `need_substitution` the result is
`MATCHED_NO_SUBSTITUTION`; otherwise `path[0..|ref|]` is replaced with `anti_ref` and the
result is `SUBSTITUTED`, or the lookup fails with `NAME_TOO_LONG` if the new length would
reach `PATH_MAX`. If no entry is accepted the result is `NOT_A_MIRROR`. -/
def substitute_reference (L : Limits) (s : State) (which : Nat) (path : Path) : Int × Path :=
  match s.mirror_list.find? (spec_accepts which path) with
  | none => (NOT_A_MIRROR, path)
  | some m =>
    if m.need_substitution = false then (MATCHED_NO_SUBSTITUTION, path)
    else if (m.anti_ref which).length + (path.length - (m.ref which).length) ≥ L.PATH_MAX then
      (-ENAMETOOLONG, path)
    else (SUBSTITUTED, m.anti_ref which ++ path.drop (m.ref which).length)

/-! ## The host entries that a run of `canonicalize` looks at -/

/-- The host paths that `lstat` is asked about (line 418) while the components `cs` are
appended to the components `kept` in a run that follows no link: for each component other
than `.` and `..`, the path that lines 405-416 build for the components kept so far
followed by it. -/
def probed_entries (L : Limits) (s : State) : List Path → List Path → List Path
  | _, [] => []
  | kept, c :: rest =>
    if c = ['.'] ∨ c = ['.', '.'] then probed_entries L s (lexical_step kept c) rest
    else (probe L s (render (kept ++ [c]) false)).2 ::
      probed_entries L s (lexical_step kept c) rest

/-- The host paths that `lstat` is asked about in a run of `canonicalize` on the absolute
path `g` that follows no link. A path without components (`/`, `//`, ...) is read as one
empty component, appended to `/`. -/
def probed (L : Limits) (s : State) (g : Path) : List Path :=
  if components g = [] then [(probe L s ['/']).2] else probed_entries L s [] (components g)

/-- A host on which `/opt/jail/elsewhere` is a link to `/etc`, nothing else is a link, and
`realpath` returns its argument. -/
def strayLinkHost : FS :=
  ⟨fun p => if p = "/opt/jail/elsewhere".toList then .symlink else .other,
   fun p => if p = "/opt/jail/elsewhere".toList then some "/etc".toList else none,
   fun _ => true, fun p => some p, 1234⟩

/-- The components of a guest path of 4092 bytes under the mirror location `/lib`:
`lib`, sixteen names of 254 bytes and a name of 7 bytes. -/
def deepComponents : List Path :=
  "lib".toList :: (List.replicate 16 (List.replicate 254 'a') ++ [List.replicate 7 'b'])

/-- The guest path with the components `deepComponents`. -/
def deepMirrored : Path := render deepComponents false

/-- The module state with the new root `/r` and the mirror `real = /usr/lib`,
`location = /lib`. -/
def smallRootJail : State :=
  ⟨"/r".toList, false, [⟨"/usr/lib".toList, "/lib".toList, true, true⟩]⟩

/-! ## Sanitized paths -/

theorem flat_append (as bs : List Path) : flat (as ++ bs) = flat as ++ flat bs := by
  induction as with
  | nil => rfl
  | cons a as ih => simp [flat, ih]

theorem flat_snoc (cs : List Path) (c : Path) : flat (cs ++ [c]) = flat cs ++ '/' :: c := by
  simp [flat_append, flat]

theorem flat_ne_nil {cs : List Path} (h : cs ≠ []) : flat cs ≠ [] := by
  cases cs with
  | nil => exact absurd rfl h
  | cons a as => simp [flat]

theorem flat_head {cs : List Path} (h : cs ≠ []) : (flat cs).head? = some '/' := by
  cases cs with
  | nil => exact absurd rfl h
  | cons a as => simp [flat]

theorem render_head (cs : List Path) (tr : Bool) : (render cs tr).head? = some '/' := by
  unfold render
  split
  · rfl
  · next h => rw [List.head?_append_of_ne_nil _ (flat_ne_nil h)]; exact flat_head h

theorem render_ne_nil (cs : List Path) (tr : Bool) : render cs tr ≠ [] := by
  intro h
  have := render_head cs tr
  rw [h] at this
  simp at this

theorem render_nil (tr : Bool) : render [] tr = ['/'] := rfl

theorem render_snoc (cs : List Path) (c : Path) (tr : Bool) :
    render (cs ++ [c]) tr = flat cs ++ '/' :: c ++ (if tr then ['/'] else []) := by
  simp [render, flat_snoc]

theorem name_getLast {c : Path} (hc : IsName c) (pre : Path) :
    (pre ++ c).getLast? ≠ some '/' := by
  obtain ⟨h1, h2⟩ := hc
  rw [List.getLast?_append_of_ne_nil _ h1]
  intro h
  exact h2 (List.mem_of_getLast?_eq_some h)

theorem name_head {c : Path} (hc : '/' ∉ c) : c.head? ≠ some '/' := by
  intro h
  rw [List.head?_eq_some_iff] at h
  obtain ⟨ys, rfl⟩ := h
  simp at hc

/-! ## `join_paths` -/

/-- The two-argument calls of `join_paths`, spelled out. -/
theorem join_paths_two (L : Limits) (a b : Path) :
    join_paths L [some a, some b] =
      if a.length ≥ L.PATH_MAX then (-ENAMETOOLONG, [])
      else if a.length > 0 ∧ a.getLast? ≠ some '/' ∧ b.head? ≠ some '/' then
        if a.length + (b.length + 1) ≥ L.PATH_MAX then (-ENAMETOOLONG, a)
        else (0, a ++ '/' :: b)
      else
        if a.length + b.length ≥ L.PATH_MAX then (-ENAMETOOLONG, a)
        else (0, a ++ b) := by
  simp only [join_paths, join_paths_from, List.length_nil, gt_iff_lt, lt_self_iff_false,
    false_and, if_false, Nat.add_zero, Nat.zero_add, List.nil_append, List.append_nil, ne_eq,
    not_true_eq_false]
  by_cases h1 : a.length ≥ L.PATH_MAX
  · simp [h1]
  · simp only [h1, if_false]
    by_cases h2 : 0 < a.length ∧ ¬ a.getLast? = some '/' ∧ ¬ b.head? = some '/'
    · simp [h2]
    · simp [h2]

theorem join_status (L : Limits) (a b : Path) :
    (join_paths L [some a, some b]).1 =
      if (joined a b).length ≥ L.PATH_MAX then -ENAMETOOLONG else 0 := by
  rw [join_paths_two, joined]
  by_cases h1 : a.length ≥ L.PATH_MAX
  · have : (if a.length > 0 ∧ a.getLast? ≠ some '/' ∧ b.head? ≠ some '/' then a ++ '/' :: b
        else a ++ b).length ≥ L.PATH_MAX := by
      split_ifs <;> simp <;> omega
    simp [h1, this]
  · simp only [h1, if_false]
    split_ifs <;> simp_all <;> omega

theorem join_fits (L : Limits) (a b : Path) (h : (joined a b).length < L.PATH_MAX) :
    join_paths L [some a, some b] = (0, joined a b) := by
  rw [join_paths_two]
  unfold joined at h ⊢
  split_ifs at h ⊢ <;> simp_all <;> omega

theorem join_ok (L : Limits) (a b : Path) (h : ¬ (join_paths L [some a, some b]).1 < 0) :
    join_paths L [some a, some b] = (0, joined a b) ∧ (joined a b).length < L.PATH_MAX := by
  rw [join_status] at h
  have hl : (joined a b).length < L.PATH_MAX := by
    by_contra hc
    rw [if_pos (by omega)] at h
    exact h (by decide)
  exact ⟨join_fits L a b hl, hl⟩

theorem joined_absolute (a b : Path) (h : b.head? = some '/') : joined a b = a ++ b := by
  simp [joined, h]

theorem snoc_cases (cs : List Path) : cs = [] ∨ ∃ cs' l, cs = cs' ++ [l] := by
  rcases List.eq_nil_or_concat cs with h | ⟨cs', l, h⟩
  · exact Or.inl h
  · exact Or.inr ⟨cs', l, by rw [h, List.concat_eq_append]⟩

theorem render_getLast_true (cs : List Path) : (render cs true).getLast? = some '/' := by
  unfold render
  split
  · rfl
  · simp only [if_true]
    exact List.getLast?_concat _

theorem render_getLast_false (cs : List Path) (l : Path) (hl : IsName l) :
    (render (cs ++ [l]) false).getLast? ≠ some '/' := by
  rw [render_snoc]
  simp only [Bool.false_eq_true, if_false, List.append_nil]
  have := name_getLast hl (flat cs ++ ['/'])
  simpa using this

theorem render_length_pos (cs : List Path) (tr : Bool) : (render cs tr).length > 0 :=
  List.length_pos.mpr (render_ne_nil _ _)

theorem joined_render_name (cs : List Path) (tr : Bool) (c : Path)
    (hcs : ∀ x ∈ cs, IsName x) (hc : IsName c) :
    joined (render cs tr) c = render (cs ++ [c]) false := by
  have hh : c.head? ≠ some '/' := name_head hc.2
  rw [render_snoc cs c]
  simp only [Bool.false_eq_true, if_false, List.append_nil]
  rcases snoc_cases cs with rfl | ⟨cs', l, rfl⟩
  · simp [joined, render, flat]
  · have hl : IsName l := hcs l (by simp)
    cases tr with
    | true =>
      unfold joined
      rw [if_neg (by simp [render_getLast_true])]
      simp [render_snoc, flat_snoc]
    | false =>
      unfold joined
      rw [if_pos ⟨render_length_pos _ _, render_getLast_false cs' l hl, hh⟩]
      simp [render_snoc, flat_snoc]

theorem joined_render_nil (cs : List Path) (tr : Bool) (hcs : ∀ x ∈ cs, IsName x) :
    joined (render cs tr) [] = render cs true := by
  rcases snoc_cases cs with rfl | ⟨cs', l, rfl⟩
  · simp [joined, render]
  · have hl : IsName l := hcs l (by simp)
    cases tr with
    | true =>
      unfold joined
      rw [if_neg (by simp [render_getLast_true])]
      simp
    | false =>
      unfold joined
      rw [if_pos ⟨render_length_pos _ _, render_getLast_false cs' l hl, by simp⟩]
      simp [render_snoc]

/-! ## `pop_component` -/

theorem skip_name_back_succ (path : Path) (k : Nat) :
    skip_name_back path (k + 1) =
      if k + 1 > 1 ∧ path.getD (k + 1) '\x00' ≠ '/' then skip_name_back path k else k + 1 := rfl

theorem skip_separators_back_succ (path : Path) (k : Nat) :
    skip_separators_back path (k + 1) =
      if k + 1 > 1 ∧ path.getD (k + 1) '\x00' = '/' then skip_separators_back path k
      else k + 1 := rfl

theorem skip_name_back_stop (path : Path) (k : Nat)
    (h : k ≤ 1 ∨ path.getD k '\x00' = '/') : skip_name_back path k = k := by
  cases k with
  | zero => rfl
  | succ k =>
    rw [skip_name_back_succ, if_neg]
    rintro ⟨h1, h2⟩
    rcases h with h | h
    · omega
    · exact h2 h

theorem skip_name_back_run (path : Path) (k j : Nat) (hk : 1 ≤ k)
    (h : ∀ i, k < i → i ≤ k + j → path.getD i '\x00' ≠ '/') :
    skip_name_back path (k + j) = skip_name_back path k := by
  induction j with
  | zero => rfl
  | succ j ih =>
    have : k + (j + 1) = (k + j) + 1 := by omega
    rw [this, skip_name_back_succ,
      if_pos ⟨by omega, h (k + j + 1) (by omega) (by omega)⟩]
    exact ih (fun i h1 h2 => h i h1 (by omega))

theorem skip_separators_back_stop (path : Path) (k : Nat)
    (h : k ≤ 1 ∨ path.getD k '\x00' ≠ '/') : skip_separators_back path k = k := by
  cases k with
  | zero => rfl
  | succ k =>
    rw [skip_separators_back_succ, if_neg]
    rintro ⟨h1, h2⟩
    rcases h with h | h
    · omega
    · exact h h2

theorem getD_name (pre l post : Path) (hl : '/' ∉ l) (i : Nat) (h1 : pre.length ≤ i)
    (h2 : i < pre.length + l.length) : (pre ++ l ++ post).getD i '\x00' ≠ '/' := by
  rw [List.append_assoc, List.getD_append_right _ _ _ _ h1, List.getD_append _ _ _ _ (by omega)]
  rw [List.getD_eq_getElem _ _ (by omega)]
  intro h
  exact hl (h ▸ List.getElem_mem _)

theorem getD_at_length (pre post : Path) (a : Char) (n : Nat) (h : n = pre.length) :
    (pre ++ a :: post).getD n '\x00' = a := by
  subst h
  rw [List.getD_append_right _ _ _ _ (le_refl _)]
  simp

/-- Popping the last component of a sanitized path. -/
theorem pop_component_render (cs : List Path) (tr : Bool) (hcs : ∀ x ∈ cs, IsName x) :
    pop_component (render cs tr) = some (render cs.dropLast false) := by
  rcases snoc_cases cs with rfl | ⟨cs', l, rfl⟩
  · rfl
  · have hl : IsName l := hcs l (by simp)
    obtain ⟨hl1, hl2⟩ := hl
    have hm : 1 ≤ l.length := List.length_pos.mpr hl1
    rw [List.dropLast_concat]
    set path := render (cs' ++ [l]) tr with hpath
    have hp : path = (flat cs' ++ ['/']) ++ l ++ (if tr then ['/'] else []) := by
      rw [hpath, render_snoc]; simp
    have hlen : path.length = (flat cs').length + 1 + l.length + (if tr then 1 else 0) := by
      rw [hp]; cases tr <;> simp <;> omega
    have hname : ∀ i, (flat cs').length < i → i ≤ (flat cs').length + l.length →
        path.getD i '\x00' ≠ '/' := by
      intro i h1 h2
      rw [hp]
      exact getD_name _ _ _ hl2 i (by simp; omega) (by simp; omega)
    -- first loop
    have h1 : skip_separators_back path (path.length - 1) = (flat cs').length + l.length := by
      cases tr with
      | true =>
        have : path.length - 1 = ((flat cs').length + l.length) + 1 := by
          rw [hlen]; simp; omega
        rw [this, skip_separators_back_succ]
        have hs : path.getD ((flat cs').length + l.length + 1) '\x00' = '/' := by
          rw [hp]
          exact getD_at_length _ _ _ _ (by simp; omega)
        rw [if_pos ⟨by omega, hs⟩]
        exact skip_separators_back_stop _ _ (Or.inr (hname _ (by omega) (by omega)))
      | false =>
        have : path.length - 1 = (flat cs').length + l.length := by rw [hlen]; simp
        rw [this]
        exact skip_separators_back_stop _ _ (Or.inr (hname _ (by omega) (by omega)))
    unfold pop_component
    have hne : path.length ≠ 0 := by rw [hlen]; omega
    have hne1 : path.length - 1 ≠ 0 := by rw [hlen]; omega
    rw [if_neg hne, if_neg hne1]
    simp only [h1]
    rcases List.eq_nil_or_concat cs' with rfl | ⟨cs'', l', hc⟩
    · -- the only component: stop at offset 1
      have h2 : skip_name_back path ((flat []).length + l.length) = 1 := by
        have : (flat ([] : List Path)).length + l.length = 1 + (l.length - 1) := by
          simp [flat]; omega
        rw [this, skip_name_back_run path 1 (l.length - 1) (le_refl 1)]
        · exact skip_name_back_stop _ _ (Or.inl (le_refl 1))
        · intro i hi1 hi2
          exact hname i (by simp [flat]; omega) (by simp [flat]; omega)
      rw [h2]
      have : path.take 1 = ['/'] := by rw [hp]; simp [flat]
      rw [this]; simp [render]
    · have hcs' : cs' ≠ [] := by rw [hc]; simp
      have hfl : 2 ≤ (flat cs').length := by
        rw [hc, List.concat_eq_append, flat_snoc]
        simp
        have := List.length_pos.mpr (hcs l' (by rw [hc]; simp)).1
        omega
      have hsl : path.getD (flat cs').length '\x00' = '/' := by
        rw [hp, List.append_assoc, List.append_assoc]
        exact getD_at_length _ _ _ _ rfl
      have h2 : skip_name_back path ((flat cs').length + l.length) = (flat cs').length := by
        rw [skip_name_back_run path _ _ (by omega) (fun i a b => hname i a b)]
        exact skip_name_back_stop _ _ (Or.inr hsl)
      rw [h2]
      have : path.take (flat cs').length = flat cs' := by
        rw [hp, List.append_assoc, List.append_assoc, List.take_left]
      rw [this, flat_head hcs']
      simp [render, hcs']

/-! ## Decimal output -/

theorem digitChar_mem (n : Nat) : Nat.digitChar (n % 10) ∈ decimalChars := by
  have h : n % 10 < 10 := Nat.mod_lt _ (by decide)
  interval_cases (n % 10) <;> decide

theorem toDigitsCore_mem (fuel n : Nat) (ds : List Char) (h : ∀ c ∈ ds, c ∈ decimalChars) :
    ∀ c ∈ Nat.toDigitsCore 10 fuel n ds, c ∈ decimalChars := by
  induction fuel generalizing n ds with
  | zero => simpa [Nat.toDigitsCore] using h
  | succ fuel ih =>
    have hd : ∀ c ∈ Nat.digitChar (n % 10) :: ds, c ∈ decimalChars := by
      intro c hc
      rcases List.mem_cons.mp hc with rfl | hc
      · exact digitChar_mem n
      · exact h c hc
    simp only [Nat.toDigitsCore]
    split
    · exact hd
    · exact ih _ _ hd

theorem toDigitsCore_ne_nil (fuel n : Nat) (ds : List Char) (h : ds ≠ [] ∨ 0 < fuel) :
    Nat.toDigitsCore 10 fuel n ds ≠ [] := by
  induction fuel generalizing n ds with
  | zero =>
    rcases h with h | h
    · simpa [Nat.toDigitsCore] using h
    · omega
  | succ fuel ih =>
    simp only [Nat.toDigitsCore]
    split
    · simp
    · exact ih _ _ (Or.inl (by simp))

theorem fmt_d_mem (n : Int) : ∀ c ∈ fmt_d n, c ∈ decimalChars := by
  cases n with
  | ofNat m => exact toDigitsCore_mem _ _ _ (by simp)
  | negSucc m =>
    intro c hc
    rcases List.mem_cons.mp hc with rfl | hc
    · decide
    · exact toDigitsCore_mem _ _ _ (by simp) c hc

theorem fmt_d_ne_nil (n : Int) : fmt_d n ≠ [] := by
  cases n with
  | ofNat m => exact toDigitsCore_ne_nil _ _ _ (Or.inr (by omega))
  | negSucc m => simp [fmt_d]

theorem fmt_d_normal (n : Int) : IsNormal (fmt_d n) := by
  refine ⟨⟨fmt_d_ne_nil n, fun h => ?_⟩, fun h => ?_, fun h => ?_⟩
  · exact absurd (fmt_d_mem n _ h) (by decide)
  · have := fmt_d_mem n '.' (by rw [h]; simp)
    exact absurd this (by decide)
  · have := fmt_d_mem n '.' (by rw [h]; simp)
    exact absurd this (by decide)

theorem fmt_d_toString (n : Int) : fmt_d n = (toString n).toList := by
  cases n <;> rfl

/-! ## `next_component` -/

theorem takeWhile_not_mem (l : Path) : '/' ∉ l.takeWhile (fun c => c ≠ '/') := by
  induction l with
  | nil => simp
  | cons a l ih =>
    by_cases h : a = '/'
    · simp [List.takeWhile_cons, h]
    · simp only [List.takeWhile_cons, ne_eq, h, not_false_eq_true, decide_True, if_true,
        List.mem_cons, not_or]
      exact ⟨fun h' => h h'.symm, ih⟩

theorem next_component_no_slash (L : Limits) (cursor : Path) :
    '/' ∉ (next_component L cursor).component := by
  unfold next_component
  simp only
  split
  · simp
  · split <;> exact takeWhile_not_mem _

/-! ## One iteration of `canonicalize` -/

theorem follow_link_next {L : Limits} {fs : FS} {s : State}
    {recur : Path → Path → Nat → Option (Int × Path)} {entry result : Path} {nb : Nat}
    {result' : Path} {nb' : Nat}
    (h : follow_link L fs s recur entry result nb = .next result' nb') :
    ∃ target r, fs.readlink entry = some target ∧ target.length < L.PATH_MAX ∧
      ¬ (detranslate_path L s target false).1 < 0 ∧
      recur (detranslate_path L s target false).2 result (nb + 1) = some r ∧
      ¬ r.1 < 0 ∧ result' = r.2 ∧ nb' = nb + 1 := by
  unfold follow_link at h
  split at h
  · exact absurd h (by simp)
  · next target ht =>
    dsimp only at h
    split_ifs at h with h1 h2
    split at h
    · exact absurd h (by simp)
    · next r hr =>
      split_ifs at h with h3
      injection h with ha hb
      refine ⟨target, r, ht, ?_, h2, hr, h3, ha.symm, hb.symm⟩
      rcases Nat.lt_or_ge target.length L.PATH_MAX with hlt | hge
      · exact hlt
      · exact absurd (Nat.min_eq_right hge) h1

/-- The ways an iteration of the loop of `canonicalize` can end without returning. -/
theorem body_next {L : Limits} {fs : FS} {s : State} {pid : Int} {deref_final : Bool}
    {recur : Path → Path → Nat → Option (Int × Path)} {is_final : Int}
    {component result : Path} {nb : Nat} {result' : Path} {nb' : Nat}
    (h : canonicalize_body L fs s pid deref_final recur is_final component result nb
      = .next result' nb') :
    (component = ['.'] ∧ result' = result ∧ nb' = nb) ∨
    (component = ['.', '.'] ∧ pop_component result = some result' ∧ nb' = nb) ∨
    (component ≠ ['.'] ∧ component ≠ ['.', '.'] ∧
      ¬ (proc_self_case L pid deref_final is_final component result).1 < 0 ∧
      ¬ (real_entry L s result
          (proc_self_case L pid deref_final is_final component result).2).1 < 0 ∧
      ((fs.lstat (real_entry L s result
          (proc_self_case L pid deref_final is_final component result).2).2 ≠ .symlink
        ∨ (is_final = FINAL_NORMAL ∧ deref_final = false)) ∧
        ¬ (join_paths L [some result,
          some (proc_self_case L pid deref_final is_final component result).2]).1 < 0 ∧
        result' = (join_paths L [some result,
          some (proc_self_case L pid deref_final is_final component result).2]).2 ∧ nb' = nb
      ∨ ¬ (fs.lstat (real_entry L s result
          (proc_self_case L pid deref_final is_final component result).2).2 ≠ .symlink
        ∨ (is_final = FINAL_NORMAL ∧ deref_final = false)) ∧
        follow_link L fs s recur (real_entry L s result
          (proc_self_case L pid deref_final is_final component result).2).2 result nb
          = .next result' nb')) := by
  unfold canonicalize_body at h
  dsimp only at h
  split_ifs at h with h1 h2 h3 h4 h5 h6
  · injection h with ha hb; exact Or.inl ⟨h1, ha.symm, hb.symm⟩
  · split at h
    · exact absurd h (by simp)
    · next popped hp =>
      injection h with ha hb
      exact Or.inr (Or.inl ⟨h2, by rw [hp, ha], hb.symm⟩)
  · injection h with ha hb
    exact Or.inr (Or.inr ⟨h1, h2, h3, h4, Or.inl ⟨h5, h6, ha.symm, hb.symm⟩⟩)
  · exact Or.inr (Or.inr ⟨h1, h2, h3, h4, Or.inr ⟨h5, h⟩⟩)

theorem follow_link_ret {L : Limits} {fs : FS} {s : State}
    {recur : Path → Path → Nat → Option (Int × Path)} {entry result : Path} {nb : Nat}
    {status : Int} {result' : Path}
    (h : follow_link L fs s recur entry result nb = .ret status result') : status < 0 := by
  unfold follow_link at h
  split at h
  · injection h with ha _; rw [← ha]; decide
  · dsimp only at h
    split_ifs at h with h1 h2
    · injection h with ha _; rw [← ha]; decide
    · injection h with ha _; rw [← ha]; exact h2
    · split at h
      · exact absurd h (by simp)
      · split_ifs at h with h3
        injection h with ha _; rw [← ha]; exact h3

/-- An iteration only returns from `canonicalize` with an error. -/
theorem body_ret {L : Limits} {fs : FS} {s : State} {pid : Int} {deref_final : Bool}
    {recur : Path → Path → Nat → Option (Int × Path)} {is_final : Int}
    {component result : Path} {nb : Nat} {status : Int} {result' : Path}
    (h : canonicalize_body L fs s pid deref_final recur is_final component result nb
      = .ret status result') : status < 0 := by
  unfold canonicalize_body at h
  dsimp only at h
  split_ifs at h with h1 h2 h3 h4 h5 h6
  · split at h <;> exact absurd h (by simp)
  · injection h with ha _; rw [← ha]; exact h3
  · injection h with ha _; rw [← ha]; exact h4
  · injection h with ha _; rw [← ha]; exact h6
  · exact follow_link_ret h

theorem loop_zero (L : Limits) (fs : FS) (s : State) (pid : Int) (deref_final : Bool)
    (recur : Path → Path → Nat → Option (Int × Path)) (cursor result : Path) (nb : Nat) :
    canonicalize_loop L fs s pid deref_final recur 0 cursor result nb = none := rfl

theorem loop_succ (L : Limits) (fs : FS) (s : State) (pid : Int) (deref_final : Bool)
    (recur : Path → Path → Nat → Option (Int × Path)) (fuel : Nat) (cursor result : Path)
    (nb : Nat) :
    canonicalize_loop L fs s pid deref_final recur (fuel + 1) cursor result nb =
      if (next_component L cursor).status < 0 then some ((next_component L cursor).status, result)
      else
        match canonicalize_body L fs s pid deref_final recur (next_component L cursor).status
          (next_component L cursor).component result nb with
        | .ret status result => some (status, result)
        | .stuck => none
        | .next result nb_readlink =>
          if (next_component L cursor).status = 0 then
            canonicalize_loop L fs s pid deref_final recur fuel (next_component L cursor).cursor
              result nb_readlink
          else some (canonicalize_end L (next_component L cursor).status result) := rfl

/-- A successful run of the loop starts with an iteration that does not return. -/
theorem loop_ok {L : Limits} {fs : FS} {s : State} {pid : Int} {deref_final : Bool}
    {recur : Path → Path → Nat → Option (Int × Path)} {fuel : Nat} {cursor result : Path}
    {nb : Nat} {out : Int × Path}
    (h : canonicalize_loop L fs s pid deref_final recur (fuel + 1) cursor result nb = some out)
    (h0 : ¬ out.1 < 0) :
    ¬ (next_component L cursor).status < 0 ∧
    ∃ result' nb',
      canonicalize_body L fs s pid deref_final recur (next_component L cursor).status
        (next_component L cursor).component result nb = .next result' nb' ∧
      (((next_component L cursor).status = 0 ∧
        canonicalize_loop L fs s pid deref_final recur fuel (next_component L cursor).cursor
          result' nb' = some out) ∨
       ((next_component L cursor).status ≠ 0 ∧
        out = canonicalize_end L (next_component L cursor).status result')) := by
  rw [loop_succ] at h
  by_cases h1 : (next_component L cursor).status < 0
  · rw [if_pos h1] at h
    injection h with h; rw [← h] at h0; exact absurd h1 h0
  · rw [if_neg h1] at h
    refine ⟨h1, ?_⟩
    cases hb : canonicalize_body L fs s pid deref_final recur (next_component L cursor).status
        (next_component L cursor).component result nb with
    | ret status result' =>
      rw [hb] at h
      injection h with h; rw [← h] at h0; exact absurd (body_ret hb) h0
    | stuck => rw [hb] at h; exact absurd h (by simp)
    | next result' nb' =>
      rw [hb] at h
      dsimp only at h
      refine ⟨result', nb', rfl, ?_⟩
      by_cases h2 : (next_component L cursor).status = 0
      · rw [if_pos h2] at h; exact Or.inl ⟨h2, h⟩
      · rw [if_neg h2] at h
        injection h with h
        exact Or.inr ⟨h2, h.symm⟩

theorem proc_self_case_component (L : Limits) (pid : Int) (deref_final : Bool)
    (is_final : Int) (component result : Path) :
    (proc_self_case L pid deref_final is_final component result).2 = component ∨
    (proc_self_case L pid deref_final is_final component result).2 = fmt_d pid := by
  unfold proc_self_case
  split_ifs <;> simp

/-! ## The output of `canonicalize` is sanitized -/

theorem sanitized_names {cs : List Path} (h : ∀ c ∈ cs, IsNormal c) : ∀ c ∈ cs, IsName c :=
  fun c hc => (h c hc).1

theorem sanitized_root : Sanitized ['/'] := ⟨[], false, by simp, rfl⟩

theorem sanitized_joined {result component : Path} (hres : Sanitized result)
    (hc : '/' ∉ component) (h1 : component ≠ ['.']) (h2 : component ≠ ['.', '.']) :
    Sanitized (joined result component) := by
  obtain ⟨cs, tr, hcs, rfl⟩ := hres
  by_cases he : component = []
  · subst he
    exact ⟨cs, true, hcs, joined_render_nil cs tr (sanitized_names hcs)⟩
  · refine ⟨cs ++ [component], false, ?_, joined_render_name cs tr component
      (sanitized_names hcs) ⟨he, hc⟩⟩
    intro c hmem
    rcases List.mem_append.mp hmem with hmem | hmem
    · exact hcs c hmem
    · rw [List.mem_singleton] at hmem
      subst hmem
      exact ⟨⟨he, hc⟩, h1, h2⟩

theorem sanitized_pop {result popped : Path} (hres : Sanitized result)
    (h : pop_component result = some popped) : Sanitized popped := by
  obtain ⟨cs, tr, hcs, rfl⟩ := hres
  rw [pop_component_render cs tr (sanitized_names hcs)] at h
  injection h with h
  exact ⟨cs.dropLast, false, fun c hc => hcs c (List.mem_of_mem_dropLast hc), h.symm⟩

theorem sanitized_invariant (L : Limits) : StepInvariant L Sanitized :=
  ⟨sanitized_root, fun _ _ hp h => sanitized_pop hp h,
    fun _ _ hp hc h1 h2 _ => sanitized_joined hp hc h1 h2⟩

theorem pop_component_head {p q : Path} (h : pop_component p = some q) :
    q.head? = some '/' := by
  unfold pop_component at h
  dsimp only at h
  split_ifs at h with h1 h2 h3 h4
  · injection h with h; rw [← h, h3]; rfl
  · injection h with h; rw [← h]; exact h4

theorem joined_head {p : Path} (c : Path) (h : p.head? = some '/') :
    (joined p c).head? = some '/' := by
  obtain ⟨q, rfl⟩ := List.head?_eq_some_iff.mp h
  unfold joined
  split_ifs <;> simp

theorem head_invariant (L : Limits) :
    StepInvariant L (fun p : Path => p.head? = some '/') :=
  ⟨rfl, fun _ _ _ h => pop_component_head h, fun _ c hp _ _ _ _ => joined_head c hp⟩

theorem pop_component_length {p q : Path} (h : pop_component p = some q) :
    q.length ≤ p.length := by
  unfold pop_component at h
  dsimp only at h
  split_ifs at h with h1 h2 h3 h4
  · injection h with h; rw [← h]
  · injection h with h; rw [← h, List.length_take]; exact Nat.min_le_right _ _

theorem length_invariant (L : Limits) (h : 1 < L.PATH_MAX) :
    StepInvariant L (fun p : Path => p.length < L.PATH_MAX) :=
  ⟨h, fun _ _ hp hq => Nat.lt_of_le_of_lt (pop_component_length hq) hp,
    fun _ _ _ _ _ _ hfit => hfit⟩

theorem body_invariant {L : Limits} {Inv : Path → Prop} (hI : StepInvariant L Inv)
    {fs : FS} {s : State} {pid : Int} {deref_final : Bool}
    {recur : Path → Path → Nat → Option (Int × Path)} (hrec : Keeps Inv recur)
    {is_final : Int} {component result : Path} {nb : Nat} (hres : Inv result)
    (hc : '/' ∉ component) {result' : Path} {nb' : Nat}
    (h : canonicalize_body L fs s pid deref_final recur is_final component result nb
      = .next result' nb') : Inv result' := by
  rcases body_next h with ⟨_, h2, _⟩ | ⟨_, h2, _⟩ | ⟨h1, h2, _, _, h5⟩
  · exact h2 ▸ hres
  · exact hI.pop _ _ hres h2
  · rcases h5 with ⟨_, hj, hr, _⟩ | ⟨_, hf⟩
    · have hfit := (join_ok L _ _ hj).2
      rw [hr, (join_ok L _ _ hj).1]
      rcases proc_self_case_component L pid deref_final is_final component result with hp | hp
      · rw [hp] at hfit ⊢; exact hI.join _ _ hres hc h1 h2 hfit
      · rw [hp] at hfit ⊢
        have hn := fmt_d_normal pid
        exact hI.join _ _ hres hn.1.2 hn.2.1 hn.2.2 hfit
    · obtain ⟨target, r, _, _, _, hr, hr0, hres', _⟩ := follow_link_next hf
      rw [hres']
      exact hrec _ _ _ _ hres hr hr0

theorem end_invariant {L : Limits} {Inv : Path → Prop} (hI : StepInvariant L Inv)
    {is_final : Int} {result : Path} (hres : Inv result)
    (h : ¬ (canonicalize_end L is_final result).1 < 0) :
    Inv (canonicalize_end L is_final result).2 := by
  unfold canonicalize_end at h ⊢
  dsimp only at h ⊢
  by_cases h1 : is_final = FINAL_FORCE_DIR
  · rw [if_pos h1] at h ⊢
    by_cases h2 : (join_paths L [some result, some []]).1 < 0
    · rw [if_pos h2] at h; exact absurd h2 h
    · rw [if_neg h2, (join_ok L _ _ h2).1]
      exact hI.join _ _ hres (by simp) (by simp) (by simp) (join_ok L _ _ h2).2
  · rw [if_neg h1]; exact hres

theorem loop_invariant {L : Limits} {Inv : Path → Prop} (hI : StepInvariant L Inv)
    {fs : FS} {s : State} {pid : Int} {deref_final : Bool}
    {recur : Path → Path → Nat → Option (Int × Path)} (hrec : Keeps Inv recur)
    (fuel : Nat) (cursor result : Path) (nb : Nat) (out : Int × Path)
    (hres : Inv result)
    (h : canonicalize_loop L fs s pid deref_final recur fuel cursor result nb = some out)
    (h0 : ¬ out.1 < 0) : Inv out.2 := by
  induction fuel generalizing cursor result nb with
  | zero => exact absurd h (by simp [canonicalize_loop])
  | succ fuel ih =>
    obtain ⟨_, result', nb', hb, hl⟩ := loop_ok h h0
    have hs := body_invariant hI hrec hres (next_component_no_slash L cursor) hb
    rcases hl with ⟨_, hl⟩ | ⟨_, hl⟩
    · exact ih _ _ _ hs hl
    · rw [hl] at h0 ⊢
      exact end_invariant hI hs h0

/-- A successful `canonicalize` keeps every step invariant that its base has (an absolute
input needs no base). -/
theorem depth_invariant {L : Limits} {Inv : Path → Prop} (hI : StepInvariant L Inv)
    (fs : FS) (s : State) (pid : Int) (depth : Nat) :
    ∀ (fake_path : Path) (deref_final : Bool) (result : Path) (nb : Nat) (out : Int × Path),
      (fake_path.head? ≠ some '/' → Inv result) →
      canonicalize_depth L fs s pid depth fake_path deref_final result nb = some out →
      ¬ out.1 < 0 → Inv out.2 := by
  induction depth with
  | zero =>
    intro fake_path deref_final result nb out _ h h0
    unfold canonicalize_depth at h
    split_ifs at h
    injection h with h; rw [← h] at h0; exact absurd (show -ELOOP < 0 by decide) h0
  | succ depth ih =>
    intro fake_path deref_final result nb out hres h h0
    unfold canonicalize_depth at h
    dsimp only at h
    split_ifs at h with h1 h2 h3
    · injection h with h; rw [← h] at h0; exact absurd (show -ELOOP < 0 by decide) h0
    · injection h with h; rw [← h] at h0; exact absurd (show -EINVAL < 0 by decide) h0
    · exact loop_invariant hI (fun fp r n o hr ho => ih fp true r n o (fun _ => hr) ho)
        _ _ _ _ _ (hres h3) h h0
    · exact loop_invariant hI (fun fp r n o hr ho => ih fp true r n o (fun _ => hr) ho)
        _ _ _ _ _ hI.root h h0

/-! ## Sanitized paths, textually -/

theorem splitOn_slash_cons (x : Path) : ('/' :: x).splitOn '/' = [] :: x.splitOn '/' := by
  simp [List.splitOn, List.splitOnP_cons]

theorem splitOn_name_cons (c x : Path) (hc : '/' ∉ c) :
    (c ++ '/' :: x).splitOn '/' = c :: x.splitOn '/' := by
  unfold List.splitOn
  apply List.splitOnP_first
  · intro a ha h
    simp only [beq_iff_eq] at h
    exact hc (h ▸ ha)
  · simp

theorem splitOn_name (c : Path) (hc : '/' ∉ c) : c.splitOn '/' = [c] := by
  unfold List.splitOn
  apply List.splitOnP_eq_single
  intro a ha h
  simp only [beq_iff_eq] at h
  exact hc (h ▸ ha)

theorem noDoubleSlash_name (c : Path) (hc : '/' ∉ c) : NoDoubleSlash c := by
  unfold NoDoubleSlash
  induction c with
  | nil => exact List.chain'_nil
  | cons a c ih =>
    rw [List.chain'_cons']
    refine ⟨fun y _ h => ?_, ih (fun h => hc (List.mem_cons_of_mem _ h))⟩
    exact hc (h.1 ▸ List.mem_cons_self _ _)

theorem splitOn_flat (cs : List Path) (hcs : ∀ c ∈ cs, IsName c) (t : Path)
    (ht : t = [] ∨ t = ['/']) :
    ∀ x ∈ (flat cs ++ t).splitOn '/', x = [] ∨ x ∈ cs := by
  induction cs with
  | nil =>
    rcases ht with rfl | rfl
    · simp [flat, List.splitOn_nil]
    · simp [flat, splitOn_slash_cons, List.splitOn_nil]
  | cons c cs ih =>
    have ih := ih (fun c hc => hcs c (List.mem_cons_of_mem _ hc))
    have hc := (hcs c (List.mem_cons_self _ _)).2
    intro x hx
    have e : flat (c :: cs) ++ t = '/' :: (c ++ (flat cs ++ t)) := by simp [flat]
    rw [e, splitOn_slash_cons] at hx
    rcases List.mem_cons.mp hx with rfl | hx
    · exact Or.inl rfl
    · cases hr : flat cs ++ t with
      | nil =>
        rw [hr, List.append_nil, splitOn_name c hc] at hx
        rw [List.mem_singleton] at hx
        exact Or.inr (hx ▸ List.mem_cons_self _ _)
      | cons a y =>
        have ha : a = '/' := by
          cases cs with
          | nil =>
            rcases ht with rfl | rfl
            · simp [flat] at hr
            · simp only [flat, List.nil_append, List.cons.injEq] at hr; exact hr.1.symm
          | cons c' cs' =>
            simp only [flat, List.cons_append, List.cons.injEq] at hr; exact hr.1.symm
        subst ha
        rw [hr, splitOn_name_cons c y hc] at hx
        rcases List.mem_cons.mp hx with rfl | hx
        · exact Or.inr (List.mem_cons_self _ _)
        · have := ih x (by rw [hr, splitOn_slash_cons]; exact List.mem_cons_of_mem _ hx)
          rcases this with h | h
          · exact Or.inl h
          · exact Or.inr (List.mem_cons_of_mem _ h)

theorem noDoubleSlash_flat (cs : List Path) (hcs : ∀ c ∈ cs, IsName c) (t : Path)
    (ht : t = [] ∨ t = ['/']) (h : cs ≠ [] ∨ t = []) : NoDoubleSlash (flat cs ++ t) := by
  induction cs with
  | nil =>
    rcases h with h | h
    · exact absurd rfl h
    · subst h; exact List.chain'_nil
  | cons c cs ih =>
    have hc := hcs c (List.mem_cons_self _ _)
    have e : flat (c :: cs) ++ t = '/' :: (c ++ (flat cs ++ t)) := by simp [flat]
    rw [e]
    unfold NoDoubleSlash
    rw [List.chain'_cons']
    constructor
    · intro y hy hh
      obtain ⟨a, l, hl⟩ := List.exists_cons_of_ne_nil hc.1
      rw [hl] at hy
      simp only [List.cons_append, List.head?_cons, Option.mem_def, Option.some.injEq] at hy
      rw [← hy] at hh
      exact hc.2 (by rw [hl, hh.2]; exact List.mem_cons_self _ _)
    · rw [List.chain'_append]
      refine ⟨noDoubleSlash_name c hc.2, ?_, ?_⟩
      · by_cases hn : cs = []
        · subst hn
          rcases ht with rfl | rfl
          · exact List.chain'_nil
          · exact List.chain'_singleton _
        · exact ih (fun c hc => hcs c (List.mem_cons_of_mem _ hc)) (Or.inl hn)
      · intro x hx y _ hh
        exact hc.2 (hh.1 ▸ List.mem_of_getLast?_eq_some hx)

/-- A sanitized path has the textual properties. -/
theorem Sanitized.clean {p : Path} (h : Sanitized p) : Clean p := by
  obtain ⟨cs, tr, hcs, rfl⟩ := h
  refine ⟨render_head cs tr, ?_, ?_⟩
  · intro c hc
    have key : c = [] ∨ c ∈ cs := by
      by_cases hn : cs = []
      · subst hn
        rw [render_nil, splitOn_slash_cons, List.splitOn_nil] at hc
        simp at hc
        exact Or.inl hc
      · rw [render, if_neg hn] at hc
        exact splitOn_flat cs (sanitized_names hcs) _ (by cases tr <;> simp) c hc
    rcases key with rfl | hmem
    · simp
    · exact (hcs c hmem).2
  · by_cases hn : cs = []
    · subst hn; exact List.chain'_singleton _
    · rw [render, if_neg hn]
      exact noDoubleSlash_flat cs (sanitized_names hcs) _ (by cases tr <;> simp) (Or.inl hn)

theorem takeWhile_append_dropWhile_slash (q : Path) :
    q.takeWhile (fun c => c ≠ '/') ++ q.dropWhile (fun c => c ≠ '/') = q :=
  List.takeWhile_append_dropWhile _ _

theorem dropWhile_name_head (q : Path) :
    q.dropWhile (fun c => c ≠ '/') = [] ∨
      ∃ y, q.dropWhile (fun c => c ≠ '/') = '/' :: y := by
  induction q with
  | nil => exact Or.inl rfl
  | cons a q ih =>
    by_cases h : a = '/'
    · subst h
      exact Or.inr ⟨q, by simp [List.dropWhile_cons]⟩
    · simpa [List.dropWhile_cons, h] using ih

theorem sanitized_of_tail (n : Nat) : ∀ q : Path, q.length ≤ n →
    NoDoubleSlash ('/' :: q) → (∀ c ∈ q.splitOn '/', c ≠ ['.'] ∧ c ≠ ['.', '.']) →
    ∃ cs tr, (∀ c ∈ cs, IsNormal c) ∧ '/' :: q = render cs tr := by
  induction n with
  | zero =>
    intro q hq _ _
    have : q = [] := List.length_eq_zero.mp (by omega)
    subst this
    exact ⟨[], false, by simp, rfl⟩
  | succ n ih =>
    intro q hq hch hsp
    cases q with
    | nil => exact ⟨[], false, by simp, rfl⟩
    | cons a q =>
      have ha : a ≠ '/' := by
        intro h
        unfold NoDoubleSlash at hch
        rw [List.chain'_cons] at hch
        exact hch.1 ⟨rfl, h⟩
      have hcne : (a :: q).takeWhile (fun c => c ≠ '/') ≠ [] := by
        simp [List.takeWhile_cons, ha]
      have hcs : '/' ∉ (a :: q).takeWhile (fun c => c ≠ '/') := takeWhile_not_mem _
      have hsplit := takeWhile_append_dropWhile_slash (a :: q)
      have hd := dropWhile_name_head (a :: q)
      generalize (a :: q).takeWhile (fun c => c ≠ '/') = c at hcne hcs hsplit
      generalize (a :: q).dropWhile (fun c => c ≠ '/') = r at hd hsplit
      have hlen : (a :: q).length = c.length + r.length := by
        rw [← hsplit, List.length_append]
      generalize a :: q = q0 at hq hsp hsplit hlen hch
      subst hsplit
      rcases hd with rfl | ⟨y, rfl⟩
      · rw [List.append_nil] at hsp ⊢
        rw [splitOn_name c hcs] at hsp
        refine ⟨[c], false, ?_, ?_⟩
        · intro x hx
          rw [List.mem_singleton] at hx
          subst hx
          exact ⟨⟨hcne, hcs⟩, hsp x (by simp)⟩
        · simp [render, flat]
      · have hylen : y.length ≤ n := by
          simp only [List.length_append, List.length_cons] at hq
          have := List.length_pos.mpr hcne
          omega
        have hchy : NoDoubleSlash ('/' :: y) :=
          List.Chain'.suffix hch ⟨'/' :: c, by simp⟩
        rw [splitOn_name_cons c y hcs] at hsp
        obtain ⟨cs, tr, hcsn, hy⟩ := ih y hylen hchy
          (fun x hx => hsp x (List.mem_cons_of_mem _ hx))
        have hcn : IsNormal c := ⟨⟨hcne, hcs⟩, hsp c (List.mem_cons_self _ _)⟩
        by_cases hn : cs = []
        · subst hn
          refine ⟨[c], true, ?_, ?_⟩
          · intro x hx
            rw [List.mem_singleton] at hx
            exact hx ▸ hcn
          · rw [hy]; simp [render, flat]
        · refine ⟨c :: cs, tr, ?_, ?_⟩
          · intro x hx
            rcases List.mem_cons.mp hx with rfl | hx
            · exact hcn
            · exact hcsn x hx
          · rw [hy]
            simp [render, flat, hn]

/-- The textual properties describe exactly the sanitized paths. -/
theorem clean_iff_sanitized (p : Path) : Clean p ↔ Sanitized p := by
  constructor
  · rintro ⟨h1, h2, h3⟩
    obtain ⟨q, rfl⟩ := List.head?_eq_some_iff.mp h1
    rw [splitOn_slash_cons] at h2
    obtain ⟨cs, tr, hcs, e⟩ := sanitized_of_tail q.length q (le_refl _) h3
      (fun c hc => h2 c (List.mem_cons_of_mem _ hc))
    exact ⟨cs, tr, hcs, e⟩
  · exact Sanitized.clean

/-! ## `substitute_mirror` -/

theorem strncmp_eq_zero (a b : Path) (n : Nat) : strncmp a b n = 0 ↔ a.take n = b.take n := by
  unfold strncmp
  split_ifs with h <;> simp [h]

theorem strncmp_ref (ref path : Path) :
    strncmp ref path ref.length = 0 ↔ ref = path.take ref.length := by
  rw [strncmp_eq_zero, List.take_length]

theorem substitute_mirror_from_cons (L : Limits) (which : Nat) (path : Path) (m : mirror)
    (ms : List mirror) :
    substitute_mirror_from L which path (m :: ms) =
      if m.sanitized = false then substitute_mirror_from L which path ms
      else if which ≠ MIRROR_LOCATION ∧ which ≠ MIRROR_REAL then (-1, path)
      else if ¬ Matches (m.ref which) path then substitute_mirror_from L which path ms
      else if m.need_substitution = false then (0, path)
      else if path.length - (m.ref which).length + (m.anti_ref which).length ≥ L.PATH_MAX then
        (-1, path)
      else (1, m.anti_ref which ++ path.drop (m.ref which).length) := by
  rw [substitute_mirror_from]
  dsimp only
  by_cases h1 : m.sanitized = false
  · simp [h1]
  · have h1' : m.sanitized = true := by simpa using h1
    rw [if_neg h1]
    simp only [h1', Bool.not_true, Bool.false_eq_true, if_false]
    by_cases h2 : which ≠ MIRROR_LOCATION ∧ which ≠ MIRROR_REAL
    · rw [if_pos h2, if_pos h2]
    · rw [if_neg h2, if_neg h2]
      by_cases hM : Matches (m.ref which) path
      · rw [if_neg (not_not.mpr hM)]
        obtain ⟨ha, hb, hc⟩ := hM
        have h3 : ¬ (m.ref which).length > path.length := by omega
        have h4 : ¬ (path.getD (m.ref which).length '\x00' ≠ '/' ∧
            path.getD (m.ref which).length '\x00' ≠ '\x00') := by
          rintro ⟨x, y⟩
          rcases hb with hb | hb
          · exact x hb
          · exact y hb
        have h5 : ¬ strncmp (m.ref which) path (m.ref which).length ≠ 0 :=
          not_not.mpr ((strncmp_ref _ _).mpr hc)
        unfold mirror.ref at h3 h4 h5
        rw [if_neg h3, if_neg h4, if_neg h5]
        cases hn : m.need_substitution <;> simp [mirror.ref, mirror.anti_ref]
      · rw [if_pos hM]
        unfold Matches mirror.ref at hM
        by_cases h3 : (if which = MIRROR_LOCATION then m.location else m.real).length
            > path.length
        · rw [if_pos h3]
        · rw [if_neg h3]
          by_cases h4 : path.getD (if which = MIRROR_LOCATION then m.location
              else m.real).length '\x00' ≠ '/' ∧
              path.getD (if which = MIRROR_LOCATION then m.location
              else m.real).length '\x00' ≠ '\x00'
          · rw [if_pos h4]
          · rw [if_neg h4]
            by_cases h5 : strncmp (if which = MIRROR_LOCATION then m.location else m.real) path
                (if which = MIRROR_LOCATION then m.location else m.real).length ≠ 0
            · rw [if_pos h5]
            · exfalso
              apply hM
              refine ⟨by omega, ?_, (strncmp_ref _ _).mp (not_not.mp h5)⟩
              by_contra hc
              rw [not_or] at hc
              exact h4 hc

/-- The possible results of `substitute_mirror`. -/
theorem substitute_mirror_from_cases (L : Limits) (which : Nat) (path : Path)
    (ms : List mirror) :
    substitute_mirror_from L which path ms = (-1, path) ∨
    ∃ m ∈ ms, m.sanitized = true ∧ Matches (m.ref which) path ∧
      ((m.need_substitution = false ∧ substitute_mirror_from L which path ms = (0, path)) ∨
       (m.need_substitution = true ∧
        path.length - (m.ref which).length + (m.anti_ref which).length < L.PATH_MAX ∧
        substitute_mirror_from L which path ms
          = (1, m.anti_ref which ++ path.drop (m.ref which).length))) := by
  induction ms with
  | nil => exact Or.inl rfl
  | cons m ms ih =>
    have lift : (substitute_mirror_from L which path (m :: ms)
        = substitute_mirror_from L which path ms) →
        (substitute_mirror_from L which path (m :: ms) = (-1, path) ∨
        ∃ m' ∈ m :: ms, m'.sanitized = true ∧ Matches (m'.ref which) path ∧
          ((m'.need_substitution = false ∧
            substitute_mirror_from L which path (m :: ms) = (0, path)) ∨
           (m'.need_substitution = true ∧
            path.length - (m'.ref which).length + (m'.anti_ref which).length < L.PATH_MAX ∧
            substitute_mirror_from L which path (m :: ms)
              = (1, m'.anti_ref which ++ path.drop (m'.ref which).length)))) := by
      intro e
      rw [e]
      rcases ih with h | ⟨m', hm', h⟩
      · exact Or.inl h
      · exact Or.inr ⟨m', List.mem_cons_of_mem _ hm', h⟩
    have e := substitute_mirror_from_cons L which path m ms
    by_cases h1 : m.sanitized = false
    · rw [if_pos h1] at e; exact lift e
    · rw [if_neg h1] at e
      by_cases h2 : which ≠ MIRROR_LOCATION ∧ which ≠ MIRROR_REAL
      · rw [if_pos h2] at e; exact Or.inl e
      · rw [if_neg h2] at e
        by_cases h3 : Matches (m.ref which) path
        · rw [if_neg (not_not.mpr h3)] at e
          by_cases h4 : m.need_substitution = false
          · rw [if_pos h4] at e
            exact Or.inr ⟨m, List.mem_cons_self _ _, by simpa using h1, h3, Or.inl ⟨h4, e⟩⟩
          · rw [if_neg h4] at e
            by_cases h5 : path.length - (m.ref which).length + (m.anti_ref which).length
                ≥ L.PATH_MAX
            · rw [if_pos h5] at e; exact Or.inl e
            · rw [if_neg h5] at e
              exact Or.inr ⟨m, List.mem_cons_self _ _, by simpa using h1, h3,
                Or.inr ⟨by simpa using h4, by omega, e⟩⟩
        · rw [if_pos h3] at e; exact lift e

theorem substitute_mirror_cases (L : Limits) (s : State) (which : Nat) (path : Path) :
    substitute_mirror L s which path = (-1, path) ∨
    ∃ m ∈ s.mirror_list, m.sanitized = true ∧ Matches (m.ref which) path ∧
      ((m.need_substitution = false ∧ substitute_mirror L s which path = (0, path)) ∨
       (m.need_substitution = true ∧
        path.length - (m.ref which).length + (m.anti_ref which).length < L.PATH_MAX ∧
        substitute_mirror L s which path
          = (1, m.anti_ref which ++ path.drop (m.ref which).length))) :=
  substitute_mirror_from_cases L which path s.mirror_list

theorem substitute_mirror_nil (L : Limits) (s : State) (which : Nat) (path : Path)
    (h : s.mirror_list = []) : substitute_mirror L s which path = (-1, path) := by
  unfold substitute_mirror
  rw [h]
  rfl

/-! ## Containment of the translated path (C1) -/

theorem joined_prefix (a b : Path) : a <+: joined a b := by
  unfold joined
  split_ifs
  · exact List.prefix_append _ _
  · exact List.prefix_append _ _

theorem initialised_nil (s : State) (h : s.mirror_list = []) : Initialised s := by
  intro m hm
  rw [h] at hm
  exact absurd hm (List.not_mem_nil _)

/-- C1, as stated, fails: with the runner enabled and a child waiting for `/trigger`, the
translation of `/x` is delayed; `translate_path` returns 0 and writes `/x`, which does not
start with the root `/opt/jail`, and there is no mirror. -/
theorem translate_delayed_leaves_root :
    translate_path Limits.linux plainHost jailWithRunner (some waitingChild) [] AT_FDCWD
        "/x".toList true = some ⟨0, "/x".toList, some waitingChild⟩ ∧
      ¬ (jailWithRunner.root <+: "/x".toList) ∧ jailWithRunner.mirror_list = [] := by
  decide

theorem translate_tail_contained (L : Limits) (fs : FS) (s : State) (hinit : Initialised s)
    (child : Option child_info) (fake_path : Path) (deref_final : Bool) (result : Path)
    (hnd : ∀ c, child = some c → s.use_runner = true → (is_delayed c fake_path).1 = false)
    (h0 : (translate_tail L fs s child fake_path deref_final result).status = 0) :
    s.root <+: (translate_tail L fs s child fake_path deref_final result).result ∨
      ∃ m ∈ s.mirror_list, m.sanitized = true ∧
        m.real <+: (translate_tail L fs s child fake_path deref_final result).result := by
  unfold translate_tail at h0 ⊢
  dsimp only at h0 ⊢
  have hd : (match child with
      | none => ((false, none) : Bool × Option child_info)
      | some c => if s.use_runner then ((is_delayed c fake_path).1,
          some (is_delayed c fake_path).2) else (false, some c)).1 = false := by
    cases child with
    | none => rfl
    | some c =>
      dsimp only
      by_cases hr : s.use_runner = true
      · rw [if_pos hr]; exact hnd c rfl hr
      · rw [if_neg hr]
  rw [hd] at h0 ⊢
  simp only [Bool.false_eq_true, if_false] at h0 ⊢
  rcases substitute_mirror_cases L s MIRROR_LOCATION result with e | ⟨m, hm, hs, hM, e⟩
  · rw [e] at h0 ⊢
    rw [if_neg (show ¬ ((-1 : Int) ≥ 0) by decide)] at h0 ⊢
    by_cases hj : (join_paths L [some s.root, some result]).1 < 0
    · rw [if_pos hj] at h0
      exact absurd h0 (by dsimp only; omega)
    · rw [if_neg hj]
      left
      have hp : s.root <+: (join_paths L [some s.root, some result]).2 := by
        rw [(join_ok L _ _ hj).1]; exact joined_prefix _ _
      split
      · split_ifs <;> exact hp
      · exact hp
  · right
    refine ⟨m, hm, hs, ?_⟩
    have hloc : m.ref MIRROR_LOCATION = m.location := by simp [mirror.ref]
    have hreal : m.anti_ref MIRROR_LOCATION = m.real := by simp [mirror.anti_ref]
    rcases e with ⟨hn, e⟩ | ⟨hn, _, e⟩
    · rw [e, if_pos (show (0 : Int) ≥ 0 by decide)]
      dsimp only
      rw [(hinit m hm hs).2 hn, ← hloc, hM.2.2]
      exact List.take_prefix _ _
    · rw [e, if_pos (show (1 : Int) ≥ 0 by decide)]
      dsimp only
      rw [hreal]
      exact List.prefix_append _ _

/-- C1 (amended): whenever `translate_path` returns 0 for a translation that is not delayed,
the host path it wrote starts with the root, or with the real path of some sanitized
mirror. -/
theorem translate_path_contained (L : Limits) (fs : FS) (s : State)
    (child : Option child_info) (result : Path) (dir_fd : Int) (fake_path : Path)
    (deref_final : Bool) (t : Translation) (hinit : Initialised s)
    (hnd : ∀ c, child = some c → s.use_runner = true → (is_delayed c fake_path).1 = false)
    (h : translate_path L fs s child result dir_fd fake_path deref_final = some t)
    (h0 : t.status = 0) :
    s.root <+: t.result ∨
      ∃ m ∈ s.mirror_list, m.sanitized = true ∧ m.real <+: t.result := by
  unfold translate_path at h
  dsimp only at h
  split_ifs at h with h1
  · injection h with h
    rw [← h] at h0
    exact absurd h0 (by dsimp only; omega)
  · split at h
    · exact absurd h (by simp)
    · next c hc =>
      split_ifs at h with h2
      · injection h with h
        rw [← h] at h0
        exact absurd h0 (by dsimp only; omega)
      · injection h with h
        rw [← h] at h0 ⊢
        exact translate_tail_contained L fs s hinit child fake_path deref_final c.2 hnd h0

theorem translate_path_contained_witness :
    jail.root <+: "/opt/jail/etc/passwd".toList ∨
      ∃ m ∈ jail.mirror_list, m.sanitized = true ∧ m.real <+: "/opt/jail/etc/passwd".toList :=
  translate_path_contained Limits.linux plainHost jail none [] AT_FDCWD "/etc/passwd".toList
    true ⟨0, "/opt/jail/etc/passwd".toList, none⟩ (initialised_nil jail rfl)
    (fun c hc => absurd hc (by simp)) (by decide) rfl

/-! ## The output of `canonicalize` is sanitized (C3) -/

/-- C3: if `canonicalize` returns 0 (whatever `lstat` and `readlink` answer, for every mirror
table, pid, input, flag and counter, the base being absolute and sanitized when the
input is relative), its output begins with `/`, has no component `.` or `..` and has no
two adjacent `/`. -/
theorem canonicalize_output_sanitized (L : Limits) (fs : FS) (s : State) (pid : Int)
    (fake_path : Path) (deref_final : Bool) (result : Path) (nb_readlink : Nat) (out : Path)
    (hbase : fake_path.head? ≠ some '/' → Clean result)
    (h : canonicalize L fs s pid fake_path deref_final result nb_readlink = some (0, out)) :
    out.head? = some '/' ∧ (∀ c ∈ out.splitOn '/', c ≠ ['.'] ∧ c ≠ ['.', '.']) ∧
      NoDoubleSlash out :=
  (depth_invariant (sanitized_invariant L) fs s pid _ fake_path deref_final result nb_readlink
    (0, out) (fun hr => (clean_iff_sanitized _).mp (hbase hr)) h
    (show ¬ ((0 : Int) < 0) by decide)).clean

theorem canonicalize_output_sanitized_witness :
    "/base/y/".toList.head? = some '/' ∧
      (∀ c ∈ "/base/y/".toList.splitOn '/', c ≠ ['.'] ∧ c ≠ ['.', '.']) ∧
      NoDoubleSlash "/base/y/".toList :=
  canonicalize_output_sanitized Limits.linux plainHost jail 42 "x/.././y//".toList true
    "/base".toList 0 "/base/y/".toList
    (fun _ => (clean_iff_sanitized _).mpr ⟨["base".toList], false,
      fun c hc => by rw [List.mem_singleton.mp hc]; exact ⟨⟨by decide, by decide⟩, by decide,
        by decide⟩, rfl⟩)
    (by decide)

/-! ## Detranslation of a path outside the root (C4) -/

/-- C4, the failing input: with the root `/opt/jail`, the path `/opt/jailbreak/x` lies
outside the root, yet `detranslate_path` with the sanity check accepts it, strips the
first nine bytes and returns 8. -/
theorem detranslate_path_sibling_of_root :
    detranslate_path Limits.linux jail "/opt/jailbreak/x".toList true
      = (8, "break/x".toList) := by
  decide

/-! ## A trailing `/` of the input is kept (C10) -/

theorem suffix_getLast {x y : Path} (h : x <:+ y) (hx : x ≠ []) (a : Char)
    (hy : y.getLast? = some a) : x.getLast? = some a := by
  obtain ⟨t, rfl⟩ := h
  rw [List.getLast?_append_of_ne_nil _ hx] at hy
  exact hy

theorem next_component_eq (L : Limits) (cursor : Path) :
    next_component L cursor =
      if (first_name cursor).length ≥ L.NAME_MAX then ⟨-ENAMETOOLONG, [], after_name cursor⟩
      else if after_separators cursor = [] then
        ⟨if (after_name cursor).head? = some '/' then FINAL_FORCE_DIR else FINAL_NORMAL,
          first_name cursor, after_separators cursor⟩
      else ⟨0, first_name cursor, after_separators cursor⟩ := by
  unfold next_component first_name after_separators after_name
  simp only [decide_eq_true_eq]

/-- The four outcomes of `next_component`. -/
theorem next_component_cases (L : Limits) (cursor : Path) :
    ((first_name cursor).length ≥ L.NAME_MAX ∧
      next_component L cursor = ⟨-ENAMETOOLONG, [], after_name cursor⟩) ∨
    ((first_name cursor).length < L.NAME_MAX ∧ after_separators cursor = [] ∧
      (after_name cursor).head? = some '/' ∧
      next_component L cursor = ⟨FINAL_FORCE_DIR, first_name cursor, []⟩) ∨
    ((first_name cursor).length < L.NAME_MAX ∧ after_separators cursor = [] ∧
      (after_name cursor).head? ≠ some '/' ∧
      next_component L cursor = ⟨FINAL_NORMAL, first_name cursor, []⟩) ∨
    ((first_name cursor).length < L.NAME_MAX ∧ after_separators cursor ≠ [] ∧
      next_component L cursor = ⟨0, first_name cursor, after_separators cursor⟩) := by
  rw [next_component_eq]
  by_cases h1 : (first_name cursor).length ≥ L.NAME_MAX
  · left
    rw [if_pos h1]
    exact ⟨h1, rfl⟩
  · right
    rw [if_neg h1]
    by_cases h2 : after_separators cursor = []
    · rw [if_pos h2]
      by_cases h3 : (after_name cursor).head? = some '/'
      · left
        refine ⟨by omega, h2, h3, ?_⟩
        rw [h2, if_pos h3]
      · right; left
        refine ⟨by omega, h2, h3, ?_⟩
        rw [h2, if_neg h3]
    · right; right
      rw [if_neg h2]
      exact ⟨by omega, h2, rfl⟩

theorem after_separators_suffix (cursor : Path) : after_separators cursor <:+ cursor :=
  (List.dropWhile_suffix _).trans ((List.dropWhile_suffix _).trans (List.dropWhile_suffix _))

theorem first_name_no_slash (cursor : Path) : '/' ∉ first_name cursor := takeWhile_not_mem _

theorem next_component_status (L : Limits) (cursor : Path) :
    (next_component L cursor).status < 0 ∨ (next_component L cursor).status = 0 ∨
    (next_component L cursor).status = FINAL_NORMAL ∨
    (next_component L cursor).status = FINAL_FORCE_DIR := by
  rcases next_component_cases L cursor with ⟨_, e⟩ | ⟨_, _, _, e⟩ | ⟨_, _, _, e⟩ | ⟨_, _, e⟩ <;>
    rw [e]
  · exact Or.inl (show -ENAMETOOLONG < 0 by decide)
  · exact Or.inr (Or.inr (Or.inr rfl))
  · exact Or.inr (Or.inr (Or.inl rfl))
  · exact Or.inr (Or.inl rfl)

/-- When more input follows, the cursor has moved to a non-empty proper rest. -/
theorem next_component_more (L : Limits) (cursor : Path)
    (h : (next_component L cursor).status = 0) :
    (next_component L cursor).cursor = after_separators cursor ∧
      after_separators cursor ≠ [] := by
  rcases next_component_cases L cursor with ⟨_, e⟩ | ⟨_, _, _, e⟩ | ⟨_, _, _, e⟩ | ⟨_, h2, e⟩ <;>
    rw [e] at h ⊢ <;> dsimp only at h ⊢
  · exact absurd h (by decide)
  · exact absurd h (by decide)
  · exact absurd h (by decide)
  · exact ⟨rfl, h2⟩

theorem dropWhile_slash_name (q : Path) (h : (q.dropWhile (fun c => c ≠ '/')).head? ≠ some '/') :
    q.dropWhile (fun c => c ≠ '/') = [] := by
  rcases dropWhile_name_head q with h1 | ⟨y, h1⟩
  · exact h1
  · rw [h1] at h; exact absurd rfl h

/-- When the rest of the input ends with `/`, a last component that is not followed by a
separator is empty: the rest of the input had no component at all. -/
theorem next_component_final_normal (L : Limits) (cursor : Path)
    (hc : cursor.getLast? = some '/')
    (h : (next_component L cursor).status = FINAL_NORMAL) :
    (next_component L cursor).component = [] := by
  rcases next_component_cases L cursor with ⟨_, e⟩ | ⟨_, _, _, e⟩ | ⟨_, _, h3, e⟩ | ⟨_, _, e⟩ <;>
    rw [e] at h ⊢ <;> dsimp only at h ⊢
  · exact absurd h (by decide)
  · -- no separator after the component: the component is the whole rest
    have hd := dropWhile_slash_name _ h3
    have hs := List.takeWhile_append_dropWhile (fun c => decide (c ≠ '/'))
      (cursor.dropWhile (fun c => c = '/'))
    rw [hd, List.append_nil] at hs
    by_contra hne
    unfold first_name at hne
    rw [hs] at hne
    have hl := suffix_getLast (List.dropWhile_suffix (fun c => decide (c = '/'))) hne '/' hc
    have hmem := List.mem_of_getLast?_eq_some hl
    rw [← hs] at hmem
    exact takeWhile_not_mem _ hmem
  · exact absurd h (by decide)

theorem joined_nil_getLast {p : Path} (h : p ≠ []) : (joined p []).getLast? = some '/' := by
  unfold joined
  split_ifs with h1
  · exact List.getLast?_concat _
  · rw [List.append_nil]
    by_contra hc
    exact h1 ⟨List.length_pos.mpr h, hc, by simp⟩

theorem ne_nil_of_head {p : Path} (h : p.head? = some '/') : p ≠ [] := by
  intro e
  rw [e] at h
  exact absurd h (by simp)

theorem render_getLast_ne (cs : List Path) (hn : cs ≠ []) (hcs : ∀ c ∈ cs, IsName c) :
    (render cs false).getLast? ≠ some '/' := by
  rcases snoc_cases cs with rfl | ⟨cs', l, rfl⟩
  · exact absurd rfl hn
  · exact render_getLast_false cs' l (hcs l (by simp))

/-- The path handed to `lstat` for an empty component ends with `/`. -/
theorem real_entry_empty_component (L : Limits) (s : State) (hinit : Initialised s)
    (result : Path) (hres : result.head? = some '/')
    (h : ¬ (real_entry L s result []).1 < 0) :
    (real_entry L s result []).2.getLast? = some '/' := by
  unfold real_entry at h ⊢
  dsimp only at h ⊢
  by_cases ht : (join_paths L [some result, some []]).1 < 0
  · rw [if_pos ht] at h; exact absurd ht h
  · rw [if_neg ht] at h ⊢
    rw [(join_ok L _ _ ht).1] at h ⊢
    dsimp only at h ⊢
    have hlast : (joined result []).getLast? = some '/' := joined_nil_getLast (ne_nil_of_head hres)
    have hhead : (joined result []).head? = some '/' := joined_head _ hres
    rcases substitute_mirror_cases L s MIRROR_LOCATION (joined result [])
      with e | ⟨m, hm, hs, hM, e⟩
    · rw [e] at h ⊢
      rw [if_neg (show ¬ ((-1 : Int) ≥ 0) by decide)] at h ⊢
      rw [(join_ok L _ _ h).1, joined_absolute _ _ hhead]
      rw [List.getLast?_append_of_ne_nil _ (ne_nil_of_head hhead)]
      exact hlast
    · rcases e with ⟨_, e⟩ | ⟨_, _, e⟩
      · rw [e, if_pos (show (0 : Int) ≥ 0 by decide)]
        exact hlast
      · rw [e, if_pos (show (1 : Int) ≥ 0 by decide)]
        dsimp only
        have hloc : m.ref MIRROR_LOCATION = m.location := by simp [mirror.ref]
        rw [hloc] at hM ⊢
        obtain ⟨⟨cs, hcs, hn, hl⟩, _⟩ := hinit m hm hs
        have hlt : m.location.length < (joined result []).length := by
          rcases Nat.lt_or_ge m.location.length (joined result []).length with h1 | h1
          · exact h1
          · exfalso
            have : m.location = joined result [] := by
              rw [hM.2.2, List.take_of_length_le (by omega)]
            rw [← this, hl] at hlast
            exact render_getLast_ne cs hcs (sanitized_names hn) hlast
        have hdrop : (joined result []).drop m.location.length ≠ [] := by
          intro e
          have := congrArg List.length e
          simp at this
          omega
        rw [List.getLast?_append_of_ne_nil _ hdrop]
        exact suffix_getLast (List.drop_suffix _ _) hdrop '/' hlast

theorem proc_self_case_nil (L : Limits) (pid : Int) (deref_final : Bool) (is_final : Int)
    (result : Path) : proc_self_case L pid deref_final is_final [] result = (0, []) := by
  unfold proc_self_case
  rw [if_neg]
  rintro ⟨h, _⟩
  exact absurd h (by decide)

theorem end_getLast {L : Limits} {is_final : Int} {result : Path}
    (hres : result.head? = some '/')
    (hf : is_final = FINAL_FORCE_DIR ∨ result.getLast? = some '/')
    (h : ¬ (canonicalize_end L is_final result).1 < 0) :
    (canonicalize_end L is_final result).2.getLast? = some '/' := by
  unfold canonicalize_end at h ⊢
  dsimp only at h ⊢
  by_cases h1 : is_final = FINAL_FORCE_DIR
  · rw [if_pos h1] at h ⊢
    by_cases h2 : (join_paths L [some result, some []]).1 < 0
    · rw [if_pos h2] at h; exact absurd h2 h
    · rw [if_neg h2, (join_ok L _ _ h2).1]
      exact joined_nil_getLast (ne_nil_of_head hres)
  · rw [if_neg h1]
    rcases hf with hf | hf
    · exact absurd hf h1
    · exact hf

theorem loop_trailing_slash {L : Limits} {fs : FS} {s : State} {pid : Int}
    {deref_final : Bool} {recur : Path → Path → Nat → Option (Int × Path)}
    (hfs : TrailingSlashResolved fs) (hinit : Initialised s)
    (hrec : Keeps (fun p : Path => p.head? = some '/') recur)
    (fuel : Nat) (cursor result : Path) (nb : Nat) (out : Int × Path)
    (hc : cursor.getLast? = some '/') (hres : result.head? = some '/')
    (h : canonicalize_loop L fs s pid deref_final recur fuel cursor result nb = some out)
    (h0 : ¬ out.1 < 0) : out.2.getLast? = some '/' := by
  induction fuel generalizing cursor result nb with
  | zero => exact absurd h (by simp [canonicalize_loop])
  | succ fuel ih =>
    obtain ⟨hst, result', nb', hb, hl⟩ := loop_ok h h0
    have hs : result'.head? = some '/' :=
      body_invariant (head_invariant L) hrec hres (next_component_no_slash L cursor) hb
    rcases hl with ⟨h2, hl⟩ | ⟨h2, hl⟩
    · obtain ⟨e, hne⟩ := next_component_more L cursor h2
      rw [e] at hl
      exact ih _ _ _ (suffix_getLast (after_separators_suffix cursor) hne '/' hc) hs hl
    · rw [hl] at h0 ⊢
      refine end_getLast hs ?_ h0
      rcases next_component_status L cursor with h3 | h3 | h3 | h3
      · exact absurd h3 hst
      · exact absurd h3 h2
      · right
        have hcomp := next_component_final_normal L cursor hc h3
        rw [hcomp] at hb
        rcases body_next hb with ⟨h4, _⟩ | ⟨h4, _⟩ | ⟨_, _, _, h6, h7⟩
        · exact absurd h4 (by decide)
        · exact absurd h4 (by decide)
        · rw [proc_self_case_nil] at h6 h7
          dsimp only at h6 h7
          rcases h7 with ⟨_, hj, hr, _⟩ | ⟨hn, _⟩
          · rw [hr, (join_ok L _ _ hj).1]
            exact joined_nil_getLast (ne_nil_of_head hres)
          · exfalso
            apply hn
            left
            exact hfs _ (real_entry_empty_component L s hinit result hres h6)
      · exact Or.inl h3

/-- C10: on a host where `lstat` resolves a path that ends with `/`, and with the mirror
table as `init_module_path` leaves it, for every base, pid, flag and counter and every
input that ends with `/`: if `canonicalize` returns 0, its output ends with `/`. -/
theorem canonicalize_keeps_trailing_slash (L : Limits) (fs : FS) (s : State) (pid : Int)
    (fake_path : Path) (deref_final : Bool) (result : Path) (nb_readlink : Nat) (out : Path)
    (hfs : TrailingSlashResolved fs) (hinit : Initialised s)
    (hend : fake_path.getLast? = some '/')
    (h : canonicalize L fs s pid fake_path deref_final result nb_readlink = some (0, out)) :
    out.getLast? = some '/' := by
  unfold canonicalize canonicalize_depth at h
  dsimp only at h
  have hrec : Keeps (fun p : Path => p.head? = some '/')
      (fun fake_path result nb_readlink =>
        canonicalize_depth L fs s pid L.MAXSYMLINKS fake_path true result nb_readlink) :=
    fun fp r n o hr ho => depth_invariant (head_invariant L) fs s pid _ fp true r n o
      (fun _ => hr) ho
  split_ifs at h with h1 h2 h3
  · injection h with h; injection h with h; exact absurd h (by decide)
  · injection h with h; injection h with h; exact absurd h (by decide)
  · have hr : result.head? = some '/' := by
      by_contra hc
      exact h2 ⟨h3, hc⟩
    exact loop_trailing_slash hfs hinit hrec _ _ _ _ (0, out) hend hr h
      (show ¬ ((0 : Int) < 0) by decide)
  · exact loop_trailing_slash hfs hinit hrec _ _ _ _ (0, out) hend
      (show (['/'] : Path).head? = some '/' from rfl) h
      (show ¬ ((0 : Int) < 0) by decide)

theorem canonicalize_keeps_trailing_slash_witness :
    "/b/c/".toList.getLast? = some '/' :=
  canonicalize_keeps_trailing_slash Limits.linux plainHost jail 42 "/a/../b/./c//".toList true
    [] 0 "/b/c/".toList (fun _ _ h => LstatResult.noConfusion h) (initialised_nil jail rfl) (by decide)
    (by decide)

/-! ## Evaluating one iteration -/

theorem proc_self_case_other (L : Limits) (pid : Int) (deref_final : Bool) (is_final : Int)
    (component result : Path)
    (h : ¬ (component = ['s', 'e', 'l', 'f'] ∧ result = ['/', 'p', 'r', 'o', 'c']
      ∧ (is_final = 0 ∨ deref_final = true))) :
    proc_self_case L pid deref_final is_final component result = (0, component) := by
  unfold proc_self_case
  rw [if_neg h]

theorem join_root (L : Limits) (root p : Path) (hp : p.head? = some '/')
    (h : (root ++ p).length < L.PATH_MAX) :
    join_paths L [some root, some p] = (0, root ++ p) := by
  have := join_fits L root p (by rw [joined_absolute _ _ hp]; exact h)
  rw [this, joined_absolute _ _ hp]

/-- The path handed to `lstat` when no mirror is registered. -/
theorem real_entry_no_mirror (L : Limits) (s : State) (hm : s.mirror_list = [])
    (result component : Path) (hres : result.head? = some '/')
    (h : (s.root ++ joined result component).length < L.PATH_MAX) :
    real_entry L s result component = (0, s.root ++ joined result component) := by
  unfold real_entry
  dsimp only
  have h1 : (joined result component).length < L.PATH_MAX := by
    rw [List.length_append] at h; omega
  rw [join_fits L _ _ h1]
  dsimp only
  rw [if_neg (show ¬ ((0 : Int) < 0) by decide), substitute_mirror_nil L s _ _ hm]
  dsimp only
  rw [if_neg (show ¬ ((-1 : Int) ≥ 0) by decide)]
  exact join_root L _ _ (joined_head _ hres) h

/-- An iteration that commits its component. -/
theorem body_commit {L : Limits} {fs : FS} {s : State} {pid : Int} {deref_final : Bool}
    {recur : Path → Path → Nat → Option (Int × Path)} {is_final : Int}
    {component result : Path} {nb : Nat} (c e : Path)
    (h1 : component ≠ ['.']) (h2 : component ≠ ['.', '.'])
    (hp : proc_self_case L pid deref_final is_final component result = (0, c))
    (he : real_entry L s result c = (0, e))
    (hl : fs.lstat e ≠ .symlink ∨ (is_final = FINAL_NORMAL ∧ deref_final = false))
    (hj : (joined result c).length < L.PATH_MAX) :
    canonicalize_body L fs s pid deref_final recur is_final component result nb
      = .next (joined result c) nb := by
  unfold canonicalize_body
  rw [if_neg h1, if_neg h2]
  dsimp only
  rw [hp]
  dsimp only
  rw [if_neg (show ¬ ((0 : Int) < 0) by decide), he]
  dsimp only
  rw [if_neg (show ¬ ((0 : Int) < 0) by decide), if_pos hl, join_fits L _ _ hj]
  dsimp only
  rw [if_neg (show ¬ ((0 : Int) < 0) by decide)]

/-- An iteration that follows a link. -/
theorem body_follow {L : Limits} {fs : FS} {s : State} {pid : Int} {deref_final : Bool}
    {recur : Path → Path → Nat → Option (Int × Path)} {is_final : Int}
    {component result : Path} {nb : Nat} (c e : Path)
    (h1 : component ≠ ['.']) (h2 : component ≠ ['.', '.'])
    (hp : proc_self_case L pid deref_final is_final component result = (0, c))
    (he : real_entry L s result c = (0, e))
    (hl : fs.lstat e = .symlink) (hf : ¬ (is_final = FINAL_NORMAL ∧ deref_final = false)) :
    canonicalize_body L fs s pid deref_final recur is_final component result nb
      = follow_link L fs s recur e result nb := by
  unfold canonicalize_body
  rw [if_neg h1, if_neg h2]
  dsimp only
  rw [hp]
  dsimp only
  rw [if_neg (show ¬ ((0 : Int) < 0) by decide), he]
  dsimp only
  rw [if_neg (show ¬ ((0 : Int) < 0) by decide), if_neg]
  rintro (h | h)
  · exact h hl
  · exact hf h

/-! ## A link to itself (C8) -/

theorem detranslate_path_no_mirror (L : Limits) (s : State) (hm : s.mirror_list = [])
    (path : Path) (sanity_check : Bool) :
    detranslate_path L s path sanity_check =
      if strncmp path s.root (root_length s) ≠ 0 then
        if sanity_check then (-EPERM, path) else (0, path)
      else if path.length - root_length s ≠ 0 then
        (((path.length - root_length s : Nat) : Int) + 1, path.drop (root_length s))
      else (2, ['/']) := by
  unfold detranslate_path
  dsimp only
  rw [substitute_mirror_nil L s _ _ hm]
  dsimp only
  rw [if_neg (show ¬ ((-1 : Int) = 0) by decide), if_neg (show ¬ ((-1 : Int) = 1) by decide)]

theorem next_component_slash (L : Limits) (x : Path) :
    next_component L ('/' :: x) = next_component L x := by
  unfold next_component
  simp [List.dropWhile_cons]

theorem takeWhile_name_append (c rest : Path) (hc : '/' ∉ c)
    (hr : rest = [] ∨ rest.head? = some '/') :
    (c ++ rest).takeWhile (fun x => x ≠ '/') = c ∧
      (c ++ rest).dropWhile (fun x => x ≠ '/') = rest := by
  induction c with
  | nil =>
    rcases hr with rfl | hr
    · exact ⟨rfl, rfl⟩
    · obtain ⟨y, rfl⟩ := List.head?_eq_some_iff.mp hr
      simp [List.takeWhile_cons, List.dropWhile_cons]
  | cons a c ih =>
    have ha : a ≠ '/' := fun h => hc (h ▸ List.mem_cons_self _ _)
    have ih := ih (fun h => hc (List.mem_cons_of_mem _ h))
    simp only [List.cons_append, List.takeWhile_cons, List.dropWhile_cons, ne_eq, ha,
      not_false_eq_true, decide_True, if_true]
    exact ⟨by rw [ih.1], ih.2⟩

theorem dropWhile_slash_of_name (c rest : Path) (hc : IsName c) :
    (c ++ rest).dropWhile (fun x => x = '/') = c ++ rest := by
  obtain ⟨a, l, rfl⟩ := List.exists_cons_of_ne_nil hc.1
  have ha : a ≠ '/' := fun h => hc.2 (h ▸ List.mem_cons_self _ _)
  simp [List.dropWhile_cons, ha]

theorem flat_cases (cs : List Path) (tr : Bool) :
    (flat cs ++ (if tr then ['/'] else [])) = [] ∨
      (flat cs ++ (if tr then ['/'] else [])).head? = some '/' := by
  cases cs with
  | nil => cases tr <;> simp [flat]
  | cons c cs => right; simp [flat]

/-- Reading the first component of the rest of a sanitized path. -/
theorem next_component_name (L : Limits) (c : Path) (cs : List Path) (tr : Bool)
    (hc : IsName c) (hlen : c.length < L.NAME_MAX) (hcs : ∀ x ∈ cs, IsName x) :
    next_component L (c ++ (flat cs ++ (if tr then ['/'] else []))) =
      match cs with
      | [] => ⟨if tr then FINAL_FORCE_DIR else FINAL_NORMAL, c, []⟩
      | c2 :: cs' => ⟨0, c, c2 ++ (flat cs' ++ (if tr then ['/'] else []))⟩ := by
  have h1 : first_name (c ++ (flat cs ++ (if tr then ['/'] else []))) = c := by
    unfold first_name
    rw [dropWhile_slash_of_name c _ hc]
    exact (takeWhile_name_append c _ hc.2 (flat_cases cs tr)).1
  have h2 : after_name (c ++ (flat cs ++ (if tr then ['/'] else [])))
      = flat cs ++ (if tr then ['/'] else []) := by
    unfold after_name
    rw [dropWhile_slash_of_name c _ hc]
    exact (takeWhile_name_append c _ hc.2 (flat_cases cs tr)).2
  rw [next_component_eq, h1, if_neg (by omega)]
  unfold after_separators
  rw [h2]
  cases cs with
  | nil =>
    cases tr
    · simp [flat]
    · simp [flat, List.dropWhile_cons]
  | cons c2 cs' =>
    have hc2 := hcs c2 (List.mem_cons_self _ _)
    have e : flat (c2 :: cs') ++ (if tr then ['/'] else [])
        = '/' :: (c2 ++ (flat cs' ++ (if tr then ['/'] else []))) := by simp [flat]
    rw [e]
    have e2 : ('/' :: (c2 ++ (flat cs' ++ (if tr then ['/'] else [])))).dropWhile
        (fun x => decide (x = '/')) = c2 ++ (flat cs' ++ (if tr then ['/'] else [])) := by
      rw [List.dropWhile_cons, if_pos (by simp)]
      exact dropWhile_slash_of_name c2 _ hc2
    rw [e2, if_neg]
    intro h
    have := congrArg List.length h
    simp only [List.length_append, List.length_nil] at this
    have := List.length_pos.mpr hc2.1
    omega

theorem next_component_root (L : Limits) (h : 0 < L.NAME_MAX) :
    next_component L ['/'] = ⟨FINAL_NORMAL, [], []⟩ := by
  rw [next_component_eq]
  have h1 : first_name ['/'] = [] := by decide
  have h2 : after_separators ['/'] = [] := by decide
  have h3 : after_name ['/'] = [] := by decide
  rw [h1, h2, h3, if_neg (by simp; omega)]
  simp

theorem joined_root_name (p : Path) : joined ['/'] p = '/' :: p := by
  unfold joined
  rw [if_neg]
  · rfl
  · rintro ⟨_, h, _⟩
    exact h rfl

theorem detranslate_path_outside (L : Limits) (s : State) (hm : s.mirror_list = [])
    (path : Path) (hne : path ≠ []) (hroot : s.root = ['/'] ∨ ¬ s.root <+: path) :
    ¬ (detranslate_path L s path false).1 < 0 ∧ (detranslate_path L s path false).2 = path := by
  rw [detranslate_path_no_mirror L s hm]
  by_cases hr : s.root = ['/']
  · have h0 : root_length s = 0 := by unfold root_length; rw [if_pos hr]
    rw [h0, if_neg (by rw [not_not, strncmp_eq_zero]; rfl)]
    have hl : path.length - 0 ≠ 0 := by
      have := List.length_pos.mpr hne
      omega
    rw [if_pos hl]
    exact ⟨by dsimp only; omega, rfl⟩
  · have hp : ¬ s.root <+: path := by
      rcases hroot with h | h
      · exact absurd h hr
      · exact h
    have h0 : root_length s = s.root.length := by unfold root_length; rw [if_neg hr]
    have h1 : strncmp path s.root (root_length s) ≠ 0 := by
      intro h
      rw [strncmp_eq_zero, h0, List.take_length] at h
      exact hp (h ▸ List.take_prefix _ _)
    rw [if_pos h1]
    exact ⟨show ¬ ((0 : Int) < 0) by decide, rfl⟩

/-- The nested calls of `canonicalize` on a link whose value is its own guest path: each
level follows the link once more, until the counter exceeds `MAXSYMLINKS`. -/
theorem self_link_depth (L : Limits) (fs : FS) (s : State) (pid : Int) (p : Path)
    (hm : s.mirror_list = []) (hp : IsNormal p) (hlen : p.length < L.NAME_MAX)
    (hroot : s.root = ['/'] ∨ ¬ s.root <+: '/' :: p)
    (hfit : (s.root ++ '/' :: p).length < L.PATH_MAX)
    (hl : fs.lstat (s.root ++ '/' :: p) = .symlink)
    (hr : fs.readlink (s.root ++ '/' :: p) = some ('/' :: p)) :
    ∀ (k depth nb : Nat) (result : Path), nb + k = L.MAXSYMLINKS + 1 → k ≤ depth →
      canonicalize_depth L fs s pid depth ('/' :: p) true result nb
        = some (-ELOOP, if k = 0 then result else ['/']) := by
  intro k
  induction k with
  | zero =>
    intro depth nb result h1 _
    have : nb > L.MAXSYMLINKS := by omega
    cases depth <;> simp [canonicalize_depth, this]
  | succ k ih =>
    intro depth nb result h1 h2
    obtain ⟨d, rfl⟩ : ∃ d, depth = d + 1 := ⟨depth - 1, by omega⟩
    have hnb : ¬ nb > L.MAXSYMLINKS := by omega
    unfold canonicalize_depth
    dsimp only
    rw [if_neg hnb, if_neg (by simp), if_neg (by simp), List.length_cons, loop_succ,
      next_component_slash]
    have hnc := next_component_name L p [] false hp.1 hlen (by simp)
    simp only [flat, List.append_nil, Bool.false_eq_true, if_false] at hnc
    rw [hnc]
    dsimp only
    rw [if_neg (show ¬ (FINAL_NORMAL < 0) by decide)]
    have hps : proc_self_case L pid true FINAL_NORMAL p ['/'] = (0, p) :=
      proc_self_case_other _ _ _ _ _ _ (by rintro ⟨_, h, _⟩; exact absurd h (by decide))
    have hre : real_entry L s ['/'] p = (0, s.root ++ '/' :: p) := by
      have := real_entry_no_mirror L s hm ['/'] p rfl (by rw [joined_root_name]; exact hfit)
      rw [joined_root_name] at this
      exact this
    rw [body_follow p _ hp.2.1 hp.2.2 hps hre hl (by simp)]
    unfold follow_link
    rw [hr]
    dsimp only
    have htl : ('/' :: p).length < L.PATH_MAX := by
      rw [List.length_append] at hfit; omega
    rw [if_neg (by rw [Nat.min_eq_left (by omega)]; omega)]
    obtain ⟨hd1, hd2⟩ := detranslate_path_outside L s hm ('/' :: p) (by simp) hroot
    rw [if_neg hd1, hd2, ih d (nb + 1) ['/'] (by omega) (by omega)]
    dsimp only
    rw [if_pos (show -ELOOP < 0 by decide)]
    simp

/-- C8, as stated, fails: with the root `/loop`, the guest path `/loop` whose host entry
`/loop/loop` is a link with the value `/loop` is translated to `/loop/` with status 0,
because the value of the link starts with the root and is detranslated to `/`. -/
theorem translate_self_link_under_root :
    loopHost.lstat (loopJail.root ++ "/loop".toList) = .symlink ∧
      loopHost.readlink (loopJail.root ++ "/loop".toList) = some "/loop".toList ∧
      translate_path Limits.linux loopHost loopJail none [] AT_FDCWD "/loop".toList true
        = some ⟨0, "/loop/".toList, none⟩ := by
  decide

/-- C8 (amended): with no mirror, for every root `R` that is `/` or is not a leading part
of `/p`, and every normal component `p` shorter than `NAME_MAX` whose host entry `R/p`
is a link with the value `/p`, `translate_path` of `/p` returns `-ELOOP`. -/
theorem translate_self_link_loops (L : Limits) (fs : FS) (s : State) (p buf : Path)
    (hm : s.mirror_list = []) (hp : IsNormal p) (hlen : p.length < L.NAME_MAX)
    (hroot : s.root = ['/'] ∨ ¬ s.root <+: '/' :: p)
    (hfit : (s.root ++ '/' :: p).length < L.PATH_MAX)
    (hl : fs.lstat (s.root ++ '/' :: p) = .symlink)
    (hr : fs.readlink (s.root ++ '/' :: p) = some ('/' :: p)) :
    translate_path L fs s none buf AT_FDCWD ('/' :: p) true = some ⟨-ELOOP, ['/'], none⟩ := by
  have hb : translate_base L fs s fs.getpid buf AT_FDCWD ('/' :: p) = (0, ['/']) := by
    unfold translate_base
    rw [if_pos (by simp)]
  have hc : canonicalize L fs s fs.getpid ('/' :: p) true ['/'] 0 = some (-ELOOP, ['/']) := by
    unfold canonicalize
    rw [self_link_depth L fs s fs.getpid p hm hp hlen hroot hfit hl hr (L.MAXSYMLINKS + 1)
      (L.MAXSYMLINKS + 1) 0 ['/'] (by omega) (le_refl _), if_neg (by omega)]
  unfold translate_path
  dsimp only
  rw [hb]
  dsimp only
  rw [if_neg (show ¬ ((0 : Int) < 0) by decide), hc]
  dsimp only
  rw [if_pos (show -ELOOP < 0 by decide)]

theorem translate_self_link_loops_witness :
    translate_path Limits.linux
      ⟨fun p => if p = "/opt/jail/loop".toList then .symlink else .other,
       fun p => if p = "/opt/jail/loop".toList then some "/loop".toList else none,
       fun _ => true, fun _ => none, 1234⟩
      jail none [] AT_FDCWD "/loop".toList true = some ⟨-ELOOP, ['/'], none⟩ :=
  translate_self_link_loops Limits.linux _ jail "loop".toList [] rfl
    ⟨⟨by decide, by decide⟩, by decide, by decide⟩ (by decide) (Or.inr (by decide))
    (by decide) (by decide) (by decide)

/-! ## Components of a path -/

theorem components_nil : components [] = [] := by decide

theorem components_slash (x : Path) : components ('/' :: x) = components x := by
  unfold components
  rw [splitOn_slash_cons]
  simp

theorem components_dropWhile (x : Path) :
    components (x.dropWhile (fun c => c = '/')) = components x := by
  induction x with
  | nil => rfl
  | cons a x ih =>
    by_cases h : a = '/'
    · subst h
      rw [List.dropWhile_cons, if_pos (by simp), ih, components_slash]
    · rw [List.dropWhile_cons, if_neg (by simpa using h)]

theorem components_name (c : Path) (hc : IsName c) : components c = [c] := by
  unfold components
  rw [splitOn_name c hc.2]
  simp [hc.1]

theorem components_name_cons (c y : Path) (hc : IsName c) :
    components (c ++ '/' :: y) = c :: components y := by
  unfold components
  rw [splitOn_name_cons c y hc.2]
  simp [hc.1]

theorem first_name_eq_nil (cursor : Path) (h : first_name cursor = []) :
    cursor.dropWhile (fun c => c = '/') = [] := by
  unfold first_name at h
  cases hd : cursor.dropWhile (fun c => decide (c = '/')) with
  | nil => rfl
  | cons a l =>
    exfalso
    have hne : ¬ (decide (a = '/') = true) := by
      have := List.head_dropWhile_not (fun c => decide (c = '/')) cursor (by rw [hd]; simp)
      simpa [hd] using this
    rw [hd, List.takeWhile_cons, if_pos (by simpa using hne)] at h
    exact absurd h (by simp)

/-- The components of the rest of the input, in terms of what `next_component` reads. -/
theorem components_step (cursor : Path) :
    (first_name cursor = [] → components cursor = []) ∧
    (first_name cursor ≠ [] →
      components cursor = first_name cursor :: components (after_separators cursor)) := by
  constructor
  · intro h
    rw [← components_dropWhile, first_name_eq_nil cursor h]
    rfl
  · intro h
    have hn : IsName (first_name cursor) := ⟨h, first_name_no_slash cursor⟩
    have hs := List.takeWhile_append_dropWhile (fun c => decide (c ≠ '/'))
      (cursor.dropWhile (fun c => c = '/'))
    rw [← components_dropWhile cursor, ← hs]
    change components (first_name cursor ++ after_name cursor) = _
    unfold after_separators
    rw [components_dropWhile]
    rcases dropWhile_name_head (cursor.dropWhile (fun c => c = '/')) with h1 | ⟨y, h1⟩
    · change after_name cursor = [] at h1
      rw [h1, List.append_nil, components_name _ hn]
      rfl
    · change after_name cursor = '/' :: y at h1
      rw [h1, components_name_cons _ _ hn, components_slash]

theorem suffix_getLast_eq {x y : Path} (h : x <:+ y) (hx : x ≠ []) :
    x.getLast? = y.getLast? := by
  obtain ⟨t, rfl⟩ := h
  rw [List.getLast?_append_of_ne_nil _ hx]

theorem cursor_split (cursor : Path) :
    cursor = cursor.takeWhile (fun c => c = '/') ++ (first_name cursor ++ after_name cursor) := by
  unfold first_name after_name
  rw [List.takeWhile_append_dropWhile, List.takeWhile_append_dropWhile]

theorem first_name_after_separators (cursor : Path) (h : after_separators cursor ≠ []) :
    first_name (after_separators cursor) ≠ [] := by
  intro h0
  have h1 := first_name_eq_nil _ h0
  unfold after_separators at h h1
  rw [List.dropWhile_idempotent] at h1
  exact h h1

/-- When nothing follows the separators after the first component, the input ends with
`/` exactly when a separator follows that component. -/
theorem after_name_head (cursor : Path) (h1 : first_name cursor ≠ [])
    (h2 : after_separators cursor = []) :
    (after_name cursor).head? = some '/' ↔ cursor.getLast? = some '/' := by
  have hs := cursor_split cursor
  have hne : first_name cursor ++ after_name cursor ≠ [] := by simp [h1]
  have hl : cursor.getLast? = (first_name cursor ++ after_name cursor).getLast? := by
    conv_lhs => rw [hs]
    rw [List.getLast?_append_of_ne_nil _ hne]
  rw [hl]
  rcases dropWhile_name_head (cursor.dropWhile (fun c => c = '/')) with h3 | ⟨y, h3⟩
  · change after_name cursor = [] at h3
    rw [h3, List.append_nil]
    constructor
    · intro h; exact absurd h (by simp)
    · intro h
      exact absurd (List.mem_of_getLast?_eq_some h) (first_name_no_slash cursor)
  · change after_name cursor = '/' :: y at h3
    constructor
    · intro _
      have hne2 : after_name cursor ≠ [] := by rw [h3]; simp
      rw [List.getLast?_append_of_ne_nil _ hne2]
      unfold after_separators at h2
      rw [List.dropWhile_eq_nil_iff] at h2
      obtain ⟨a, ha⟩ : ∃ a, (after_name cursor).getLast? = some a := by
        cases hh : (after_name cursor).getLast? with
        | none => exact absurd (List.getLast?_eq_none_iff.mp hh) hne2
        | some a => exact ⟨a, rfl⟩
      have := h2 a (List.mem_of_getLast?_eq_some ha)
      rw [ha]
      simpa using this
    · intro _
      rw [h3]; rfl

theorem after_separators_length (cursor : Path) (h : first_name cursor ≠ []) :
    (after_separators cursor).length < cursor.length := by
  have hs := congrArg List.length (cursor_split cursor)
  simp only [List.length_append] at hs
  have h1 : (after_separators cursor).length ≤ (after_name cursor).length :=
    (List.dropWhile_suffix _).length_le
  have h2 := List.length_pos.mpr h
  omega

theorem lexical_walk_cons (kept : List Path) (c : Path) (rest : List Path) :
    lexical_walk kept (c :: rest) = lexical_walk (lexical_step kept c) rest := rfl

theorem lexical_walk_names (kept cs : List Path) (hk : ∀ c ∈ kept, IsName c)
    (hcs : ∀ c ∈ cs, IsName c) : ∀ c ∈ lexical_walk kept cs, IsName c := by
  induction cs generalizing kept with
  | nil => exact hk
  | cons a cs ih =>
    rw [lexical_walk_cons]
    apply ih _ _ (fun c hc => hcs c (List.mem_cons_of_mem _ hc))
    intro c hc
    unfold lexical_step at hc
    split_ifs at hc
    · exact hk c hc
    · exact hk c (List.mem_of_mem_dropLast hc)
    · rcases List.mem_append.mp hc with h | h
      · exact hk c h
      · rw [List.mem_singleton] at h
        exact h ▸ hcs a (List.mem_cons_self _ _)

theorem components_names (cursor : Path) : ∀ c ∈ components cursor, IsName c := by
  intro c hc
  unfold components at hc
  rw [List.mem_filter] at hc
  refine ⟨by simpa using hc.2, ?_⟩
  intro hmem
  -- a piece of `splitOn` has no separator
  have key : ∀ (l : Path), ∀ x ∈ l.splitOn '/', '/' ∉ x := by
    intro l
    induction l with
    | nil => intro x hx; rw [List.splitOn_nil] at hx; simp at hx; subst hx; simp
    | cons a l ih =>
      intro x hx
      unfold List.splitOn at hx ih
      rw [List.splitOnP_cons] at hx
      by_cases ha : a = '/'
      · subst ha
        simp only [beq_self_eq_true, if_true, List.mem_cons] at hx
        rcases hx with rfl | hx
        · simp
        · exact ih x hx
      · have hb : (a == '/') = false := by simpa using ha
        rw [hb] at hx
        simp only [Bool.false_eq_true, if_false] at hx
        cases hsp : List.splitOnP (fun x => x == '/') l with
        | nil => rw [hsp] at hx; simp [List.modifyHead] at hx
        | cons h t =>
          rw [hsp] at hx ih
          simp only [List.modifyHead, List.mem_cons] at hx
          rcases hx with rfl | hx
          · intro hm
            rcases List.mem_cons.mp hm with h1 | h1
            · exact ha h1.symm
            · exact ih h (List.mem_cons_self _ _) h1
          · exact ih x (List.mem_cons_of_mem _ hx)
  exact key cursor c hc.1 hmem

/-! ## Runs of `canonicalize` that append every component -/

theorem real_entry_probe (L : Limits) (s : State) (result c : Path)
    (h : (joined result c).length < L.PATH_MAX) :
    real_entry L s result c = probe L s (joined result c) := by
  unfold real_entry probe
  dsimp only
  rw [join_fits L _ _ h]
  dsimp only
  rw [if_neg (show ¬ ((0 : Int) < 0) by decide)]

theorem real_entry_ok (L : Limits) (s : State) (result c : Path)
    (h : ¬ (real_entry L s result c).1 < 0) :
    (joined result c).length < L.PATH_MAX ∧
      real_entry L s result c = probe L s (joined result c) := by
  have hl : (joined result c).length < L.PATH_MAX := by
    by_contra hc
    unfold real_entry at h
    dsimp only at h
    have hs := join_status L result c
    rw [if_pos (by omega)] at hs
    rw [hs, if_pos (show -ENAMETOOLONG < 0 by decide)] at h
    exact h (show -ENAMETOOLONG < 0 by decide)
  exact ⟨hl, real_entry_probe L s result c hl⟩

theorem probe_status (L : Limits) (s : State) (tmp : Path)
    (h : ¬ (probe L s tmp).1 < 0) : (probe L s tmp).1 = 0 := by
  unfold probe at h ⊢
  split_ifs at h ⊢ with h1
  · rfl
  · rw [join_status] at h ⊢
    split_ifs at h ⊢ with h2
    · exact absurd (show -ENAMETOOLONG < 0 by decide) h
    · rfl

/-- An iteration on a component that is appended as it is. -/
theorem body_commit_ok {L : Limits} {fs : FS} {s : State} {pid : Int} {deref_final : Bool}
    {recur : Path → Path → Nat → Option (Int × Path)} {is_final : Int}
    {c : Path} {kept : List Path} {nb : Nat}
    (hk : ∀ x ∈ kept, IsName x) (hc : IsName c)
    (h1 : c ≠ ['.']) (h2 : c ≠ ['.', '.'])
    (hok : CommitOK L fs s deref_final is_final kept c) :
    canonicalize_body L fs s pid deref_final recur is_final c (render kept false) nb
      = .next (render (kept ++ [c]) false) nb := by
  obtain ⟨hs, hfit, hp, hl⟩ := hok
  have hj : joined (render kept false) c = render (kept ++ [c]) false :=
    joined_render_name kept false c hk hc
  have hps := proc_self_case_other L pid deref_final is_final c (render kept false) hs
  have hre : real_entry L s (render kept false) c
      = (0, (probe L s (render (kept ++ [c]) false)).2) := by
    rw [real_entry_probe L s _ _ (by rw [hj]; exact hfit), hj]
    exact Prod.ext (probe_status L s _ hp) rfl
  have := @body_commit L fs s pid deref_final recur is_final c (render kept false) nb c _
    h1 h2 hps hre hl (by rw [hj]; exact hfit)
  rw [this, hj]

theorem end_final_status (L : Limits) (kept : List Path) (tr : Bool)
    (hk : ∀ x ∈ kept, IsName x)
    (hfit : tr = true → (render kept true).length < L.PATH_MAX) :
    canonicalize_end L (final_status [] tr) (render kept false) = (0, render kept tr) := by
  unfold canonicalize_end final_status
  cases tr with
  | false => simp [FINAL_NORMAL, FINAL_FORCE_DIR]
  | true =>
    have hj := joined_render_nil kept false hk
    have := join_fits L (render kept false) [] (by rw [hj]; exact hfit rfl)
    simp [this, hj]

theorem next_component_of_components (L : Limits) (cursor : Path) (c : Path)
    (rest : List Path) (hcs : components cursor = c :: rest) (hlen : c.length < L.NAME_MAX) :
    first_name cursor = c ∧ components (after_separators cursor) = rest ∧
    next_component L cursor =
      ⟨final_status rest (decide (cursor.getLast? = some '/')), c, after_separators cursor⟩ ∧
    (rest ≠ [] → (after_separators cursor).length < cursor.length ∧
      (after_separators cursor).getLast? = cursor.getLast?) := by
  have hne : first_name cursor ≠ [] := by
    intro h
    rw [(components_step cursor).1 h] at hcs
    exact absurd hcs (by simp)
  have hstep := (components_step cursor).2 hne
  rw [hcs] at hstep
  injection hstep with h1 h2
  have hnm : (first_name cursor).length < L.NAME_MAX := by rw [← h1]; exact hlen
  refine ⟨h1.symm, h2.symm, ?_, ?_⟩
  · rcases next_component_cases L cursor with ⟨h, _⟩ | ⟨_, ha, hh, e⟩ | ⟨_, ha, hh, e⟩ |
      ⟨_, ha, e⟩
    · exact absurd h (by omega)
    · have hr : rest = [] := by rw [h2, ha]; rfl
      have hl := (after_name_head cursor hne ha).mp hh
      rw [e, hr, ha, ← h1]
      unfold final_status
      rw [if_neg (by simp), if_pos (by simpa using hl)]
    · have hr : rest = [] := by rw [h2, ha]; rfl
      have hl : ¬ cursor.getLast? = some '/' := fun h => hh ((after_name_head cursor hne ha).mpr h)
      rw [e, hr, ha, ← h1]
      unfold final_status
      rw [if_neg (by simp), if_neg (by simpa using hl)]
    · have hr : rest ≠ [] := by
        rw [h2]
        have := first_name_after_separators cursor ha
        intro h0
        have hh := (components_step (after_separators cursor)).2 this
        rw [h0] at hh
        exact absurd hh (by simp)
      rw [e, ← h1]
      unfold final_status
      rw [if_pos hr]
  · intro hr
    have ha : after_separators cursor ≠ [] := by
      intro h0
      rw [h2, h0] at hr
      exact hr rfl
    exact ⟨after_separators_length cursor hne,
      suffix_getLast_eq (after_separators_suffix cursor) ha⟩

/-- A run of the loop of `canonicalize` in which every component is appended as it is
computes the lexical walk over the components of the input. -/
theorem loop_commits (L : Limits) (fs : FS) (s : State) (pid : Int) (deref_final : Bool)
    (recur : Path → Path → Nat → Option (Int × Path)) :
    ∀ (fuel : Nat) (cursor : Path) (kept : List Path) (nb : Nat),
      cursor.length < fuel → components cursor ≠ [] → (∀ x ∈ kept, IsName x) →
      (∀ c ∈ components cursor, c.length < L.NAME_MAX) →
      Commits L fs s deref_final (decide (cursor.getLast? = some '/')) kept
        (components cursor) →
      (cursor.getLast? = some '/' →
        (render (lexical_walk kept (components cursor)) true).length < L.PATH_MAX) →
      canonicalize_loop L fs s pid deref_final recur fuel cursor (render kept false) nb
        = some (0, render (lexical_walk kept (components cursor))
            (decide (cursor.getLast? = some '/'))) := by
  intro fuel
  induction fuel with
  | zero => intro cursor _ _ h; exact absurd h (by omega)
  | succ fuel ih =>
    intro cursor kept nb hfuel hne hk hlen hcom hfit
    obtain ⟨c, rest, hcs⟩ := List.exists_cons_of_ne_nil hne
    have hcn : IsName c := components_names cursor c (by rw [hcs]; exact List.mem_cons_self _ _)
    obtain ⟨_, h2, h3, h4⟩ := next_component_of_components L cursor c rest hcs
      (hlen c (by rw [hcs]; exact List.mem_cons_self _ _))
    rw [hcs] at hcom hfit hlen ⊢
    obtain ⟨hok, hcom'⟩ := hcom
    rw [lexical_walk_cons] at hfit ⊢
    have hk' : ∀ x ∈ lexical_step kept c, IsName x := by
      intro x hx
      have := lexical_walk_names kept [c] hk (by simpa using hcn) x
      exact this hx
    -- the iteration
    have hbody : canonicalize_body L fs s pid deref_final recur
        (final_status rest (decide (cursor.getLast? = some '/'))) c (render kept false) nb
        = .next (render (lexical_step kept c) false) nb := by
      unfold lexical_step
      by_cases h1 : c = ['.']
      · rw [if_pos h1]
        unfold canonicalize_body
        rw [if_pos h1]
      · rw [if_neg h1]
        by_cases h2 : c = ['.', '.']
        · rw [if_pos h2]
          unfold canonicalize_body
          rw [if_neg h1, if_pos h2, pop_component_render kept false hk]
        · rw [if_neg h2]
          exact body_commit_ok hk hcn h1 h2 (hok h1 h2)
    rw [loop_succ, h3]
    dsimp only
    have hst : ¬ final_status rest (decide (cursor.getLast? = some '/')) < 0 := by
      unfold final_status
      split_ifs <;> decide
    rw [if_neg hst, hbody]
    dsimp only
    by_cases hr : rest = []
    · subst hr
      have hf : ¬ final_status [] (decide (cursor.getLast? = some '/')) = 0 := by
        unfold final_status
        split_ifs <;> first | decide | simp_all
      rw [if_neg hf, end_final_status L _ _ hk' (by simpa using hfit)]
      rfl
    · have hf : final_status rest (decide (cursor.getLast? = some '/')) = 0 := by
        unfold final_status
        rw [if_pos hr]
      obtain ⟨h5, h6⟩ := h4 hr
      rw [if_pos hf]
      have := ih (after_separators cursor) (lexical_step kept c) nb (by omega)
        (by rw [h2]; exact hr) hk'
        (by rw [h2]; exact fun x hx => hlen x (List.mem_cons_of_mem _ hx))
        (by rw [h2, h6]; exact hcom')
        (by rw [h2, h6]; exact hfit)
      rw [this, h2, h6]

/-! ## Translation without links is the lexical normalisation (C2) -/

theorem components_flat (cs : List Path) (tr : Bool) (hcs : ∀ c ∈ cs, IsName c) :
    components (flat cs ++ (if tr then ['/'] else [])) = cs := by
  induction cs with
  | nil => cases tr <;> decide
  | cons c cs ih =>
    have ih := ih (fun x hx => hcs x (List.mem_cons_of_mem _ hx))
    have hc := hcs c (List.mem_cons_self _ _)
    have e : flat (c :: cs) ++ (if tr then ['/'] else [])
        = '/' :: (c ++ (flat cs ++ (if tr then ['/'] else []))) := by simp [flat]
    rw [e, components_slash]
    rcases flat_cases cs tr with h | h
    · rw [h] at ih ⊢
      rw [List.append_nil, components_name c hc, ← ih]
      rfl
    · obtain ⟨y, hy⟩ := List.head?_eq_some_iff.mp h
      rw [hy] at ih ⊢
      rw [components_name_cons c y hc, ← ih, components_slash]

theorem components_render (cs : List Path) (tr : Bool) (hcs : ∀ c ∈ cs, IsName c) :
    components (render cs tr) = cs := by
  unfold render
  by_cases h : cs = []
  · rw [if_pos h, h]; decide
  · rw [if_neg h]; exact components_flat cs tr hcs

theorem render_injective (cs ds : List Path) (hcs : ∀ c ∈ cs, IsName c)
    (hds : ∀ c ∈ ds, IsName c) (h : render cs false = render ds false) : cs = ds := by
  rw [← components_render cs false hcs, h, components_render ds false hds]

theorem probe_no_mirror (L : Limits) (s : State) (hm : s.mirror_list = []) (tmp : Path)
    (ht : tmp.head? = some '/') (h : (s.root ++ tmp).length < L.PATH_MAX) :
    probe L s tmp = (0, s.root ++ tmp) := by
  unfold probe
  rw [substitute_mirror_nil L s _ _ hm]
  dsimp only
  rw [if_neg (show ¬ ((-1 : Int) ≥ 0) by decide)]
  exact join_root L _ _ ht h

theorem take_succ_cons (c : Path) (rest : List Path) (k : Nat) :
    (c :: rest).take (k + 1) = c :: rest.take k := rfl

/-- Without mirrors and without links every component is appended as it is, as long as
the host paths fit and `/proc/self` is not met. -/
theorem commits_plain (L : Limits) (fs : FS) (s : State) (deref_final tr : Bool)
    (hm : s.mirror_list = []) (hfs : ∀ p, fs.lstat p ≠ .symlink) :
    ∀ (cs kept : List Path), (∀ c ∈ cs, IsName c) → (∀ c ∈ kept, IsName c) →
      (∀ k, k ≤ cs.length →
        (s.root ++ render (lexical_walk kept (cs.take k)) false).length < L.PATH_MAX) →
      (∀ k, k ≤ cs.length → lexical_walk kept (cs.take k) ≠ ["proc".toList, "self".toList]) →
      Commits L fs s deref_final tr kept cs := by
  intro cs
  induction cs with
  | nil => intro _ _ _ _ _; trivial
  | cons c rest ih =>
    intro kept hcs hk hfit hself
    have hc := hcs c (List.mem_cons_self _ _)
    have hk' : ∀ x ∈ lexical_step kept c, IsName x :=
      lexical_walk_names kept [c] hk (by simpa using hc)
    refine ⟨fun h1 h2 => ?_, ih (lexical_step kept c)
      (fun x hx => hcs x (List.mem_cons_of_mem _ hx)) hk'
      (fun k hk => by
        have := hfit (k + 1) (by simp only [List.length_cons]; omega)
        rwa [take_succ_cons, lexical_walk_cons] at this)
      (fun k hk => by
        have := hself (k + 1) (by simp only [List.length_cons]; omega)
        rwa [take_succ_cons, lexical_walk_cons] at this)⟩
    have hstep : lexical_step kept c = kept ++ [c] := by
      unfold lexical_step; rw [if_neg h1, if_neg h2]
    have hf := hfit 1 (by simp only [List.length_cons]; omega)
    have hs := hself 1 (by simp only [List.length_cons]; omega)
    rw [take_succ_cons] at hf hs
    simp only [List.take_zero, lexical_walk, List.foldl_cons, List.foldl_nil] at hf hs
    rw [hstep] at hf hs
    have hhead : (render (kept ++ [c]) false).head? = some '/' := render_head _ _
    have hp := probe_no_mirror L s hm _ hhead hf
    refine ⟨?_, ?_, ?_, ?_⟩
    · rintro ⟨h3, h4, _⟩
      apply hs
      have : kept = ["proc".toList] :=
        render_injective kept ["proc".toList] hk
          (by intro x hx; rw [List.mem_singleton.mp hx]; exact ⟨by decide, by decide⟩)
          (by rw [h4]; rfl)
      rw [this, h3]
      rfl
    · rw [List.length_append] at hf; omega
    · rw [hp]; exact (show ¬ ((0 : Int) < 0) by decide)
    · left; exact hfs _

theorem components_eq_nil (g : Path) (h : components g = []) :
    first_name g = [] ∧ after_name g = [] ∧ after_separators g = [] := by
  have h1 : first_name g = [] := by
    by_contra hne
    rw [(components_step g).2 hne] at h
    exact absurd h (by simp)
  have h2 := first_name_eq_nil g h1
  refine ⟨h1, ?_, ?_⟩
  · unfold after_name; rw [h2]; rfl
  · unfold after_separators after_name; rw [h2]; rfl

/-- `canonicalize` of an absolute path on a host without links and without mirrors. -/
theorem canonicalize_lexical (L : Limits) (fs : FS) (s : State) (pid : Int) (g buf : Path)
    (deref_final : Bool) (hN : 0 < L.NAME_MAX)
    (hm : s.mirror_list = []) (hfs : ∀ p, fs.lstat p ≠ .symlink)
    (habs : g.head? = some '/')
    (hname : ∀ c ∈ components g, c.length < L.NAME_MAX)
    (hfit : ∀ k, k ≤ (components g).length →
      (s.root ++ render (lexical_walk [] ((components g).take k)) false).length < L.PATH_MAX)
    (hself : ∀ k, k ≤ (components g).length →
      lexical_walk [] ((components g).take k) ≠ ["proc".toList, "self".toList])
    (hres : (s.root ++ lexical_normalisation g).length < L.PATH_MAX) :
    canonicalize L fs s pid g deref_final buf 0 = some (0, lexical_normalisation g) := by
  unfold canonicalize canonicalize_depth
  dsimp only
  rw [if_neg (by omega), if_neg (by rw [habs]; simp), if_neg (by rw [habs]; simp)]
  by_cases hc : components g = []
  · obtain ⟨h1, h2, h3⟩ := components_eq_nil g hc
    have hnc : next_component L g = ⟨FINAL_NORMAL, [], []⟩ := by
      rw [next_component_eq, h1, h2, h3, if_neg (by simp; omega)]
      simp
    have hf0 := hfit 0 (Nat.zero_le _)
    simp only [List.take_zero, lexical_walk, List.foldl_nil, render_nil] at hf0
    have hj : joined ['/'] [] = ['/'] := by decide
    have hre := real_entry_no_mirror L s hm ['/'] [] rfl (by rw [hj]; exact hf0)
    have hb := @body_commit L fs s pid deref_final
      (fun fake_path result nb_readlink =>
        canonicalize_depth L fs s pid L.MAXSYMLINKS fake_path true result nb_readlink)
      FINAL_NORMAL [] ['/'] 0 [] _ (by decide) (by decide)
      (proc_self_case_nil L pid deref_final FINAL_NORMAL ['/']) hre (Or.inl (hfs _))
      (by rw [hj]; rw [List.length_append] at hf0; simp at hf0 ⊢; omega)
    rw [loop_succ, hnc]
    dsimp only
    rw [if_neg (show ¬ (FINAL_NORMAL < 0) by decide), hb]
    dsimp only
    rw [if_neg (show ¬ (FINAL_NORMAL = 0) by decide), hj]
    unfold canonicalize_end lexical_normalisation
    rw [if_neg (show ¬ (FINAL_NORMAL = FINAL_FORCE_DIR) by decide), hc]
    rfl
  · have hcom := commits_plain L fs s deref_final (decide (g.getLast? = some '/')) hm hfs
      (components g) [] (components_names g) (by simp) hfit hself
    have := loop_commits L fs s pid deref_final
      (fun fake_path result nb_readlink =>
        canonicalize_depth L fs s pid L.MAXSYMLINKS fake_path true result nb_readlink)
      (g.length + 1) g [] 0 (by omega) hc (by simp) hname hcom
      (by
        intro hl
        unfold lexical_normalisation at hres
        rw [decide_eq_true hl, List.length_append] at hres
        omega)
    rw [render_nil] at this
    rw [this]
    rfl

theorem translate_path_absolute (L : Limits) (fs : FS) (s : State) (buf g : Path)
    (dir_fd : Int) (deref_final : Bool) (c : Path) (habs : g.head? = some '/')
    (h : canonicalize L fs s fs.getpid g deref_final ['/'] 0 = some (0, c)) :
    translate_path L fs s none buf dir_fd g deref_final
      = some (translate_tail L fs s none g deref_final c) := by
  have hb : translate_base L fs s fs.getpid buf dir_fd g = (0, ['/']) := by
    unfold translate_base
    rw [if_pos habs]
  unfold translate_path
  dsimp only
  rw [hb]
  dsimp only
  rw [if_neg (show ¬ ((0 : Int) < 0) by decide), h]
  dsimp only
  rw [if_neg (show ¬ ((0 : Int) < 0) by decide)]

theorem translate_tail_plain (L : Limits) (fs : FS) (s : State) (g c : Path)
    (deref_final : Bool) (hm : s.mirror_list = []) (hc : c.head? = some '/')
    (hfit : (s.root ++ c).length < L.PATH_MAX)
    (hreal : ∀ p q, fs.realpath p = some q → strncmp q s.root (root_length s) = 0) :
    translate_tail L fs s none g deref_final c = ⟨0, s.root ++ c, none⟩ := by
  unfold translate_tail
  dsimp only
  rw [if_neg (by simp), substitute_mirror_nil L s _ _ hm]
  dsimp only
  rw [if_neg (show ¬ ((-1 : Int) ≥ 0) by decide), join_root L _ _ hc hfit]
  dsimp only
  rw [if_neg (show ¬ ((0 : Int) < 0) by decide)]
  split
  · next tmp h =>
    cases deref_final with
    | false => simp at h
    | true =>
      simp only [if_true] at h
      rw [if_neg (not_not.mpr (hreal _ _ h))]
  · rfl

theorem translate_lexical (L : Limits) (fs : FS) (s : State) (g buf : Path)
    (hN : 0 < L.NAME_MAX) (hm : s.mirror_list = []) (hfs : ∀ p, fs.lstat p ≠ .symlink)
    (hreal : ∀ p q, fs.realpath p = some q → strncmp q s.root (root_length s) = 0)
    (habs : g.head? = some '/')
    (hname : ∀ c ∈ components g, c.length < L.NAME_MAX)
    (hfit : ∀ k, k ≤ (components g).length →
      (s.root ++ render (lexical_walk [] ((components g).take k)) false).length < L.PATH_MAX)
    (hself : ∀ k, k ≤ (components g).length →
      lexical_walk [] ((components g).take k) ≠ ["proc".toList, "self".toList])
    (hres : (s.root ++ lexical_normalisation g).length < L.PATH_MAX) :
    translate_path L fs s none buf AT_FDCWD g true
      = some ⟨0, s.root ++ lexical_normalisation g, none⟩ := by
  rw [translate_path_absolute L fs s buf g AT_FDCWD true (lexical_normalisation g) habs
    (canonicalize_lexical L fs s fs.getpid g ['/'] true hN hm hfs habs hname hfit hself hres)]
  exact congrArg some (translate_tail_plain L fs s g _ true hm (render_head _ _) hres hreal)

/-! ## Runs that depend on the probed entries only -/

/-- Whether every component is appended depends on the host through the probed entries
only. -/
theorem commits_of_probed (L : Limits) (fs fs0 : FS) (s : State) (deref_final tr : Bool) :
    ∀ (cs kept : List Path), Commits L fs0 s deref_final tr kept cs →
      (∀ p ∈ probed_entries L s kept cs, fs.lstat p ≠ .symlink) →
      Commits L fs s deref_final tr kept cs := by
  intro cs
  induction cs with
  | nil => intro _ _ _; trivial
  | cons c rest ih =>
    intro kept hcom hfs
    obtain ⟨hok, hrest⟩ := hcom
    have hsub : ∀ p ∈ probed_entries L s (lexical_step kept c) rest,
        p ∈ probed_entries L s kept (c :: rest) := by
      intro p hp
      unfold probed_entries
      split_ifs
      · exact hp
      · exact List.mem_cons_of_mem _ hp
    refine ⟨fun h1 h2 => ?_, ih _ hrest (fun p hp => hfs p (hsub p hp))⟩
    obtain ⟨a, b, c', _⟩ := hok h1 h2
    refine ⟨a, b, c', Or.inl (hfs _ ?_)⟩
    unfold probed_entries
    rw [if_neg (by rintro (h | h); exact h1 h; exact h2 h)]
    exact List.mem_cons_self _ _

/-- The host without its links: what `lstat` says of every entry is `other`. -/
theorem commits_plain_probed (L : Limits) (fs : FS) (s : State) (deref_final tr : Bool)
    (hm : s.mirror_list = []) (cs kept : List Path)
    (hcs : ∀ c ∈ cs, IsName c) (hk : ∀ c ∈ kept, IsName c)
    (hfit : ∀ k, k ≤ cs.length →
      (s.root ++ render (lexical_walk kept (cs.take k)) false).length < L.PATH_MAX)
    (hself : ∀ k, k ≤ cs.length →
      lexical_walk kept (cs.take k) ≠ ["proc".toList, "self".toList])
    (hfs : ∀ p ∈ probed_entries L s kept cs, fs.lstat p ≠ .symlink) :
    Commits L fs s deref_final tr kept cs :=
  commits_of_probed L fs ⟨fun _ => .other, fs.readlink, fs.stat_isdir, fs.realpath, fs.getpid⟩
    s deref_final tr cs kept
    (commits_plain L _ s deref_final tr hm (fun _ h => LstatResult.noConfusion h) cs kept hcs hk
      hfit hself) hfs

/-- `canonicalize` of an absolute path without mirrors, when no probed entry is a link. -/
theorem canonicalize_lexical_probed (L : Limits) (fs : FS) (s : State) (pid : Int)
    (g buf : Path) (deref_final : Bool) (hN : 0 < L.NAME_MAX)
    (hm : s.mirror_list = []) (hfs : ∀ p ∈ probed L s g, fs.lstat p ≠ .symlink)
    (habs : g.head? = some '/')
    (hname : ∀ c ∈ components g, c.length < L.NAME_MAX)
    (hfit : ∀ k, k ≤ (components g).length →
      (s.root ++ render (lexical_walk [] ((components g).take k)) false).length < L.PATH_MAX)
    (hself : ∀ k, k ≤ (components g).length →
      lexical_walk [] ((components g).take k) ≠ ["proc".toList, "self".toList])
    (hres : (s.root ++ lexical_normalisation g).length < L.PATH_MAX) :
    canonicalize L fs s pid g deref_final buf 0 = some (0, lexical_normalisation g) := by
  unfold canonicalize canonicalize_depth
  dsimp only
  rw [if_neg (by omega), if_neg (by rw [habs]; simp), if_neg (by rw [habs]; simp)]
  by_cases hc : components g = []
  · obtain ⟨h1, h2, h3⟩ := components_eq_nil g hc
    have hnc : next_component L g = ⟨FINAL_NORMAL, [], []⟩ := by
      rw [next_component_eq, h1, h2, h3, if_neg (by simp; omega)]
      simp
    have hf0 := hfit 0 (Nat.zero_le _)
    simp only [List.take_zero, lexical_walk, List.foldl_nil, render_nil] at hf0
    have hj : joined ['/'] [] = ['/'] := by decide
    have hre := real_entry_no_mirror L s hm ['/'] [] rfl (by rw [hj]; exact hf0)
    have hl : fs.lstat (s.root ++ joined ['/'] []) ≠ .symlink := by
      apply hfs
      unfold probed
      rw [if_pos hc, hj, probe_no_mirror L s hm ['/'] rfl hf0]
      exact List.mem_singleton.mpr rfl
    have hb := @body_commit L fs s pid deref_final
      (fun fake_path result nb_readlink =>
        canonicalize_depth L fs s pid L.MAXSYMLINKS fake_path true result nb_readlink)
      FINAL_NORMAL [] ['/'] 0 [] _ (by decide) (by decide)
      (proc_self_case_nil L pid deref_final FINAL_NORMAL ['/']) hre (Or.inl hl)
      (by rw [hj]; rw [List.length_append] at hf0; simp at hf0 ⊢; omega)
    rw [loop_succ, hnc]
    dsimp only
    rw [if_neg (show ¬ (FINAL_NORMAL < 0) by decide), hb]
    dsimp only
    rw [if_neg (show ¬ (FINAL_NORMAL = 0) by decide), hj]
    unfold canonicalize_end lexical_normalisation
    rw [if_neg (show ¬ (FINAL_NORMAL = FINAL_FORCE_DIR) by decide), hc]
    rfl
  · have hcom := commits_plain_probed L fs s deref_final (decide (g.getLast? = some '/')) hm
      (components g) [] (components_names g) (by simp) hfit hself
      (by unfold probed at hfs; rwa [if_neg hc] at hfs)
    have := loop_commits L fs s pid deref_final
      (fun fake_path result nb_readlink =>
        canonicalize_depth L fs s pid L.MAXSYMLINKS fake_path true result nb_readlink)
      (g.length + 1) g [] 0 (by omega) hc (by simp) hname hcom
      (by
        intro hl
        unfold lexical_normalisation at hres
        rw [decide_eq_true hl, List.length_append] at hres
        omega)
    rw [render_nil] at this
    rw [this]
    rfl

/-- The end of `translate_path` without mirrors, when the post-check of `realpath` on
the result does not leave the root. -/
theorem translate_tail_checked (L : Limits) (fs : FS) (s : State) (g c : Path)
    (deref_final : Bool) (hm : s.mirror_list = []) (hc : c.head? = some '/')
    (hfit : (s.root ++ c).length < L.PATH_MAX)
    (hreal : ∀ q, fs.realpath (s.root ++ c) = some q → strncmp q s.root (root_length s) = 0) :
    translate_tail L fs s none g deref_final c = ⟨0, s.root ++ c, none⟩ := by
  unfold translate_tail
  dsimp only
  rw [if_neg (by simp), substitute_mirror_nil L s _ _ hm]
  dsimp only
  rw [if_neg (show ¬ ((-1 : Int) ≥ 0) by decide), join_root L _ _ hc hfit]
  dsimp only
  rw [if_neg (show ¬ ((0 : Int) < 0) by decide)]
  split
  · next tmp h =>
    cases deref_final with
    | false => simp at h
    | true =>
      simp only [if_true] at h
      rw [if_neg (not_not.mpr (hreal _ h))]
  · rfl

/-- The translation of an absolute path without mirrors, when no probed entry is a link
and the post-check of `realpath` does not leave the root. -/
theorem translate_lexical_probed (L : Limits) (fs : FS) (s : State) (g buf : Path)
    (hN : 0 < L.NAME_MAX) (hm : s.mirror_list = [])
    (hfs : ∀ p ∈ probed L s g, fs.lstat p ≠ .symlink)
    (hreal : ∀ q, fs.realpath (s.root ++ lexical_normalisation g) = some q →
      strncmp q s.root (root_length s) = 0)
    (habs : g.head? = some '/')
    (hname : ∀ c ∈ components g, c.length < L.NAME_MAX)
    (hfit : ∀ k, k ≤ (components g).length →
      (s.root ++ render (lexical_walk [] ((components g).take k)) false).length < L.PATH_MAX)
    (hself : ∀ k, k ≤ (components g).length →
      lexical_walk [] ((components g).take k) ≠ ["proc".toList, "self".toList])
    (hres : (s.root ++ lexical_normalisation g).length < L.PATH_MAX) :
    translate_path L fs s none buf AT_FDCWD g true
      = some ⟨0, s.root ++ lexical_normalisation g, none⟩ := by
  rw [translate_path_absolute L fs s buf g AT_FDCWD true (lexical_normalisation g) habs
    (canonicalize_lexical_probed L fs s fs.getpid g ['/'] true hN hm hfs habs hname hfit hself
      hres)]
  exact congrArg some (translate_tail_checked L fs s g _ true hm (render_head _ _) hres hreal)

/-! ## Translation without mirrors and links (C2) -/

/-- C2, as stated, fails: on a host without links and with the root `/opt/jail`, the
absolute path `/proc/self/maps` has short components and a short result, yet the
translation is `/opt/jail/proc/1234/maps` (1234 being the pid), not the root followed by
the lexical normalisation `/proc/self/maps`. -/
theorem translate_proc_self_not_lexical :
    translate_path Limits.linux plainHost jail none [] AT_FDCWD "/proc/self/maps".toList true
      = some ⟨0, "/opt/jail/proc/1234/maps".toList, none⟩ ∧
    jail.root ++ lexical_normalisation "/proc/self/maps".toList
      = "/opt/jail/proc/self/maps".toList := by
  decide

/-- C2 (amended): with no mirror, on a host where no entry that the run probes is a link
and where `realpath` of the result, if it succeeds, does not leave the root, for every
absolute guest path `g` whose components are shorter than `NAME_MAX`, such that for every
leading part of the component sequence of `g` the root followed by its lexical
normalisation fits in `PATH_MAX` and that normalisation is not `/proc/self`, and such
that the result fits: `translate_path` returns 0 and writes the root followed by the
lexical normalisation of `g`. -/
theorem translate_path_lexical (L : Limits) (fs : FS) (s : State) (g buf : Path)
    (hN : 0 < L.NAME_MAX) (hm : s.mirror_list = [])
    (hfs : ∀ p ∈ probed L s g, fs.lstat p ≠ .symlink)
    (hreal : ∀ q, fs.realpath (s.root ++ lexical_normalisation g) = some q →
      strncmp q s.root (root_length s) = 0)
    (habs : g.head? = some '/')
    (hname : ∀ c ∈ components g, c.length < L.NAME_MAX)
    (hfit : ∀ k, k ≤ (components g).length →
      (s.root ++ render (lexical_walk [] ((components g).take k)) false).length < L.PATH_MAX)
    (hself : ∀ k, k ≤ (components g).length →
      lexical_walk [] ((components g).take k) ≠ ["proc".toList, "self".toList])
    (hres : (s.root ++ lexical_normalisation g).length < L.PATH_MAX) :
    translate_path L fs s none buf AT_FDCWD g true
      = some ⟨0, s.root ++ lexical_normalisation g, none⟩ :=
  translate_lexical_probed L fs s g buf hN hm hfs hreal habs hname hfit hself hres

theorem translate_path_lexical_witness :
    translate_path Limits.linux strayLinkHost jail none [] AT_FDCWD "/a/../b/./c".toList true
      = some ⟨0, jail.root ++ lexical_normalisation "/a/../b/./c".toList, none⟩ :=
  translate_path_lexical Limits.linux strayLinkHost jail "/a/../b/./c".toList []
    (by decide) rfl (by decide)
    (fun q h => by
      have hq : jail.root ++ lexical_normalisation "/a/../b/./c".toList = q :=
        Option.some.inj h
      rw [← hq]
      decide)
    (by decide) (by decide) (by decide) (by decide) (by decide)

/-! ## Round trip (C5) -/

theorem lexical_walk_normal (kept cs : List Path) (hcs : ∀ c ∈ cs, IsNormal c) :
    lexical_walk kept cs = kept ++ cs := by
  induction cs generalizing kept with
  | nil => simp [lexical_walk]
  | cons c cs ih =>
    have hc := hcs c (List.mem_cons_self _ _)
    rw [lexical_walk_cons, ih _ (fun x hx => hcs x (List.mem_cons_of_mem _ hx))]
    unfold lexical_step
    rw [if_neg hc.2.1, if_neg hc.2.2]
    simp

theorem flat_length_take (cs : List Path) (k : Nat) :
    (flat (cs.take k)).length ≤ (flat cs).length := by
  induction cs generalizing k with
  | nil => simp
  | cons c cs ih =>
    cases k with
    | zero => simp [flat]
    | succ k =>
      simp only [List.take_succ_cons, flat, List.length_cons, List.length_append]
      have := ih k
      omega

theorem render_length_take (cs : List Path) (k : Nat) (tr : Bool) :
    (render (cs.take k) false).length ≤ (render cs tr).length := by
  by_cases h : cs = []
  · subst h; simp [render]
  · have h1 : 1 ≤ (flat cs).length := List.length_pos.mpr (flat_ne_nil h)
    have h2 := flat_length_take cs k
    have h3 : (flat cs).length ≤ (render cs tr).length := by
      unfold render
      rw [if_neg h, List.length_append]
      omega
    by_cases hk : cs.take k = []
    · rw [hk, render_nil]
      simp only [List.length_singleton]
      omega
    · unfold render at h3 ⊢
      rw [if_neg hk]
      simp only [Bool.false_eq_true, if_false, List.append_nil]
      omega

theorem render_trailing (cs : List Path) (tr : Bool) (hcs : ∀ c ∈ cs, IsName c) :
    render cs (decide ((render cs tr).getLast? = some '/')) = render cs tr := by
  rcases snoc_cases cs with rfl | ⟨cs', l, rfl⟩
  · rfl
  · cases tr with
    | true => rw [render_getLast_true]; simp
    | false =>
      have := render_getLast_false cs' l (hcs l (by simp))
      rw [decide_eq_false this]

/-- `canonicalize` leaves a sanitized path alone on a host without links and mirrors. -/
theorem lexical_normalisation_render (cs : List Path) (tr : Bool)
    (hcs : ∀ c ∈ cs, IsNormal c) : lexical_normalisation (render cs tr) = render cs tr := by
  unfold lexical_normalisation
  rw [components_render cs tr (sanitized_names hcs), lexical_walk_normal [] cs hcs,
    List.nil_append]
  exact render_trailing cs tr (sanitized_names hcs)

theorem detranslate_path_under_root (L : Limits) (s : State) (hm : s.mirror_list = [])
    (hroot : s.root ≠ ['/']) (g : Path) (hg : g ≠ []) (sanity_check : Bool) :
    detranslate_path L s (s.root ++ g) sanity_check = ((g.length : Int) + 1, g) := by
  have h0 : root_length s = s.root.length := by unfold root_length; rw [if_neg hroot]
  rw [detranslate_path_no_mirror L s hm, h0,
    if_neg (by rw [not_not, strncmp_eq_zero]; simp)]
  have hl : (s.root ++ g).length - s.root.length = g.length := by simp
  rw [hl, if_pos (by have := List.length_pos.mpr hg; omega), List.drop_left]

/-- C5, as stated, fails in two ways. With the root `/opt/jail` on a host without links,
the guest path `/a/../b/./c` is translated to `/opt/jail/b/c` and detranslated to `/b/c`,
not to itself. With the root `/`, the guest path `/etc/passwd` is translated to
`//etc/passwd`, which detranslation leaves as it is. -/
theorem round_trip_not_identity :
    (translate_path Limits.linux plainHost jail none [] AT_FDCWD "/a/../b/./c".toList true
        = some ⟨0, "/opt/jail/b/c".toList, none⟩ ∧
      detranslate_path Limits.linux jail "/opt/jail/b/c".toList true = (5, "/b/c".toList)) ∧
    (translate_path Limits.linux plainHost rootJail none [] AT_FDCWD "/etc/passwd".toList true
        = some ⟨0, "//etc/passwd".toList, none⟩ ∧
      detranslate_path Limits.linux rootJail "//etc/passwd".toList true
        = (13, "//etc/passwd".toList)) := by
  decide

/-- C5 (amended): with a root other than `/`, no mirror, on a host where no entry that
the run probes is a link and where `realpath` of the result, if it succeeds, does not
leave the root, for every sanitized absolute guest path `g` that does not begin with
`/proc/self`, whose components are shorter than `NAME_MAX` and whose host path fits in
`PATH_MAX`: `translate_path` returns 0 with the root followed by `g`, and
`detranslate_path` with the sanity check rewrites that to exactly `g`. -/
theorem round_trip (L : Limits) (fs : FS) (s : State) (g buf : Path)
    (hN : 0 < L.NAME_MAX) (hroot : s.root ≠ ['/']) (hm : s.mirror_list = [])
    (hfs : ∀ p ∈ probed L s g, fs.lstat p ≠ .symlink)
    (hreal : ∀ q, fs.realpath (s.root ++ g) = some q → strncmp q s.root (root_length s) = 0)
    (hg : Clean g)
    (hname : ∀ c ∈ components g, c.length < L.NAME_MAX)
    (hself : ¬ ["proc".toList, "self".toList] <+: components g)
    (hfit : (s.root ++ g).length < L.PATH_MAX) :
    translate_path L fs s none buf AT_FDCWD g true = some ⟨0, s.root ++ g, none⟩ ∧
      detranslate_path L s (s.root ++ g) true = ((g.length : Int) + 1, g) := by
  obtain ⟨cs, tr, hcs, rfl⟩ := (clean_iff_sanitized g).mp hg
  have hnames := sanitized_names hcs
  rw [components_render cs tr hnames] at hname hself
  have hl := lexical_normalisation_render cs tr hcs
  have hwalk : ∀ k, lexical_walk [] (cs.take k) = cs.take k := fun k => by
    rw [lexical_walk_normal [] _ (fun c hc => hcs c (List.mem_of_mem_take hc)),
      List.nil_append]
  refine ⟨?_, detranslate_path_under_root L s hm hroot _ (render_ne_nil cs tr) true⟩
  have := translate_lexical_probed L fs s (render cs tr) buf hN hm hfs
    (by rw [hl]; exact hreal) (render_head cs tr)
    (by rw [components_render cs tr hnames]; exact hname)
    (by
      rw [components_render cs tr hnames]
      intro k _
      rw [hwalk k]
      have := render_length_take cs k tr
      rw [List.length_append] at hfit ⊢
      omega)
    (by
      rw [components_render cs tr hnames]
      intro k _ h
      rw [hwalk k] at h
      exact hself (h ▸ List.take_prefix _ _))
    (by rw [hl]; exact hfit)
  rw [this, hl]

theorem round_trip_witness :
    translate_path Limits.linux strayLinkHost jail none [] AT_FDCWD "/bin/ls".toList true
        = some ⟨0, jail.root ++ "/bin/ls".toList, none⟩ ∧
      detranslate_path Limits.linux jail (jail.root ++ "/bin/ls".toList) true
        = (("/bin/ls".toList.length : Int) + 1, "/bin/ls".toList) :=
  round_trip Limits.linux strayLinkHost jail "/bin/ls".toList [] (by decide) (by decide) rfl
    (by decide)
    (fun q h => by
      have hq : jail.root ++ "/bin/ls".toList = q := Option.some.inj h
      rw [← hq]
      decide)
    ((clean_iff_sanitized _).mpr ⟨["bin".toList, "ls".toList], false, by decide, rfl⟩)
    (by decide) (by decide) (by decide)

/-! ## Translation through a mirror (C6) -/

/-- `canonicalize` leaves a sanitized path as it is when each of its components is
appended as it is. -/
theorem canonicalize_fixed (L : Limits) (fs : FS) (s : State) (pid : Int)
    (deref_final : Bool) (buf : Path) (nb : Nat) (cs : List Path) (tr : Bool)
    (hnb : nb ≤ L.MAXSYMLINKS) (hne : cs ≠ []) (hnorm : ∀ c ∈ cs, IsNormal c)
    (hname : ∀ c ∈ cs, c.length < L.NAME_MAX)
    (hcom : Commits L fs s deref_final tr [] cs)
    (hfit : (render cs tr).length < L.PATH_MAX) :
    canonicalize L fs s pid (render cs tr) deref_final buf nb = some (0, render cs tr) := by
  have hnames := sanitized_names hnorm
  have htr : decide ((render cs tr).getLast? = some '/') = tr := by
    obtain ⟨cs', l, rfl⟩ : ∃ cs' l, cs = cs' ++ [l] := by
      rcases snoc_cases cs with h | h
      · exact absurd h hne
      · exact h
    cases tr with
    | true => rw [render_getLast_true]; simp
    | false => exact decide_eq_false (render_getLast_false cs' l (hnames l (by simp)))
  unfold canonicalize canonicalize_depth
  dsimp only
  rw [if_neg (by omega), if_neg (by rw [render_head]; simp),
    if_neg (by rw [render_head]; simp)]
  have := loop_commits L fs s pid deref_final
    (fun fake_path result nb_readlink =>
      canonicalize_depth L fs s pid L.MAXSYMLINKS fake_path true result nb_readlink)
    ((render cs tr).length + 1) (render cs tr) [] nb (by omega)
    (by rw [components_render cs tr hnames]; exact hne) (by simp)
    (by rw [components_render cs tr hnames]; exact hname)
    (by rw [components_render cs tr hnames, htr]; exact hcom)
    (by
      intro hl
      rw [components_render cs tr hnames, lexical_walk_normal [] cs hnorm, List.nil_append]
      have : tr = true := by rw [← htr]; exact decide_eq_true hl
      rw [this] at hfit
      exact hfit)
  rw [render_nil] at this
  rw [this, components_render cs tr hnames, lexical_walk_normal [] cs hnorm, List.nil_append,
    htr]

theorem matches_append (ref rest : Path) (h : rest = [] ∨ rest.head? = some '/') :
    Matches ref (ref ++ rest) := by
  refine ⟨by simp, ?_, by simp⟩
  rcases h with rfl | h
  · right
    rw [List.append_nil]
    exact List.getD_eq_default _ _ (le_refl _)
  · left
    obtain ⟨y, rfl⟩ := List.head?_eq_some_iff.mp h
    exact getD_at_length _ _ _ _ rfl

/-- `substitute_mirror` with a single sanitized mirror that needs a substitution. -/
theorem substitute_mirror_single (L : Limits) (s : State) (m : mirror) (which : Nat)
    (hw : which = MIRROR_LOCATION ∨ which = MIRROR_REAL)
    (hm : s.mirror_list = [m]) (hs : m.sanitized = true) (hn : m.need_substitution = true)
    (path : Path) :
    substitute_mirror L s which path =
      if Matches (m.ref which) path ∧
          path.length - (m.ref which).length + (m.anti_ref which).length < L.PATH_MAX then
        (1, m.anti_ref which ++ path.drop (m.ref which).length)
      else (-1, path) := by
  unfold substitute_mirror
  rw [hm, substitute_mirror_from_cons, if_neg (by rw [hs]; simp),
    if_neg (by rintro ⟨h1, h2⟩; rcases hw with h | h; exact h1 h; exact h2 h)]
  by_cases hM : Matches (m.ref which) path
  · rw [if_neg (not_not.mpr hM), if_neg (by rw [hn]; simp)]
    by_cases hl : path.length - (m.ref which).length + (m.anti_ref which).length ≥ L.PATH_MAX
    · rw [if_pos hl, if_neg (by rintro ⟨_, h⟩; omega)]
    · rw [if_neg hl, if_pos ⟨hM, by omega⟩]
  · rw [if_pos hM, if_neg (fun h => hM h.1)]
    rfl

theorem render_append (lc e : List Path) (tr : Bool) (hlc : lc ≠ []) :
    render (lc ++ e) tr = render lc false ++ (flat e ++ (if tr then ['/'] else [])) := by
  unfold render
  rw [if_neg (by simp [hlc]), if_neg hlc, flat_append]
  simp

/-- With a single sanitized mirror that needs a substitution, on a host without links,
every component of a path under the mirror is appended as it is. -/
theorem commits_mirror (L : Limits) (fs : FS) (s : State) (deref_final tr : Bool)
    (m : mirror) (lc : List Path)
    (hm : s.mirror_list = [m]) (hs : m.sanitized = true) (hn : m.need_substitution = true)
    (hloc : m.location = render lc false) (hlc : lc ≠ [])
    (hfs : ∀ p, fs.lstat p ≠ .symlink)
    (hroot : (s.root ++ m.location).length < L.PATH_MAX) :
    ∀ (cs kept : List Path), (∀ c ∈ kept ++ cs, IsNormal c) → lc <+: kept ++ cs →
      (render (kept ++ cs) false).length < L.PATH_MAX →
      (render (kept ++ cs) false).length - m.location.length + m.real.length < L.PATH_MAX →
      ¬ ["proc".toList, "self".toList] <+: kept ++ cs →
      Commits L fs s deref_final tr kept cs := by
  intro cs
  induction cs with
  | nil => intro _ _ _ _ _ _; trivial
  | cons c rest ih =>
    intro kept hnorm hpre hfit hsub hself
    have hc : IsNormal c := hnorm c (by simp)
    have hstep : lexical_step kept c = kept ++ [c] := by
      unfold lexical_step; rw [if_neg hc.2.1, if_neg hc.2.2]
    have hall : kept ++ c :: rest = (kept ++ [c]) ++ rest := by simp
    rw [hall] at hnorm hpre hfit hsub hself
    refine ⟨fun _ _ => ?_, by rw [hstep]; exact ih (kept ++ [c]) hnorm hpre hfit hsub hself⟩
    have hP : kept ++ [c] <+: (kept ++ [c]) ++ rest := List.prefix_append _ _
    have hPn : ∀ x ∈ kept ++ [c], IsName x := fun x hx => (hnorm x (by simp at hx ⊢; tauto)).1
    have hkn : ∀ x ∈ kept, IsName x := fun x hx => hPn x (by simp [hx])
    have hlen : (render (kept ++ [c]) false).length
        ≤ (render ((kept ++ [c]) ++ rest) false).length := by
      have := render_length_take ((kept ++ [c]) ++ rest) (kept ++ [c]).length false
      rwa [List.take_left] at this
    refine ⟨?_, by omega, ?_, Or.inl (hfs _)⟩
    · rintro ⟨h3, h4, _⟩
      apply hself
      have : kept = ["proc".toList] :=
        render_injective kept ["proc".toList] hkn
          (by intro x hx; rw [List.mem_singleton.mp hx]; exact ⟨by decide, by decide⟩)
          (by rw [h4]; rfl)
      rw [this, h3]
      exact List.prefix_append _ _
    · have hr : m.ref MIRROR_LOCATION = m.location := by simp [mirror.ref]
      have ha : m.anti_ref MIRROR_LOCATION = m.real := by simp [mirror.anti_ref]
      have hsingle := substitute_mirror_single L s m MIRROR_LOCATION (Or.inl rfl) hm hs hn
        (render (kept ++ [c]) false)
      rw [hr, ha] at hsingle
      have hmatch : Matches m.location (render (kept ++ [c]) false) →
          ¬ (probe L s (render (kept ++ [c]) false)).1 < 0 := by
        intro hM
        rw [if_pos ⟨hM, by omega⟩] at hsingle
        unfold probe
        rw [hsingle, if_pos (show (1 : Int) ≥ 0 by decide)]
        exact (show ¬ ((0 : Int) < 0) by decide)
      rcases List.prefix_or_prefix_of_prefix hP hpre with h | h
      · -- a proper leading part of the location, or the location itself
        by_cases he : kept ++ [c] = lc
        · apply hmatch
          rw [he, hloc]
          have := matches_append (render lc false) [] (Or.inl rfl)
          rwa [List.append_nil] at this
        · obtain ⟨q, hq⟩ := h
          have hqne : q ≠ [] := by
            intro h0
            rw [h0, List.append_nil] at hq
            exact he hq
          have hshort : (render (kept ++ [c]) false).length < m.location.length := by
            rw [hloc, ← hq, render_append (kept ++ [c]) q false (by simp)]
            have := List.length_pos.mpr (flat_ne_nil hqne)
            simp only [List.length_append]
            omega
          rw [if_neg (by rintro ⟨⟨h1, _⟩, _⟩; omega)] at hsingle
          unfold probe
          rw [hsingle, if_neg (show ¬ ((-1 : Int) ≥ 0) by decide),
            join_root L _ _ (render_head _ _) (by
              rw [List.length_append] at hroot ⊢; omega)]
          exact (show ¬ ((0 : Int) < 0) by decide)
      · obtain ⟨e, he⟩ := h
        apply hmatch
        rw [← he, render_append lc e false hlc, hloc]
        exact matches_append _ _ (by
          have := flat_cases e false
          simpa using this)

/-- C6, as stated, fails: with the sanitized mirror `real = /hostproc`, `location = /proc`
on a host without links, the sanitized guest path `/proc/self/x` is translated to
`/hostproc/1234/x` (1234 being the pid), not to the real path followed by `/self/x`. -/
theorem translate_mirror_proc_self :
    translate_path Limits.linux plainHost procMirrorJail none [] AT_FDCWD
        "/proc/self/x".toList true = some ⟨0, "/hostproc/1234/x".toList, none⟩ ∧
      "/hostproc".toList ++ "/proc/self/x".toList.drop "/proc".toList.length
        = "/hostproc/self/x".toList := by
  decide

/-- C6 (amended): with a single sanitized mirror that needs a substitution, whose location
has the components `lc`, on a host where no entry that the run probes is a link: for
every guest path `g` made of `lc` followed by further normal components `extra` (with or
without a trailing `/`), all shorter than `NAME_MAX`, that does not begin with
`/proc/self`, such that `g`, the root followed by the location, and the result fit in
`PATH_MAX`, `translate_path` returns 0 and writes the real path followed by the part of
`g` after the location. -/
theorem translate_path_mirror (L : Limits) (fs : FS) (s : State) (m : mirror)
    (lc extra : List Path) (tr : Bool) (buf : Path)
    (hm : s.mirror_list = [m]) (hs : m.sanitized = true) (hn : m.need_substitution = true)
    (hloc : m.location = render lc false) (hlc : lc ≠ [])
    (hnorm : ∀ c ∈ lc ++ extra, IsNormal c)
    (hname : ∀ c ∈ lc ++ extra, c.length < L.NAME_MAX)
    (hself : ¬ ["proc".toList, "self".toList] <+: lc ++ extra)
    (hfs : ∀ p ∈ probed_entries L s [] (lc ++ extra), fs.lstat p ≠ .symlink)
    (hg : (render (lc ++ extra) tr).length < L.PATH_MAX)
    (hroot : (s.root ++ m.location).length < L.PATH_MAX)
    (hres : (m.real ++ (render (lc ++ extra) tr).drop m.location.length).length
      < L.PATH_MAX) :
    translate_path L fs s none buf AT_FDCWD (render (lc ++ extra) tr) true
      = some ⟨0, m.real ++ (render (lc ++ extra) tr).drop m.location.length, none⟩ := by
  have hne : lc ++ extra ≠ [] := by simp [hlc]
  have hlocle : m.location.length ≤ (render (lc ++ extra) tr).length := by
    rw [render_append lc extra tr hlc, hloc, List.length_append]; omega
  have hfalse : (render (lc ++ extra) false).length ≤ (render (lc ++ extra) tr).length := by
    have := render_length_take (lc ++ extra) (lc ++ extra).length tr
    rwa [List.take_length] at this
  have hdrop : ((render (lc ++ extra) tr).drop m.location.length).length
      = (render (lc ++ extra) tr).length - m.location.length := List.length_drop _ _
  have hcom0 := commits_mirror L
    ⟨fun _ => .other, fs.readlink, fs.stat_isdir, fs.realpath, fs.getpid⟩ s true tr m lc hm hs
    hn hloc hlc (fun _ h => LstatResult.noConfusion h) hroot (lc ++ extra) []
    (by simpa using hnorm) (by simp) (by simp only [List.nil_append]; omega)
    (by
      simp only [List.nil_append]
      rw [List.length_append, hdrop] at hres
      omega)
    (by simpa using hself)
  have hcom := commits_of_probed L fs _ s true tr (lc ++ extra) [] hcom0 hfs
  have hcanon := canonicalize_fixed L fs s fs.getpid true ['/'] 0 (lc ++ extra) tr
    (Nat.zero_le _) hne hnorm hname hcom hg
  rw [translate_path_absolute L fs s buf _ AT_FDCWD true _ (render_head _ _) hcanon]
  -- the mirror is substituted in the canonical path
  have hM : Matches m.location (render (lc ++ extra) tr) := by
    rw [render_append lc extra tr hlc, hloc]
    exact matches_append _ _ (flat_cases extra tr)
  have hsingle := substitute_mirror_single L s m MIRROR_LOCATION (Or.inl rfl) hm hs hn
    (render (lc ++ extra) tr)
  have hr : m.ref MIRROR_LOCATION = m.location := by simp [mirror.ref]
  have ha : m.anti_ref MIRROR_LOCATION = m.real := by simp [mirror.anti_ref]
  rw [hr, ha, if_pos ⟨hM, by rw [List.length_append, hdrop] at hres; omega⟩] at hsingle
  unfold translate_tail
  dsimp only
  rw [if_neg (by simp), hsingle, if_pos (show (1 : Int) ≥ 0 by decide)]

theorem translate_path_mirror_witness :
    translate_path Limits.linux strayLinkHost libMirrorJail none [] AT_FDCWD
        (render (["lib".toList] ++ ["x".toList]) false) true
      = some ⟨0, "/usr/lib".toList ++
          (render (["lib".toList] ++ ["x".toList]) false).drop "/lib".toList.length, none⟩ :=
  translate_path_mirror Limits.linux strayLinkHost libMirrorJail
    ⟨"/usr/lib".toList, "/lib".toList, true, true⟩ ["lib".toList] ["x".toList] false []
    rfl rfl rfl (by decide) (by decide) (by decide) (by decide) (by decide)
    (by decide) (by decide) (by decide) (by decide)

/-! ## Idempotence of `canonicalize` (C9) -/

theorem allProbed_nil (L : Limits) (fs : FS) (s : State) : AllProbed L fs s [] := by
  intro pre c h
  have := h.length_le
  simp at this

theorem allProbed_prefix {L : Limits} {fs : FS} {s : State} {cs pre : List Path}
    (h : AllProbed L fs s cs) (hp : pre <+: cs) : AllProbed L fs s pre :=
  fun p c hpc => h p c (hpc.trans hp)

theorem allProbed_snoc {L : Limits} {fs : FS} {s : State} {cs : List Path} {c : Path}
    (h : AllProbed L fs s cs) (hc : Probed L fs s true cs c) : AllProbed L fs s (cs ++ [c]) := by
  intro pre x hpx
  rcases List.prefix_concat_iff.mp hpx with e | hp
  · have := List.append_inj' e rfl
    rw [this.1, List.singleton_inj.mp this.2]
    exact hc
  · exact h pre x hp

theorem allProbed_mem {L : Limits} {fs : FS} {s : State} {cs : List Path}
    (h : AllProbed L fs s cs) : ∀ c ∈ cs, IsNormal c ∧ c.length < L.NAME_MAX := by
  intro c hc
  obtain ⟨a, b, rfl⟩ := List.append_of_mem hc
  have := h a c ⟨b, by simp⟩
  exact ⟨this.1, this.2.1⟩

theorem walked_root (L : Limits) (fs : FS) (s : State) : Walked L fs s ['/'] :=
  ⟨[], false, allProbed_nil L fs s, rfl⟩

theorem walked_names {L : Limits} {fs : FS} {s : State} {cs : List Path}
    (h : AllProbed L fs s cs) : ∀ c ∈ cs, IsName c :=
  fun c hc => (allProbed_mem h c hc).1.1

theorem walked_head {L : Limits} {fs : FS} {s : State} {p : Path} (h : Walked L fs s p) :
    p.head? = some '/' := by
  obtain ⟨cs, tr, _, rfl⟩ := h
  exact render_head cs tr

theorem proc_self_case_ok (L : Limits) (pid : Int) (deref_final : Bool) (is_final : Int)
    (component result : Path) (hlen : component.length < L.NAME_MAX)
    (h : ¬ (proc_self_case L pid deref_final is_final component result).1 < 0) :
    (proc_self_case L pid deref_final is_final component result).2.length < L.NAME_MAX ∧
    ((proc_self_case L pid deref_final is_final component result).2 = component ∨
      (proc_self_case L pid deref_final is_final component result).2 = fmt_d pid) := by
  unfold proc_self_case at h ⊢
  split_ifs at h ⊢ with h1 h2
  · exact absurd (show -EPERM < 0 by decide) h
  · exact ⟨by dsimp only; omega, Or.inr rfl⟩
  · exact ⟨hlen, Or.inl rfl⟩

/-- What one iteration does to a walked `result`. -/
theorem body_walked {L : Limits} {fs : FS} {s : State} {pid : Int} {deref_final : Bool}
    {recur : Path → Path → Nat → Option (Int × Path)}
    (hrec : Keeps (Walked L fs s) recur)
    {is_final : Int} {component result : Path} {nb : Nat} (hres : Walked L fs s result)
    (hc : '/' ∉ component) (hlen : component.length < L.NAME_MAX)
    {result' : Path} {nb' : Nat}
    (h : canonicalize_body L fs s pid deref_final recur is_final component result nb
      = .next result' nb') :
    Walked L fs s result' ∨
      (is_final = FINAL_NORMAL ∧ deref_final = false ∧
        ∃ cs c, AllProbed L fs s cs ∧ Probed L fs s false cs c ∧
          result' = render (cs ++ [c]) false) := by
  rcases body_next h with ⟨_, h2, _⟩ | ⟨_, h2, _⟩ | ⟨h1, h2, h3, h4, h5⟩
  · exact Or.inl (h2 ▸ hres)
  · obtain ⟨cs, tr, hcs, rfl⟩ := hres
    rw [pop_component_render cs tr (walked_names hcs)] at h2
    injection h2 with h2
    exact Or.inl ⟨cs.dropLast, false, allProbed_prefix hcs (List.dropLast_prefix _), h2.symm⟩
  · rcases h5 with ⟨hl, hj, hr, _⟩ | ⟨_, hf⟩
    · obtain ⟨cs, tr, hcs, rfl⟩ := hres
      obtain ⟨hplen, hpc⟩ := proc_self_case_ok L pid deref_final is_final component _ hlen h3
      generalize (proc_self_case L pid deref_final is_final component (render cs tr)).2 = c
        at h4 hl hj hr hplen hpc
      have hcs' : '/' ∉ c ∧ c ≠ ['.'] ∧ c ≠ ['.', '.'] := by
        rcases hpc with e | e
        · rw [e]; exact ⟨hc, h1, h2⟩
        · rw [e]; have := fmt_d_normal pid; exact ⟨this.1.2, this.2.1, this.2.2⟩
      obtain ⟨hfit, hre⟩ := real_entry_ok L s _ _ h4
      rw [(join_ok L _ _ hj).1] at hr
      dsimp only at hr
      by_cases he : c = []
      · subst he
        rw [joined_render_nil cs tr (walked_names hcs)] at hr
        exact Or.inl ⟨cs, true, hcs, hr⟩
      · have hname : IsName c := ⟨he, hcs'.1⟩
        have hjr := joined_render_name cs tr c (walked_names hcs) hname
        rw [hjr] at hr hfit hre
        rw [hre] at h4 hl
        have hweak : Probed L fs s false cs c :=
          ⟨⟨hname, hcs'.2.1, hcs'.2.2⟩, hplen, hfit, h4, fun h => by simp at h⟩
        rcases hl with hl | hl
        · exact Or.inl ⟨cs ++ [c], false,
            allProbed_snoc hcs ⟨hweak.1, hplen, hfit, h4, fun _ => hl⟩, hr⟩
        · exact Or.inr ⟨hl.1, hl.2, cs, c, hcs, hweak, hr⟩
    · obtain ⟨target, r, _, _, _, hr, hr0, hres', _⟩ := follow_link_next hf
      rw [hres']
      exact Or.inl (hrec _ _ _ _ hres hr hr0)

theorem next_component_length (L : Limits) (cursor : Path)
    (h : ¬ (next_component L cursor).status < 0) :
    (next_component L cursor).component.length < L.NAME_MAX := by
  rcases next_component_cases L cursor with ⟨_, e⟩ | ⟨hl, _, _, e⟩ | ⟨hl, _, _, e⟩ | ⟨hl, _, e⟩
  · rw [e] at h; exact absurd (show -ENAMETOOLONG < 0 by decide) h
  · rw [e]; exact hl
  · rw [e]; exact hl
  · rw [e]; exact hl

theorem end_walked {L : Limits} {fs : FS} {s : State} {is_final : Int} {result : Path}
    (hres : Walked L fs s result)
    (h : ¬ (canonicalize_end L is_final result).1 < 0) :
    Walked L fs s (canonicalize_end L is_final result).2 := by
  unfold canonicalize_end at h ⊢
  dsimp only at h ⊢
  by_cases h1 : is_final = FINAL_FORCE_DIR
  · rw [if_pos h1] at h ⊢
    by_cases h2 : (join_paths L [some result, some []]).1 < 0
    · rw [if_pos h2] at h; exact absurd h2 h
    · rw [if_neg h2, (join_ok L _ _ h2).1]
      obtain ⟨cs, tr, hcs, rfl⟩ := hres
      exact ⟨cs, true, hcs, joined_render_nil cs tr (walked_names hcs)⟩
  · rw [if_neg h1]; exact hres

theorem loop_resolved {L : Limits} {fs : FS} {s : State} {pid : Int} {deref_final : Bool}
    {recur : Path → Path → Nat → Option (Int × Path)}
    (hrec : Keeps (Walked L fs s) recur)
    (fuel : Nat) (cursor result : Path) (nb : Nat) (out : Int × Path)
    (hres : Walked L fs s result)
    (h : canonicalize_loop L fs s pid deref_final recur fuel cursor result nb = some out)
    (h0 : ¬ out.1 < 0) : Resolved L fs s deref_final out.2 := by
  induction fuel generalizing cursor result nb with
  | zero => exact absurd h (by simp [canonicalize_loop])
  | succ fuel ih =>
    obtain ⟨hst, result', nb', hb, hl⟩ := loop_ok h h0
    have hs := body_walked hrec hres (next_component_no_slash L cursor)
      (next_component_length L cursor hst) hb
    rcases hl with ⟨h2, hl⟩ | ⟨_, hl⟩
    · rcases hs with hs | ⟨hs, _⟩
      · exact ih _ _ _ hs hl
      · rw [h2] at hs; exact absurd hs (by decide)
    · rw [hl] at h0 ⊢
      rcases hs with hs | ⟨hs1, hs2, hs3⟩
      · exact Or.inl (end_walked hs h0)
      · right
        unfold canonicalize_end
        rw [hs1, if_neg (show ¬ (FINAL_NORMAL = FINAL_FORCE_DIR) by decide)]
        exact ⟨hs2, hs3⟩

theorem resolved_true {L : Limits} {fs : FS} {s : State} {p : Path}
    (h : Resolved L fs s true p) : Walked L fs s p := by
  rcases h with h | ⟨h, _⟩
  · exact h
  · exact absurd h (by decide)

/-- The output of a successful `canonicalize` started from a walked base (or on an
absolute input) is resolved. -/
theorem depth_resolved (L : Limits) (fs : FS) (s : State) (pid : Int) (depth : Nat) :
    ∀ (fake_path : Path) (deref_final : Bool) (result : Path) (nb : Nat) (out : Int × Path),
      (fake_path.head? ≠ some '/' → Walked L fs s result) →
      canonicalize_depth L fs s pid depth fake_path deref_final result nb = some out →
      ¬ out.1 < 0 → Resolved L fs s deref_final out.2 := by
  induction depth with
  | zero =>
    intro fake_path deref_final result nb out _ h h0
    unfold canonicalize_depth at h
    split_ifs at h
    injection h with h; rw [← h] at h0; exact absurd (show -ELOOP < 0 by decide) h0
  | succ depth ih =>
    intro fake_path deref_final result nb out hres h h0
    have hrec : Keeps (Walked L fs s) (fun fake_path result nb_readlink =>
        canonicalize_depth L fs s pid depth fake_path true result nb_readlink) :=
      fun fp r n o hr ho ho0 => resolved_true (ih fp true r n o (fun _ => hr) ho ho0)
    unfold canonicalize_depth at h
    dsimp only at h
    split_ifs at h with h1 h2 h3
    · injection h with h; rw [← h] at h0; exact absurd (show -ELOOP < 0 by decide) h0
    · injection h with h; rw [← h] at h0; exact absurd (show -EINVAL < 0 by decide) h0
    · exact loop_resolved hrec _ _ _ _ _ (hres h3) h h0
    · exact loop_resolved hrec _ _ _ _ _ (walked_root L fs s) h h0

/-- A resolved path is walked again component by component without a change. -/
theorem commits_resolved (L : Limits) (fs : FS) (s : State) (deref_final tr : Bool) :
    ∀ (rest kept : List Path), (∀ c ∈ kept ++ rest, IsName c) →
      (∀ pre c, pre ++ [c] <+: kept ++ rest → Probed L fs s false pre c ∧
        (fs.lstat (probe L s (render (pre ++ [c]) false)).2 ≠ .symlink ∨
          (pre ++ [c] = kept ++ rest ∧ deref_final = false ∧ tr = false))) →
      (∀ more, kept ++ rest = "proc".toList :: "self".toList :: more →
        more = [] ∧ deref_final = false) →
      Commits L fs s deref_final tr kept rest := by
  intro rest
  induction rest with
  | nil => intro _ _ _ _; trivial
  | cons c rest ih =>
    intro kept hn hp hself
    have hall : kept ++ c :: rest = (kept ++ [c]) ++ rest := by simp
    obtain ⟨hpc, hl⟩ := hp kept c ⟨rest, hall.symm⟩
    have hstep : lexical_step kept c = kept ++ [c] := by
      unfold lexical_step; rw [if_neg hpc.1.2.1, if_neg hpc.1.2.2]
    refine ⟨fun _ _ => ⟨?_, hpc.2.2.1, hpc.2.2.2.1, ?_⟩, ?_⟩
    · rintro ⟨h3, h4, h5⟩
      have hk : kept = ["proc".toList] :=
        render_injective kept ["proc".toList] (fun x hx => hn x (by simp [hx]))
          (by intro x hx; rw [List.mem_singleton.mp hx]; exact ⟨by decide, by decide⟩)
          (by rw [h4]; rfl)
      obtain ⟨hr, hd⟩ := hself rest (by rw [hk, h3]; rfl)
      subst hr
      rcases h5 with h5 | h5
      · unfold final_status at h5
        rw [if_neg (by simp)] at h5
        split_ifs at h5 <;> exact absurd h5 (by decide)
      · rw [hd] at h5; exact absurd h5 (by decide)
    · rcases hl with hl | ⟨e, hd, ht⟩
      · exact Or.inl hl
      · right
        have hr : rest = [] := by
          rw [hall] at e
          have := congrArg List.length e
          simp only [List.length_append] at this
          exact List.length_eq_zero.mp (by omega)
        rw [hr, ht]
        exact ⟨rfl, hd⟩
    · rw [hstep]
      exact ih (kept ++ [c]) (by rwa [hall] at hn) (by rwa [hall] at hp) (by rwa [hall] at hself)

theorem canonicalize_root (L : Limits) (fs : FS) (s : State) (pid : Int)
    (deref_final : Bool) (buf : Path) (nb : Nat)
    (hfs : TrailingSlashResolved fs) (hinit : Initialised s) (hN : 0 < L.NAME_MAX)
    (hnb : nb ≤ L.MAXSYMLINKS) (hroot : (s.root ++ ['/']).length < L.PATH_MAX) :
    canonicalize L fs s pid ['/'] deref_final buf nb = some (0, ['/']) := by
  unfold canonicalize canonicalize_depth
  dsimp only
  rw [if_neg (by omega), if_neg (by simp), if_neg (by simp)]
  have hj : joined ['/'] [] = ['/'] := by decide
  have h1 : (1 : Nat) < L.PATH_MAX := by
    rw [List.length_append] at hroot
    simp only [List.length_singleton] at hroot
    omega
  -- the host path of `/`
  have hsub : substitute_mirror L s MIRROR_LOCATION ['/'] = (-1, ['/']) := by
    rcases substitute_mirror_cases L s MIRROR_LOCATION ['/'] with e | ⟨m, hm, hs, hM, _⟩
    · exact e
    · exfalso
      obtain ⟨⟨cs, hne, hcs, hloc⟩, _⟩ := hinit m hm hs
      have hr : m.ref MIRROR_LOCATION = m.location := by simp [mirror.ref]
      rw [hr] at hM
      have hlen := hM.1
      obtain ⟨cs', l, rfl⟩ : ∃ cs' l, cs = cs' ++ [l] := by
        rcases snoc_cases cs with h | h
        · exact absurd h hne
        · exact h
      rw [hloc, render_snoc] at hlen
      have := List.length_pos.mpr (hcs l (by simp)).1.1
      simp at hlen
      omega
  have hp : probe L s ['/'] = (0, s.root ++ ['/']) := by
    unfold probe
    rw [hsub, if_neg (show ¬ ((-1 : Int) ≥ 0) by decide)]
    exact join_root L _ _ rfl hroot
  have hre : real_entry L s ['/'] [] = (0, s.root ++ ['/']) := by
    rw [real_entry_probe L s _ _ (by rw [hj]; exact h1), hj, hp]
  have hb := @body_commit L fs s pid deref_final
    (fun fake_path result nb_readlink =>
      canonicalize_depth L fs s pid L.MAXSYMLINKS fake_path true result nb_readlink)
    FINAL_NORMAL [] ['/'] nb [] _ (by decide) (by decide)
    (proc_self_case_nil L pid deref_final FINAL_NORMAL ['/']) hre
    (Or.inl (hfs _ (by simp))) (by rw [hj]; exact h1)
  rw [List.length_singleton, loop_succ, next_component_root L hN]
  dsimp only
  rw [if_neg (show ¬ (FINAL_NORMAL < 0) by decide), hb]
  dsimp only
  rw [if_neg (show ¬ (FINAL_NORMAL = 0) by decide), hj]
  unfold canonicalize_end
  rw [if_neg (show ¬ (FINAL_NORMAL = FINAL_FORCE_DIR) by decide)]

/-- C9, as stated, fails (root `/opt/jail`, pid 42, `/opt/jail/l` a link to `/proc/`): the
absolute path `/l/self/x` gives `/proc/self/x`, and `/proc/self/x` gives `/proc/42/x`,
because `self` is only rewritten when `result` is exactly `/proc`, and after the link it
is `/proc/`. -/
theorem canonicalize_not_idempotent :
    canonicalize Limits.linux linkHost jail 42 "/l/self/x".toList true [] 0
        = some (0, "/proc/self/x".toList) ∧
      canonicalize Limits.linux linkHost jail 42 "/proc/self/x".toList true [] 0
        = some (0, "/proc/42/x".toList) := by
  decide

/-- C9 (amended): on a host where `lstat` resolves a path that ends with `/`, with the
mirror table as `init_module_path` leaves it, a root that fits with a `/` appended and
`NAME_MAX` above 0, for every pid and flag and every guest path `g`, absolute or relative
to a base that is resolved (a sanitized absolute path shorter than `PATH_MAX`, every
component of which was probed on the host and is not a link), for which `canonicalize`
succeeds with an output `c` that does not pass through `/proc/self` (`c = /proc/self`
itself is allowed without `deref_final`): `canonicalize` applied to `c`, with any buffer
and a counter that is not above `MAXSYMLINKS`, succeeds and outputs `c` again. -/
theorem canonicalize_idempotent (L : Limits) (fs : FS) (s : State) (pid : Int)
    (g : Path) (deref_final : Bool) (buf buf' : Path) (nb nb' : Nat) (c : Path)
    (hfs : TrailingSlashResolved fs) (hinit : Initialised s) (hN : 0 < L.NAME_MAX)
    (hroot : (s.root ++ ['/']).length < L.PATH_MAX) (hnb : nb' ≤ L.MAXSYMLINKS)
    (hbase : g.head? ≠ some '/' → Walked L fs s buf ∧ buf.length < L.PATH_MAX)
    (h : canonicalize L fs s pid g deref_final buf nb = some (0, c))
    (hself : ∀ more, components c = "proc".toList :: "self".toList :: more →
      more = [] ∧ deref_final = false) :
    canonicalize L fs s pid c deref_final buf' nb' = some (0, c) := by
  have hres := depth_resolved L fs s pid _ g deref_final buf nb (0, c)
    (fun hr => (hbase hr).1) h (show ¬ ((0 : Int) < 0) by decide)
  dsimp only at hres
  -- the components of `c` and what is known of them
  obtain ⟨cs, tr, hc, hnames, hprobed⟩ : ∃ cs tr, c = render cs tr ∧ (∀ x ∈ cs, IsName x) ∧
      (∀ pre x, pre ++ [x] <+: cs → Probed L fs s false pre x ∧
        (fs.lstat (probe L s (render (pre ++ [x]) false)).2 ≠ .symlink ∨
          (pre ++ [x] = cs ∧ deref_final = false ∧ tr = false))) := by
    rcases hres with ⟨cs, tr, hcs, e⟩ | ⟨hd, cs, x, hcs, hx, e⟩
    · refine ⟨cs, tr, e, walked_names hcs, fun pre y hp => ?_⟩
      have := hcs pre y hp
      exact ⟨⟨this.1, this.2.1, this.2.2.1, this.2.2.2.1, fun h => by simp at h⟩,
        Or.inl (this.2.2.2.2 rfl)⟩
    · refine ⟨cs ++ [x], false, e, ?_, fun pre y hp => ?_⟩
      · intro y hy
        rcases List.mem_append.mp hy with hy | hy
        · exact walked_names hcs y hy
        · rw [List.mem_singleton.mp hy]; exact hx.1.1
      · rcases List.prefix_concat_iff.mp hp with e' | hp'
        · have := List.append_inj' e' rfl
          rw [this.1, List.singleton_inj.mp this.2]
          exact ⟨hx, Or.inr ⟨rfl, hd, rfl⟩⟩
        · have := hcs pre y hp'
          exact ⟨⟨this.1, this.2.1, this.2.2.1, this.2.2.2.1, fun h => by simp at h⟩,
            Or.inl (this.2.2.2.2 rfl)⟩
  subst hc
  rw [components_render cs tr hnames] at hself
  by_cases hne : cs = []
  · subst hne
    rw [render_nil]
    exact canonicalize_root L fs s pid deref_final buf' nb' hfs hinit hN hnb hroot
  · have hnorm : ∀ x ∈ cs, IsNormal x ∧ x.length < L.NAME_MAX := by
      intro x hx
      obtain ⟨a, b, rfl⟩ := List.append_of_mem hx
      have := (hprobed a x ⟨b, by simp⟩).1
      exact ⟨this.1, this.2.1⟩
    have hcom := commits_resolved L fs s deref_final tr cs [] (by simpa using hnames)
      (by simpa using hprobed) (by simpa using hself)
    -- the output of the first run fits
    have hfit : (render cs tr).length < L.PATH_MAX :=
      depth_invariant (length_invariant L (by
          rw [List.length_append] at hroot
          simp only [List.length_singleton] at hroot
          omega)) fs s pid _ g deref_final buf nb (0, render cs tr)
        (fun hr => (hbase hr).2) h (show ¬ ((0 : Int) < 0) by decide)
    exact canonicalize_fixed L fs s pid deref_final buf' nb' cs tr hnb hne
      (fun x hx => (hnorm x hx).1) (fun x hx => (hnorm x hx).2) hcom hfit

theorem canonicalize_idempotent_witness :
    canonicalize Limits.linux strayLinkHost jail 42 "/b/y".toList true [] 0
      = some (0, "/b/y".toList) :=
  canonicalize_idempotent Limits.linux strayLinkHost jail 42 "x/../y".toList true "/b".toList
    [] 0 0 "/b/y".toList
    (fun p hp h => by
      have hp' : p = "/opt/jail/elsewhere".toList := by
        by_contra hne
        simp [strayLinkHost] at h
        exact hne h
      rw [hp'] at hp
      exact absurd hp (by decide))
    (initialised_nil jail rfl) (by decide) (by decide) (by decide)
    (fun _ => ⟨⟨["b".toList], false,
      allProbed_snoc (allProbed_nil Limits.linux strayLinkHost jail)
        ⟨by decide, by decide, by decide, by decide, fun _ => by decide⟩, rfl⟩, by decide⟩)
    (by decide)
    (fun more h => by
      have e : components "/b/y".toList = ["b".toList, "y".toList] := by decide
      rw [e] at h
      exact absurd (List.cons.inj h).1 (by decide))

/-! ## The bound on the links followed (C7) -/

theorem follow_link_traced_erase (L : Limits) (fs : FS) (s : State)
    (recur : Path → Path → Nat → Option Traced) (entry result : Path) (nb : Nat) :
    (follow_link_traced L fs s recur entry result nb).1 =
      follow_link L fs s (fun a b c => (recur a b c).map Traced.erase) entry result nb := by
  unfold follow_link_traced follow_link
  cases fs.readlink entry with
  | none => rfl
  | some target =>
    dsimp only
    split_ifs
    · rfl
    · rfl
    · cases recur (detranslate_path L s target false).2 result (nb + 1) with
      | none => rfl
      | some r => rfl

theorem canonicalize_body_traced_erase (L : Limits) (fs : FS) (s : State) (pid : Int)
    (deref_final : Bool) (recur : Path → Path → Nat → Option Traced) (is_final : Int)
    (component result : Path) (nb : Nat) :
    (canonicalize_body_traced L fs s pid deref_final recur is_final component result nb).1 =
      canonicalize_body L fs s pid deref_final (fun a b c => (recur a b c).map Traced.erase)
        is_final component result nb := by
  unfold canonicalize_body_traced canonicalize_body
  dsimp only
  split_ifs
  · rfl
  · cases pop_component result <;> rfl
  · rfl
  · rfl
  · rfl
  · rfl
  · exact follow_link_traced_erase L fs s recur _ result nb

theorem canonicalize_loop_traced_erase (L : Limits) (fs : FS) (s : State) (pid : Int)
    (deref_final : Bool) (recur : Path → Path → Nat → Option Traced) :
    ∀ (fuel : Nat) (cursor result : Path) (nb followed peak : Nat),
      (canonicalize_loop_traced L fs s pid deref_final recur fuel cursor result nb
          followed peak).map Traced.erase =
        canonicalize_loop L fs s pid deref_final (fun a b c => (recur a b c).map Traced.erase)
          fuel cursor result nb := by
  intro fuel
  induction fuel with
  | zero => intro _ _ _ _ _; rfl
  | succ fuel ih =>
    intro cursor result nb followed peak
    rw [loop_succ]
    unfold canonicalize_loop_traced
    dsimp only
    by_cases h1 : (next_component L cursor).status < 0
    · rw [if_pos h1, if_pos h1]; rfl
    · rw [if_neg h1, if_neg h1, ← canonicalize_body_traced_erase]
      rcases hb : canonicalize_body_traced L fs s pid deref_final recur
          (next_component L cursor).status (next_component L cursor).component result nb
        with ⟨it, f, p⟩
      cases it with
      | ret status r => rfl
      | stuck => rfl
      | next r nb' =>
        dsimp only
        by_cases h2 : (next_component L cursor).status = 0
        · rw [if_pos h2, if_pos h2]; exact ih _ _ _ _ _
        · rw [if_neg h2, if_neg h2]; rfl

/-- Without its observations, the traced function is the model of `canonicalize`. -/
theorem canonicalize_depth_traced_erase (L : Limits) (fs : FS) (s : State) (pid : Int) :
    ∀ (depth : Nat) (fake_path : Path) (deref_final : Bool) (result : Path) (nb : Nat),
      (canonicalize_depth_traced L fs s pid depth fake_path deref_final result nb).map
          Traced.erase =
        canonicalize_depth L fs s pid depth fake_path deref_final result nb := by
  intro depth
  induction depth with
  | zero =>
    intro fake_path deref_final result nb
    unfold canonicalize_depth_traced canonicalize_depth
    split_ifs <;> rfl
  | succ depth ih =>
    intro fake_path deref_final result nb
    unfold canonicalize_depth_traced canonicalize_depth
    dsimp only
    split_ifs
    · rfl
    · rfl
    · rw [canonicalize_loop_traced_erase]
      congr 1
      funext a b c
      exact ih a true b c
    · rw [canonicalize_loop_traced_erase]
      congr 1
      funext a b c
      exact ih a true b c

theorem canonicalize_traced_erase (L : Limits) (fs : FS) (s : State) (pid : Int)
    (fake_path : Path) (deref_final : Bool) (result : Path) (nb : Nat) :
    (canonicalize_traced L fs s pid fake_path deref_final result nb).map Traced.erase =
      canonicalize L fs s pid fake_path deref_final result nb :=
  canonicalize_depth_traced_erase L fs s pid _ fake_path deref_final result nb

theorem follow_link_traced_peak (L : Limits) (fs : FS) (s : State)
    (recur : Path → Path → Nat → Option Traced)
    (hrec : ∀ a b c r, recur a b c = some r → r.peak > L.MAXSYMLINKS → r.status = -ELOOP)
    (entry result : Path) (nb : Nat)
    (h : (follow_link_traced L fs s recur entry result nb).2.2 > L.MAXSYMLINKS) :
    ∃ r, (follow_link_traced L fs s recur entry result nb).1 = .ret (-ELOOP) r := by
  unfold follow_link_traced at h ⊢
  cases hr : fs.readlink entry with
  | none => rw [hr] at h; exact absurd h (by simp)
  | some target =>
    rw [hr] at h
    dsimp only at h ⊢
    split_ifs at h ⊢ with h1 h2
    · exact absurd h (by simp)
    · exact absurd h (by simp)
    · cases hc : recur (detranslate_path L s target false).2 result (nb + 1) with
      | none => rw [hc] at h; exact absurd h (by simp)
      | some r =>
        rw [hc] at h
        dsimp only at h ⊢
        have := hrec _ _ _ r hc h
        rw [this, if_pos (show -ELOOP < 0 by decide)]
        exact ⟨_, rfl⟩

theorem canonicalize_body_traced_peak (L : Limits) (fs : FS) (s : State) (pid : Int)
    (deref_final : Bool) (recur : Path → Path → Nat → Option Traced)
    (hrec : ∀ a b c r, recur a b c = some r → r.peak > L.MAXSYMLINKS → r.status = -ELOOP)
    (is_final : Int) (component result : Path) (nb : Nat)
    (h : (canonicalize_body_traced L fs s pid deref_final recur is_final component result
      nb).2.2 > L.MAXSYMLINKS) :
    ∃ r, (canonicalize_body_traced L fs s pid deref_final recur is_final component result
      nb).1 = .ret (-ELOOP) r := by
  unfold canonicalize_body_traced at h ⊢
  dsimp only at h ⊢
  split_ifs at h ⊢
  · exact absurd h (by simp)
  · cases hpop : pop_component result <;> rw [hpop] at h <;> exact absurd h (by simp)
  · exact absurd h (by simp)
  · exact absurd h (by simp)
  · exact absurd h (by simp)
  · exact absurd h (by simp)
  · exact follow_link_traced_peak L fs s recur hrec _ result nb h

theorem canonicalize_loop_traced_peak (L : Limits) (fs : FS) (s : State) (pid : Int)
    (deref_final : Bool) (recur : Path → Path → Nat → Option Traced)
    (hrec : ∀ a b c r, recur a b c = some r → r.peak > L.MAXSYMLINKS → r.status = -ELOOP) :
    ∀ (fuel : Nat) (cursor result : Path) (nb followed peak : Nat) (t : Traced),
      peak ≤ L.MAXSYMLINKS →
      canonicalize_loop_traced L fs s pid deref_final recur fuel cursor result nb followed peak
        = some t →
      t.peak > L.MAXSYMLINKS → t.status = -ELOOP := by
  intro fuel
  induction fuel with
  | zero => intro _ _ _ _ _ _ _ h; exact absurd h (by simp [canonicalize_loop_traced])
  | succ fuel ih =>
    intro cursor result nb followed peak t hpk h ht
    unfold canonicalize_loop_traced at h
    dsimp only at h
    by_cases h1 : (next_component L cursor).status < 0
    · rw [if_pos h1] at h
      injection h with h
      rw [← h] at ht
      exact absurd ht (by dsimp only; omega)
    · rw [if_neg h1] at h
      have hb := canonicalize_body_traced_peak L fs s pid deref_final recur hrec
        (next_component L cursor).status (next_component L cursor).component result nb
      rcases hbody : canonicalize_body_traced L fs s pid deref_final recur
          (next_component L cursor).status (next_component L cursor).component result nb
        with ⟨it, f, p⟩
      rw [hbody] at h hb
      dsimp only at hb
      cases it with
      | ret status r =>
        dsimp only at h
        injection h with h
        rw [← h] at ht ⊢
        dsimp only at ht ⊢
        have hp : p > L.MAXSYMLINKS := by
          rcases Nat.le_total peak p with hle | hle
          · rwa [Nat.max_eq_right hle] at ht
          · rw [Nat.max_eq_left hle] at ht; omega
        obtain ⟨r', hr'⟩ := hb hp
        injection hr' with h1 _
      | stuck => exact absurd h (by simp)
      | next r nb' =>
        dsimp only at h
        have hp : p ≤ L.MAXSYMLINKS := by
          by_contra hc
          obtain ⟨r', hr'⟩ := hb (by omega)
          exact absurd hr' (by simp)
        have hmax : max peak p ≤ L.MAXSYMLINKS := Nat.max_le.mpr ⟨hpk, hp⟩
        by_cases h2 : (next_component L cursor).status = 0
        · rw [if_pos h2] at h
          exact ih _ _ _ _ _ t hmax h ht
        · rw [if_neg h2] at h
          injection h with h
          rw [← h] at ht
          exact absurd ht (by dsimp only; omega)

theorem canonicalize_depth_traced_peak (L : Limits) (fs : FS) (s : State) (pid : Int) :
    ∀ (depth : Nat) (fake_path : Path) (deref_final : Bool) (result : Path) (nb : Nat)
      (t : Traced),
      canonicalize_depth_traced L fs s pid depth fake_path deref_final result nb = some t →
      t.peak > L.MAXSYMLINKS → t.status = -ELOOP := by
  intro depth
  induction depth with
  | zero =>
    intro fake_path deref_final result nb t h _
    unfold canonicalize_depth_traced at h
    split_ifs at h
    injection h with h
    rw [← h]
  | succ depth ih =>
    intro fake_path deref_final result nb t h ht
    unfold canonicalize_depth_traced at h
    dsimp only at h
    split_ifs at h with h1 h2 h3
    · injection h with h; rw [← h]
    · injection h with h
      rw [← h] at ht
      exact absurd ht h1
    · exact canonicalize_loop_traced_peak L fs s pid deref_final _
        (fun a b c r hr => ih a true b c r hr) _ _ _ _ _ _ t (by omega) h ht
    · exact canonicalize_loop_traced_peak L fs s pid deref_final _
        (fun a b c r hr => ih a true b c r hr) _ _ _ _ _ _ t (by omega) h ht

/-- C7, the failing input: with the root `/opt/jail`, `/opt/jail/y` a link to `/x/x` and
`/opt/jail/x` a link to `/`, the resolution of `/y/y/y/y/y/y/y` follows 21 links, more than
`MAXSYMLINKS = 20`, and `canonicalize` started at 0 returns 0 with the output `/`: the
counter handed to a nested call never exceeds 9, because the links followed inside a
nested call are counted in that call only. On the same host the 21 links of
`/x/x/.../x` (21 times), all followed by the first call, give `-ELOOP`. -/
theorem canonicalize_follows_many_links :
    canonicalize_traced Limits.linux chainHost jail 42 "/y/y/y/y/y/y/y".toList true [] 0
        = some ⟨0, ['/'], 21, 9⟩ ∧
      canonicalize Limits.linux chainHost jail 42 "/y/y/y/y/y/y/y".toList true [] 0
        = some (0, ['/']) ∧
      21 > Limits.linux.MAXSYMLINKS ∧
      canonicalize_traced Limits.linux chainHost jail 42
          "/x/x/x/x/x/x/x/x/x/x/x/x/x/x/x/x/x/x/x/x/x".toList true [] 0
        = some ⟨-ELOOP, ['/'], 21, 21⟩ := by
  decide

/-- What the guard of lines 353-355 does bound: if during the resolution a call of
`canonicalize` (the first one or a nested one) is entered with a counter above
`MAXSYMLINKS`, the whole resolution returns `-ELOOP`. The counter of a nested call is the
counter of the call that makes it plus the number of links this call has followed so
far. -/
theorem canonicalize_depth_bound (L : Limits) (fs : FS) (s : State) (pid : Int)
    (fake_path : Path) (deref_final : Bool) (result : Path) (nb_readlink : Nat) (t : Traced)
    (h : canonicalize_traced L fs s pid fake_path deref_final result nb_readlink = some t)
    (hpeak : t.peak > L.MAXSYMLINKS) :
    t.status = -ELOOP ∧
      canonicalize L fs s pid fake_path deref_final result nb_readlink
        = some (-ELOOP, t.result) := by
  have hs := canonicalize_depth_traced_peak L fs s pid _ fake_path deref_final result
    nb_readlink t h hpeak
  refine ⟨hs, ?_⟩
  rw [← canonicalize_traced_erase, h]
  simp [Traced.erase, hs]

theorem canonicalize_depth_bound_witness :
    (⟨-ELOOP, ['/'], 21, 21⟩ : Traced).status = -ELOOP ∧
      canonicalize Limits.linux selfLinkHost jail 42 "/loop".toList true [] 0
        = some (-ELOOP, (⟨-ELOOP, ['/'], 21, 21⟩ : Traced).result) :=
  canonicalize_depth_bound Limits.linux selfLinkHost jail 42 "/loop".toList true [] 0
    ⟨-ELOOP, ['/'], 21, 21⟩ (by decide) (by decide)

/-! ## Every call of `canonicalize` returns -/

theorem skip_separators_back_pos (path : Path) (k : Nat) (h : 1 ≤ k) :
    1 ≤ skip_separators_back path k := by
  induction k with
  | zero => omega
  | succ k ih =>
    rw [skip_separators_back_succ]
    split_ifs with h1
    · exact ih (by omega)
    · omega

theorem skip_name_back_pos (path : Path) (k : Nat) (h : 1 ≤ k) :
    1 ≤ skip_name_back path k := by
  induction k with
  | zero => omega
  | succ k ih =>
    rw [skip_name_back_succ]
    split_ifs with h1
    · exact ih (by omega)
    · omega

/-- The assertions of `pop_component` hold on every path that starts with `/`. -/
theorem pop_component_returns (p : Path) (h : p.head? = some '/') :
    ∃ q, pop_component p = some q := by
  obtain ⟨t, rfl⟩ := List.head?_eq_some_iff.mp h
  unfold pop_component
  dsimp only
  rw [if_neg (by simp)]
  by_cases h1 : ('/' :: t).length - 1 = 0
  · rw [if_pos h1]
    have : t = [] := List.length_eq_zero.mp (by simpa using h1)
    rw [this, if_pos rfl]
    exact ⟨_, rfl⟩
  · rw [if_neg h1]
    have hpos := skip_name_back_pos ('/' :: t)
      (skip_separators_back ('/' :: t) (('/' :: t).length - 1))
      (skip_separators_back_pos _ _ (by omega))
    obtain ⟨n, hn⟩ := Nat.exists_eq_succ_of_ne_zero (Nat.pos_iff_ne_zero.mp hpos)
    rw [hn, if_pos (by simp)]
    exact ⟨_, rfl⟩

theorem next_component_shrinks (L : Limits) (cursor : Path)
    (h : (next_component L cursor).status = 0) :
    (next_component L cursor).cursor.length < cursor.length := by
  obtain ⟨e, hne⟩ := next_component_more L cursor h
  rw [e]
  refine after_separators_length cursor (fun h0 => hne ?_)
  have h1 : after_name cursor = [] := by
    unfold after_name
    rw [first_name_eq_nil cursor h0]
    rfl
  unfold after_separators
  rw [h1]
  rfl

theorem follow_link_counter {L : Limits} {fs : FS} {s : State}
    {recur : Path → Path → Nat → Option (Int × Path)} {entry result : Path} {nb : Nat}
    (hrec : ∀ a b c, nb < c → ∃ r, recur a b c = some r) :
    follow_link L fs s recur entry result nb ≠ .stuck := by
  unfold follow_link
  cases fs.readlink entry with
  | none => simp
  | some target =>
    dsimp only
    split_ifs
    · simp
    · simp
    · obtain ⟨r, hr⟩ := hrec (detranslate_path L s target false).2 result (nb + 1) (by omega)
      rw [hr]
      dsimp only
      split_ifs <;> simp

theorem canonicalize_body_returns {L : Limits} {fs : FS} {s : State} {pid : Int}
    {deref_final : Bool} {recur : Path → Path → Nat → Option (Int × Path)} {is_final : Int}
    {component result : Path} {nb : Nat} (hres : result.head? = some '/')
    (hrec : ∀ a b c, nb < c → ∃ r, recur a b c = some r) :
    canonicalize_body L fs s pid deref_final recur is_final component result nb ≠ .stuck := by
  unfold canonicalize_body
  dsimp only
  split_ifs
  · simp
  · obtain ⟨q, hq⟩ := pop_component_returns result hres
    rw [hq]
    simp
  · simp
  · simp
  · simp
  · simp
  · exact follow_link_counter hrec

theorem body_counter {L : Limits} {fs : FS} {s : State} {pid : Int} {deref_final : Bool}
    {recur : Path → Path → Nat → Option (Int × Path)} {is_final : Int}
    {component result : Path} {nb : Nat} {result' : Path} {nb' : Nat}
    (h : canonicalize_body L fs s pid deref_final recur is_final component result nb
      = .next result' nb') : nb ≤ nb' := by
  rcases body_next h with ⟨_, _, h3⟩ | ⟨_, _, h3⟩ | ⟨_, _, _, _, h5⟩
  · omega
  · omega
  · rcases h5 with ⟨_, _, _, h3⟩ | ⟨_, hf⟩
    · omega
    · obtain ⟨_, _, _, _, _, _, _, _, h3⟩ := follow_link_next hf
      omega

theorem canonicalize_loop_returns {L : Limits} {fs : FS} {s : State} {pid : Int}
    {deref_final : Bool} {recur : Path → Path → Nat → Option (Int × Path)}
    (hkeep : Keeps (fun p : Path => p.head? = some '/') recur) :
    ∀ (fuel : Nat) (cursor result : Path) (nb : Nat),
      cursor.length < fuel → result.head? = some '/' →
      (∀ a b c, nb < c → ∃ r, recur a b c = some r) →
      ∃ out, canonicalize_loop L fs s pid deref_final recur fuel cursor result nb = some out := by
  intro fuel
  induction fuel with
  | zero => intro _ _ _ h; omega
  | succ fuel ih =>
    intro cursor result nb hfuel hres hrec
    rw [loop_succ]
    by_cases h1 : (next_component L cursor).status < 0
    · rw [if_pos h1]; exact ⟨_, rfl⟩
    · rw [if_neg h1]
      cases hb : canonicalize_body L fs s pid deref_final recur (next_component L cursor).status
          (next_component L cursor).component result nb with
      | ret status r => exact ⟨_, rfl⟩
      | stuck => exact absurd hb (canonicalize_body_returns hres hrec)
      | next r nb' =>
        dsimp only
        by_cases h2 : (next_component L cursor).status = 0
        · rw [if_pos h2]
          have hlen := next_component_shrinks L cursor h2
          have hcnt := body_counter hb
          exact ih _ _ _ (by omega)
            (body_invariant (head_invariant L) hkeep hres (next_component_no_slash L cursor) hb)
            (fun a b c hc => hrec a b c (by omega))
        · rw [if_neg h2]; exact ⟨_, rfl⟩

theorem canonicalize_depth_returns (L : Limits) (fs : FS) (s : State) (pid : Int) :
    ∀ (depth : Nat) (fake_path : Path) (deref_final : Bool) (result : Path) (nb : Nat),
      L.MAXSYMLINKS + 1 ≤ depth + nb →
      ∃ out, canonicalize_depth L fs s pid depth fake_path deref_final result nb = some out := by
  intro depth
  induction depth with
  | zero =>
    intro fake_path deref_final result nb h
    unfold canonicalize_depth
    rw [if_pos (by omega)]
    exact ⟨_, rfl⟩
  | succ depth ih =>
    intro fake_path deref_final result nb h
    unfold canonicalize_depth
    dsimp only
    by_cases h1 : nb > L.MAXSYMLINKS
    · rw [if_pos h1]; exact ⟨_, rfl⟩
    · rw [if_neg h1]
      by_cases h2 : fake_path.head? ≠ some '/' ∧ result.head? ≠ some '/'
      · rw [if_pos h2]; exact ⟨_, rfl⟩
      · rw [if_neg h2]
        refine canonicalize_loop_returns
          (fun a b c out hb hr h0 =>
            depth_invariant (head_invariant L) fs s pid depth a true b c out (fun _ => hb) hr h0)
          _ _ _ _ (by omega) ?_ (fun a b c hc => ih a true b c (by omega))
        by_cases h3 : fake_path.head? ≠ some '/'
        · rw [if_pos h3]
          by_contra h4
          exact h2 ⟨h3, h4⟩
        · rw [if_neg h3]; rfl

/-- The model of `canonicalize` is total: on every host, for every state and every input,
the unrolling bounds are never exhausted and no assertion of `pop_component` fails. -/
theorem canonicalize_returns (L : Limits) (fs : FS) (s : State) (pid : Int) (fake_path : Path)
    (deref_final : Bool) (result : Path) (nb_readlink : Nat) :
    ∃ out, canonicalize L fs s pid fake_path deref_final result nb_readlink = some out :=
  canonicalize_depth_returns L fs s pid _ fake_path deref_final result nb_readlink (by omega)

/-- The model of `translate_path` is total. -/
theorem translate_path_returns (L : Limits) (fs : FS) (s : State) (child : Option child_info)
    (result : Path) (dir_fd : Int) (fake_path : Path) (deref_final : Bool) :
    ∃ t, translate_path L fs s child result dir_fd fake_path deref_final = some t := by
  unfold translate_path
  dsimp only
  split_ifs
  · exact ⟨_, rfl⟩
  · split
    · next h =>
      exact (canonicalize_returns L fs s _ _ _ _ _).elim
        (fun _ ho => Option.noConfusion (h.symm.trans ho))
    · split_ifs <;> exact ⟨_, rfl⟩

/-! ## `detranslate_path` -/

theorem substitute_mirror_no_match (L : Limits) (s : State) (which : Nat) (path : Path)
    (h : NoMatch s which path) : substitute_mirror L s which path = (-1, path) := by
  rcases substitute_mirror_cases L s which path with e | ⟨m, hm, hs, hM, _⟩
  · exact e
  · exact absurd hM (h m hm hs)

theorem stored_root_length (s : State) : (stored_root s).length = root_length s := by
  unfold stored_root root_length
  split_ifs <;> simp

/-- The three ways in which `detranslate_path` returns, by the result of
`substitute_mirror`. -/
theorem detranslate_path_cases (L : Limits) (s : State) (path : Path) (sanity_check : Bool) :
    (∃ m ∈ s.mirror_list, m.sanitized = true ∧ Matches (m.ref MIRROR_REAL) path ∧
      (detranslate_path L s path sanity_check = (0, path) ∨
        ∃ out, detranslate_path L s path sanity_check = ((out.length : Int) + 1, out))) ∨
    (substitute_mirror L s MIRROR_REAL path = (-1, path) ∧
      detranslate_path L s path sanity_check =
        if strncmp path s.root (root_length s) ≠ 0 then
          if sanity_check then (-EPERM, path) else (0, path)
        else if path.length - root_length s ≠ 0 then
          (((path.length - root_length s : Nat) : Int) + 1, path.drop (root_length s))
        else (2, ['/'])) := by
  rcases substitute_mirror_cases L s MIRROR_REAL path with e | ⟨m, hm, hs, hM, h⟩
  · right
    refine ⟨e, ?_⟩
    unfold detranslate_path
    dsimp only
    rw [e]
    dsimp only
    rw [if_neg (show ¬ ((-1 : Int) = 0) by decide), if_neg (show ¬ ((-1 : Int) = 1) by decide)]
  · left
    refine ⟨m, hm, hs, hM, ?_⟩
    rcases h with ⟨_, e⟩ | ⟨_, _, e⟩
    · left
      unfold detranslate_path
      dsimp only
      rw [e]
      rfl
    · right
      refine ⟨m.anti_ref MIRROR_REAL ++ path.drop (m.ref MIRROR_REAL).length, ?_⟩
      unfold detranslate_path
      dsimp only
      rw [e]
      dsimp only
      rw [if_neg (show ¬ ((1 : Int) = 0) by decide), if_pos rfl]

/-- C11, as stated, fails: with the root `/opt/jail` and no mirror, `detranslate_path` on
`/opt/jail/bin/ls` with the sanity check writes `/bin/ls` and returns 8, the seven bytes
of `/bin/ls` and the terminator, not 9. -/
theorem detranslate_path_bin_ls_not_nine :
    (detranslate_path Limits.linux jail "/opt/jail/bin/ls".toList true).2 = "/bin/ls".toList ∧
      (detranslate_path Limits.linux jail "/opt/jail/bin/ls".toList true).1 ≠ 9 := by
  decide

/-- C11 (amended): with the root `/opt/jail` and no mirror, `detranslate_path` on
`/opt/jail/bin/ls` with the sanity check rewrites the buffer to `/bin/ls` and returns 8,
the length of `/bin/ls` plus one for the terminator. -/
theorem detranslate_path_bin_ls :
    detranslate_path Limits.linux jail "/opt/jail/bin/ls".toList true
      = (8, "/bin/ls".toList) ∧ (8 : Int) = ("/bin/ls".toList.length : Int) + 1 := by
  decide

/-- C12: for every root, mirror table, path and flag. When `detranslate_path` returns a
positive value, that value is the length of the path now in the buffer plus one, and when
no sanitized mirror matched, the buffer holds `/` if the input was exactly the stored
root and otherwise the input is the stored root followed by what the buffer holds. When
it returns 0 or a negative value the buffer is unchanged. -/
theorem detranslate_path_frame (L : Limits) (s : State) (path : Path) (sanity_check : Bool) :
    (0 < (detranslate_path L s path sanity_check).1 →
      (detranslate_path L s path sanity_check).1
          = ((detranslate_path L s path sanity_check).2.length : Int) + 1 ∧
        (NoMatch s MIRROR_REAL path →
          (path = stored_root s → (detranslate_path L s path sanity_check).2 = ['/']) ∧
          (path ≠ stored_root s →
            path = stored_root s ++ (detranslate_path L s path sanity_check).2))) ∧
    ((detranslate_path L s path sanity_check).1 ≤ 0 →
      (detranslate_path L s path sanity_check).2 = path) := by
  have hlen := stored_root_length s
  rcases detranslate_path_cases L s path sanity_check with
    ⟨m, hm, hs, hM, e | ⟨out, e⟩⟩ | ⟨_, e⟩
  · rw [e]
    exact ⟨fun h => absurd h (show ¬ ((0 : Int) < 0) by decide), fun _ => rfl⟩
  · rw [e]
    refine ⟨fun _ => ⟨rfl, fun hn => absurd hM (hn m hm hs)⟩, fun h => ?_⟩
    dsimp only at h
    omega
  · rw [e]
    by_cases h1 : strncmp path s.root (root_length s) ≠ 0
    · rw [if_pos h1]
      cases sanity_check with
      | true => exact ⟨fun h => absurd h (show ¬ ((0 : Int) < -EPERM) by decide), fun _ => rfl⟩
      | false => exact ⟨fun h => absurd h (show ¬ ((0 : Int) < 0) by decide), fun _ => rfl⟩
    · rw [if_neg h1]
      have htake : path.take (root_length s) = stored_root s :=
        (strncmp_eq_zero _ _ _).mp (not_not.mp h1)
      by_cases h2 : path.length - root_length s ≠ 0
      · rw [if_pos h2]
        refine ⟨fun _ => ⟨?_, fun _ => ⟨fun hp => ?_, fun _ => ?_⟩⟩, fun h => ?_⟩
        · simp
        · exfalso
          rw [hp, hlen] at h2
          omega
        · dsimp only
          rw [← htake, List.take_append_drop]
        · dsimp only at h
          omega
      · rw [if_neg h2]
        refine ⟨fun _ => ⟨rfl, fun _ => ⟨fun _ => rfl, fun hp => ?_⟩⟩,
          fun h => absurd h (show ¬ ((2 : Int) ≤ 0) by decide)⟩
        exfalso
        apply hp
        rw [← htake, List.take_of_length_le (by omega)]

theorem detranslate_path_frame_witness :
    (detranslate_path Limits.linux jail "/opt/jail/bin/ls".toList true).1
        = ((detranslate_path Limits.linux jail "/opt/jail/bin/ls".toList true).2.length : Int)
          + 1 ∧
      "/opt/jail/bin/ls".toList
        = stored_root jail ++ (detranslate_path Limits.linux jail "/opt/jail/bin/ls".toList true).2 ∧
      (detranslate_path Limits.linux jail "/etc/hosts".toList true).2 = "/etc/hosts".toList :=
  ⟨((detranslate_path_frame Limits.linux jail "/opt/jail/bin/ls".toList true).1
      (by decide)).1,
    (((detranslate_path_frame Limits.linux jail "/opt/jail/bin/ls".toList true).1
      (by decide)).2 (fun _ h => absurd h (List.not_mem_nil _))).2 (by decide),
    (detranslate_path_frame Limits.linux jail "/etc/hosts".toList true).2 (by decide)⟩

/-! ## `substitute_mirror`: the entry that decides -/

/-- Entries that do not match are passed over. -/
theorem substitute_mirror_from_skip (L : Limits) (which : Nat) (path : Path)
    (hw : which = MIRROR_LOCATION ∨ which = MIRROR_REAL) (pre ms : List mirror)
    (hpre : ∀ m ∈ pre, m.sanitized = true → ¬ Matches (m.ref which) path) :
    substitute_mirror_from L which path (pre ++ ms) = substitute_mirror_from L which path ms := by
  induction pre with
  | nil => rfl
  | cons m pre ih =>
    have ih' := ih (fun m' hm' => hpre m' (List.mem_cons_of_mem _ hm'))
    rw [List.cons_append, substitute_mirror_from_cons]
    by_cases h1 : m.sanitized = false
    · rw [if_pos h1, ih']
    · rw [if_neg h1,
        if_neg (by rintro ⟨h1, h2⟩; rcases hw with h | h; exact h1 h; exact h2 h),
        if_pos (hpre m (List.mem_cons_self _ _) (by simpa using h1)), ih']

/-- The first matching entry, when it needs a substitution that does not fit. -/
theorem substitute_mirror_from_too_long (L : Limits) (which : Nat) (path : Path)
    (hw : which = MIRROR_LOCATION ∨ which = MIRROR_REAL) (m : mirror) (ms : List mirror)
    (hs : m.sanitized = true) (hn : m.need_substitution = true)
    (hM : Matches (m.ref which) path)
    (hlong : path.length - (m.ref which).length + (m.anti_ref which).length ≥ L.PATH_MAX) :
    substitute_mirror_from L which path (m :: ms) = (-1, path) := by
  rw [substitute_mirror_from_cons, if_neg (by rw [hs]; simp),
    if_neg (by rintro ⟨h1, h2⟩; rcases hw with h | h; exact h1 h; exact h2 h),
    if_neg (not_not.mpr hM), if_neg (by rw [hn]; simp), if_pos hlong]

theorem longMirrored_length : longMirrored.length = 4095 := by
  unfold longMirrored
  rw [List.length_append, List.length_replicate]
  rfl

theorem longMirrored_matches : Matches ['/', 'l', 'i', 'b'] longMirrored := by
  refine ⟨?_, Or.inl rfl, rfl⟩
  rw [longMirrored_length]
  decide

/-- With the sanitized asymmetric mirror `real = /usr/lib`, `location = /lib` as the only
entry, a path of 4095 bytes under `/lib` matches the location on a component boundary and
its substitution would have 4099 bytes, and `substitute_mirror` returns -1 with the path
unchanged: the value it returns for `/etc`, which is not a mirror, and not
`-ENAMETOOLONG`. -/
theorem substitute_mirror_too_long_is_not_a_mirror :
    Matches ((⟨"/usr/lib".toList, "/lib".toList, true, true⟩ : mirror).ref MIRROR_LOCATION)
        longMirrored ∧
      longMirrored.length - "/lib".toList.length + "/usr/lib".toList.length
        ≥ Limits.linux.PATH_MAX ∧
      substitute_mirror Limits.linux libMirrorJail MIRROR_LOCATION longMirrored
        = (-1, longMirrored) ∧
      substitute_mirror Limits.linux libMirrorJail MIRROR_LOCATION "/etc".toList
        = (-1, "/etc".toList) ∧
      (-1 : Int) ≠ -ENAMETOOLONG := by
  refine ⟨longMirrored_matches, ?_, ?_, by decide, by decide⟩
  · rw [longMirrored_length]
    decide
  · exact substitute_mirror_from_too_long Limits.linux MIRROR_LOCATION longMirrored (Or.inl rfl)
      ⟨"/usr/lib".toList, "/lib".toList, true, true⟩ [] rfl rfl longMirrored_matches
      (by rw [longMirrored_length]; decide)

/-- What the guard of lines 174-179 does: for every sanitized asymmetric mirror that is the
first entry whose `ref` side matches the path on a component boundary, if the length of
the path minus that of `ref` plus that of `anti_ref` reaches `PATH_MAX`,
`substitute_mirror` leaves the path unchanged and returns -1, which is also what it
returns when the mirror list is empty. -/
theorem substitute_mirror_too_long (L : Limits) (s : State) (which : Nat) (path : Path)
    (pre post : List mirror) (m : mirror)
    (hw : which = MIRROR_LOCATION ∨ which = MIRROR_REAL)
    (hlist : s.mirror_list = pre ++ m :: post)
    (hpre : ∀ m' ∈ pre, m'.sanitized = true → ¬ Matches (m'.ref which) path)
    (hs : m.sanitized = true) (hn : m.need_substitution = true)
    (hM : Matches (m.ref which) path)
    (hlong : path.length - (m.ref which).length + (m.anti_ref which).length ≥ L.PATH_MAX) :
    substitute_mirror L s which path = (-1, path) ∧
      substitute_mirror L { s with mirror_list := [] } which path = (-1, path) := by
  refine ⟨?_, rfl⟩
  unfold substitute_mirror
  rw [hlist, substitute_mirror_from_skip L which path hw pre _ hpre]
  exact substitute_mirror_from_too_long L which path hw m post hs hn hM hlong

theorem substitute_mirror_too_long_witness :
    substitute_mirror Limits.linux libMirrorJail MIRROR_LOCATION longMirrored
        = (-1, longMirrored) ∧
      substitute_mirror Limits.linux { libMirrorJail with mirror_list := [] } MIRROR_LOCATION
        longMirrored = (-1, longMirrored) :=
  substitute_mirror_too_long Limits.linux libMirrorJail MIRROR_LOCATION longMirrored [] []
    ⟨"/usr/lib".toList, "/lib".toList, true, true⟩ (Or.inl rfl) rfl
    (fun _ h => absurd h (List.not_mem_nil _)) rfl rfl longMirrored_matches
    (by rw [longMirrored_length]; decide)

theorem components_replicate_slash (n : Nat) : components (List.replicate n '/') = [] := by
  induction n with
  | zero => exact components_nil
  | succ n ih => rw [List.replicate_succ, components_slash, ih]

/-- The translation of an absolute path, for any child, once `canonicalize` has
succeeded. -/
theorem translate_path_of_canonicalize (L : Limits) (fs : FS) (s : State)
    (child : Option child_info) (buf g : Path) (dir_fd : Int) (deref_final : Bool)
    (out : Int × Path) (habs : g.head? = some '/')
    (h : canonicalize L fs s (match child with
        | some c => c.pid
        | none => fs.getpid) g deref_final ['/'] 0 = some out)
    (hout : ¬ out.1 < 0) :
    translate_path L fs s child buf dir_fd g deref_final
      = some (translate_tail L fs s child g deref_final out.2) := by
  unfold translate_path
  dsimp only
  have hb : ∀ pid, translate_base L fs s pid buf dir_fd g = (0, ['/']) := by
    intro pid
    unfold translate_base
    rw [if_pos habs]
  rw [hb]
  dsimp only
  rw [if_neg (show ¬ ((0 : Int) < 0) by decide), h]
  dsimp only
  rw [if_neg hout]

theorem translate_tail_delayed (L : Limits) (fs : FS) (s : State) (c : child_info)
    (t fake_path : Path) (deref_final : Bool) (result : Path)
    (hrun : s.use_runner = true) (htrig : c.trigger = some t) (hne : fake_path ≠ t) :
    translate_tail L fs s (some c) fake_path deref_final result =
      if fake_path.length ≥ L.PATH_MAX then ⟨-ENAMETOOLONG, result, some c⟩
      else ⟨0, fake_path, some c⟩ := by
  have hd : is_delayed c fake_path = (true, c) := by
    unfold is_delayed
    rw [htrig]
    dsimp only
    rw [if_pos (fun h => hne h.symm)]
  unfold translate_tail
  dsimp only
  rw [hrun, if_pos rfl, hd]
  dsimp only
  rw [if_pos rfl]

/-- C15, as stated, fails: with the runner enabled and a child that waits for `/trigger`,
the absolute path made of 4097 `/` is canonicalized with success (to `/`), differs from
the trigger, and `translate_path` returns `-ENAMETOOLONG`, not 0, leaving `/` in the
buffer. -/
theorem translate_delayed_too_long :
    canonicalize Limits.linux plainHost jailWithRunner waitingChild.pid
        (List.replicate 4097 '/') true ['/'] 0 = some (0, ['/']) ∧
      translate_path Limits.linux plainHost jailWithRunner (some waitingChild) [] AT_FDCWD
        (List.replicate 4097 '/') true = some ⟨-ENAMETOOLONG, ['/'], some waitingChild⟩ := by
  have hc : components (List.replicate 4097 '/') = [] := components_replicate_slash 4097
  have hn : lexical_normalisation (List.replicate 4097 '/') = ['/'] := by
    unfold lexical_normalisation
    rw [hc]
    rfl
  have h := canonicalize_lexical Limits.linux plainHost jailWithRunner waitingChild.pid
    (List.replicate 4097 '/') ['/'] true (by decide) rfl
    (fun _ h => LstatResult.noConfusion h) rfl
    (by rw [hc]; exact fun _ h => absurd h (List.not_mem_nil _))
    (by rw [hc]; intro k _; rw [List.take_nil]; decide)
    (by rw [hc]; intro k _; rw [List.take_nil]; decide)
    (by rw [hn]; decide)
  rw [hn] at h
  refine ⟨h, ?_⟩
  rw [translate_path_of_canonicalize Limits.linux plainHost jailWithRunner (some waitingChild)
    [] (List.replicate 4097 '/') AT_FDCWD true (0, ['/']) rfl h (by decide),
    translate_tail_delayed Limits.linux plainHost jailWithRunner waitingChild
      "/trigger".toList (List.replicate 4097 '/') true _ rfl rfl
      (fun e => absurd (congrArg List.length e)
        (by rw [List.length_replicate]; decide)),
    if_pos (by rw [List.length_replicate]; decide)]

/-- C15 (amended): with the runner enabled, a child whose trigger `t` is set, and an
absolute `fake_path` different from `t` and shorter than `PATH_MAX`, whenever the
canonicalization of `fake_path` succeeds `translate_path` returns 0, the output is
`fake_path` itself, and the child is unchanged, its trigger still `t`. -/
theorem translate_path_delayed (L : Limits) (fs : FS) (s : State) (c : child_info)
    (t buf fake_path : Path) (dir_fd : Int) (deref_final : Bool) (out : Int × Path)
    (hrun : s.use_runner = true) (htrig : c.trigger = some t) (hne : fake_path ≠ t)
    (habs : fake_path.head? = some '/')
    (hcanon : canonicalize L fs s c.pid fake_path deref_final ['/'] 0 = some out)
    (hout : ¬ out.1 < 0) (hlen : fake_path.length < L.PATH_MAX) :
    translate_path L fs s (some c) buf dir_fd fake_path deref_final
        = some ⟨0, fake_path, some c⟩ ∧
      c.trigger = some t := by
  refine ⟨?_, htrig⟩
  rw [translate_path_of_canonicalize L fs s (some c) buf fake_path dir_fd deref_final out habs
    hcanon hout, translate_tail_delayed L fs s c t fake_path deref_final _ hrun htrig hne,
    if_neg (by omega)]

theorem translate_path_delayed_witness :
    translate_path Limits.linux plainHost jailWithRunner (some waitingChild) [] AT_FDCWD
        "/x".toList true = some ⟨0, "/x".toList, some waitingChild⟩ ∧
      waitingChild.trigger = some "/trigger".toList :=
  translate_path_delayed Limits.linux plainHost jailWithRunner waitingChild "/trigger".toList
    [] "/x".toList AT_FDCWD true (0, "/x".toList) rfl rfl (by decide) rfl (by decide)
    (by decide) (by decide)

theorem is_delayed_unset (child : child_info) (path : Path) (h : child.trigger = none) :
    is_delayed child path = (false, child) := by
  unfold is_delayed
  rw [h]

theorem is_delayed_other (child : child_info) (t path : Path) (h : child.trigger = some t)
    (hne : t ≠ path) : is_delayed child path = (true, child) := by
  unfold is_delayed
  rw [h]
  dsimp only
  rw [if_pos hne]

theorem is_delayed_same (child : child_info) (path : Path) (h : child.trigger = some path) :
    is_delayed child path = (false, { child with trigger := none }) := by
  unfold is_delayed
  rw [h]
  dsimp only
  rw [if_neg (not_not.mpr rfl)]

theorem is_delayed_calls_cons (child : child_info) (path : Path) (rest : List Path) :
    is_delayed_calls child (path :: rest) =
      ((is_delayed child path).1 :: (is_delayed_calls (is_delayed child path).2 rest).1,
        (is_delayed_calls (is_delayed child path).2 rest).2) := rfl

theorem is_delayed_calls_unset (child : child_info) (h : child.trigger = none) :
    ∀ paths : List Path,
      is_delayed_calls child paths = (List.replicate paths.length false, child) := by
  intro paths
  induction paths with
  | nil => rfl
  | cons p rest ih =>
    rw [is_delayed_calls_cons, is_delayed_unset child p h, ih]
    rfl

theorem is_delayed_calls_before (child : child_info) (t : Path) (h : child.trigger = some t) :
    ∀ (pre rest : List Path), t ∉ pre →
      is_delayed_calls child (pre ++ rest) =
        (List.replicate pre.length true ++ (is_delayed_calls child rest).1,
          (is_delayed_calls child rest).2) := by
  intro pre
  induction pre with
  | nil => intro rest _; rfl
  | cons p pre ih =>
    intro rest hp
    have hne : t ≠ p := fun e => hp (e ▸ List.mem_cons_self _ _)
    have hpre : t ∉ pre := fun hm => hp (List.mem_cons_of_mem _ hm)
    rw [List.cons_append, is_delayed_calls_cons, is_delayed_other child t p h hne, ih rest hpre]
    rfl

/-- C16: `is_delayed` returns true exactly when the trigger is set and differs from the
path, and then leaves the child as it is; when the trigger equals the path it clears the
trigger and returns false; when the trigger is unset it returns false and changes
nothing. Over a sequence of calls on a child that waits for `t`: the calls before the
first one whose path is `t` all return true and leave the trigger set, that call returns
false and clears the trigger, and every later call returns false, the trigger staying
unset; on a child without a trigger every call returns false. -/
theorem is_delayed_transition (child : child_info) (path : Path) :
    ((is_delayed child path).1 = true ↔ ∃ t, child.trigger = some t ∧ t ≠ path) ∧
    ((is_delayed child path).1 = true → (is_delayed child path).2 = child) ∧
    (child.trigger = some path →
      is_delayed child path = (false, { child with trigger := none })) ∧
    (child.trigger = none → is_delayed child path = (false, child)) ∧
    (∀ (t : Path) (pre post : List Path), child.trigger = some t → t ∉ pre →
      is_delayed_calls child pre = (List.replicate pre.length true, child) ∧
      is_delayed_calls child (pre ++ [t]) =
        (List.replicate pre.length true ++ [false], { child with trigger := none }) ∧
      is_delayed_calls child (pre ++ t :: post) =
        (List.replicate pre.length true ++ false :: List.replicate post.length false,
          { child with trigger := none })) ∧
    (∀ paths : List Path, child.trigger = none →
      is_delayed_calls child paths = (List.replicate paths.length false, child)) := by
  have hseq : ∀ (t : Path) (pre post : List Path), child.trigger = some t → t ∉ pre →
      is_delayed_calls child (pre ++ t :: post) =
        (List.replicate pre.length true ++ false :: List.replicate post.length false,
          { child with trigger := none }) := by
    intro t pre post ht hp
    rw [is_delayed_calls_before child t ht pre _ hp, is_delayed_calls_cons,
      is_delayed_same child t ht, is_delayed_calls_unset _ rfl post]
  refine ⟨?_, ?_, is_delayed_same child path, is_delayed_unset child path, ?_,
    fun paths h => is_delayed_calls_unset child h paths⟩
  · cases ht : child.trigger with
    | none =>
      rw [is_delayed_unset child path ht]
      simp
    | some t =>
      by_cases hne : t = path
      · subst hne
        rw [is_delayed_same child t ht]
        simp
      · rw [is_delayed_other child t path ht hne]
        simp [hne]
  · intro h
    cases ht : child.trigger with
    | none => rw [is_delayed_unset child path ht]
    | some t =>
      by_cases hne : t = path
      · subst hne
        rw [is_delayed_same child t ht] at h
        exact absurd h (by simp)
      · rw [is_delayed_other child t path ht hne]
  · intro t pre post ht hp
    refine ⟨?_, hseq t pre [] ht hp, hseq t pre post ht hp⟩
    have := is_delayed_calls_before child t ht pre [] hp
    rw [List.append_nil] at this
    rw [this]
    simp [is_delayed_calls]

theorem is_delayed_transition_witness :
    is_delayed waitingChild "/x".toList = (true, waitingChild) ∧
      is_delayed_calls waitingChild
          (["/a".toList, "/b".toList] ++ "/trigger".toList :: ["/a".toList, "/trigger".toList])
        = (List.replicate 2 true ++ false :: List.replicate 2 false,
            { waitingChild with trigger := none }) :=
  ⟨Prod.ext
      ((is_delayed_transition waitingChild "/x".toList).1.mpr
        ⟨"/trigger".toList, rfl, by decide⟩)
      ((is_delayed_transition waitingChild "/x".toList).2.1
        ((is_delayed_transition waitingChild "/x".toList).1.mpr
          ⟨"/trigger".toList, rfl, by decide⟩)),
    ((is_delayed_transition waitingChild []).2.2.2.2.1 "/trigger".toList
      ["/a".toList, "/b".toList] ["/a".toList, "/trigger".toList] rfl (by decide)).2.2⟩

/-! ## The special case of `/proc/self` -/

/-- One turn of the loop of `canonicalize` on the first component of the input, when the
iteration ends normally. -/
theorem loop_step (L : Limits) (fs : FS) (s : State) (pid : Int) (deref_final : Bool)
    (recur : Path → Path → Nat → Option (Int × Path)) (fuel : Nat) (cursor result : Path)
    (nb : Nat) (c : Path) (rest : List Path) (result' : Path) (nb' : Nat)
    (hfuel : cursor.length < fuel)
    (hcs : components cursor = c :: rest) (hlen : c.length < L.NAME_MAX)
    (hb : canonicalize_body L fs s pid deref_final recur
      (final_status rest (decide (cursor.getLast? = some '/'))) c result nb
        = .next result' nb') :
    canonicalize_loop L fs s pid deref_final recur fuel cursor result nb =
      if rest = [] then
        some (canonicalize_end L (final_status [] (decide (cursor.getLast? = some '/'))) result')
      else canonicalize_loop L fs s pid deref_final recur (fuel - 1) (after_separators cursor)
        result' nb' := by
  obtain ⟨f, rfl⟩ : ∃ f, fuel = f + 1 := ⟨fuel - 1, by omega⟩
  obtain ⟨_, _, h3, _⟩ := next_component_of_components L cursor c rest hcs hlen
  have hst : ¬ final_status rest (decide (cursor.getLast? = some '/')) < 0 := by
    unfold final_status
    split_ifs <;> decide
  rw [loop_succ, h3]
  dsimp only
  rw [if_neg hst, hb]
  dsimp only
  by_cases hr : rest = []
  · subst hr
    have hf : ¬ final_status [] (decide (cursor.getLast? = some '/')) = 0 := by
      unfold final_status
      split_ifs <;> first | decide | simp_all
    rw [if_neg hf, if_pos rfl]
  · have hf : final_status rest (decide (cursor.getLast? = some '/')) = 0 := by
      unfold final_status
      rw [if_pos hr]
    rw [if_pos hf, if_neg hr]
    rfl

theorem fmt_d_not_self (pid : Int) : fmt_d pid ≠ ['s', 'e', 'l', 'f'] := by
  intro h
  have := fmt_d_mem pid 's' (by rw [h]; simp)
  exact absurd this (by decide)

/-- The iteration on `self` when `result` is `/proc`: the pid is appended. -/
theorem body_proc_self (L : Limits) (fs : FS) (s : State) (pid : Int) (deref_final : Bool)
    (recur : Path → Path → Nat → Option (Int × Path)) (is_final : Int) (nb : Nat)
    (hm : s.mirror_list = [])
    (hfs : fs.lstat (s.root ++ render ["proc".toList, fmt_d pid] false) ≠ .symlink)
    (hcond : is_final = 0 ∨ deref_final = true)
    (hpid : (fmt_d pid).length < L.NAME_MAX)
    (hfit : (s.root ++ render ["proc".toList, fmt_d pid] false).length < L.PATH_MAX) :
    canonicalize_body L fs s pid deref_final recur is_final ['s', 'e', 'l', 'f']
      (render ["proc".toList] false) nb
        = .next (render ["proc".toList, fmt_d pid] false) nb := by
  have hj : joined (render ["proc".toList] false) (fmt_d pid)
      = render ["proc".toList, fmt_d pid] false :=
    joined_render_name ["proc".toList] false (fmt_d pid) (by decide) (fmt_d_normal pid).1
  have hp : proc_self_case L pid deref_final is_final ['s', 'e', 'l', 'f']
      (render ["proc".toList] false) = (0, fmt_d pid) := by
    unfold proc_self_case
    rw [if_pos ⟨rfl, by decide, hcond⟩, if_neg (by omega)]
  have he := real_entry_no_mirror L s hm (render ["proc".toList] false) (fmt_d pid)
    (render_head _ _) (by rw [hj]; exact hfit)
  have := @body_commit L fs s pid deref_final recur is_final ['s', 'e', 'l', 'f']
    (render ["proc".toList] false) nb (fmt_d pid) _ (by decide) (by decide) hp he
    (Or.inl (by rw [hj]; exact hfs)) (by rw [hj]; rw [List.length_append] at hfit; omega)
  rw [this, hj]

theorem render_getLast_iff (cs : List Path) (tr : Bool) (hne : cs ≠ [])
    (hnames : ∀ c ∈ cs, IsName c) : decide ((render cs tr).getLast? = some '/') = tr := by
  obtain ⟨cs', l, rfl⟩ : ∃ cs' l, cs = cs' ++ [l] := by
    rcases snoc_cases cs with h | h
    · exact absurd h hne
    · exact h
  cases tr with
  | true => rw [render_getLast_true]; simp
  | false => exact decide_eq_false (render_getLast_false cs' l (hnames l (by simp)))

/-- `canonicalize` of `/proc/self` followed by normal components, without mirrors, when
no probed entry is a link and `self` is rewritten. -/
theorem canonicalize_proc_self_run (L : Limits) (fs : FS) (s : State) (pid : Int)
    (deref_final : Bool) (buf : Path) (ts : List Path) (tr : Bool)
    (hm : s.mirror_list = [])
    (hfs1 : fs.lstat (s.root ++ render ["proc".toList] false) ≠ .symlink)
    (hfs2 : fs.lstat (s.root ++ render ["proc".toList, fmt_d pid] false) ≠ .symlink)
    (hfs : ∀ p ∈ probed_entries L s ["proc".toList, fmt_d pid] ts, fs.lstat p ≠ .symlink)
    (h4 : 4 < L.NAME_MAX) (hpid : (fmt_d pid).length < L.NAME_MAX)
    (hnorm : ∀ c ∈ ts, IsNormal c) (hname : ∀ c ∈ ts, c.length < L.NAME_MAX)
    (hcond : ts ≠ [] ∨ deref_final = true)
    (hfit : (s.root ++ render ("proc".toList :: fmt_d pid :: ts) tr).length < L.PATH_MAX) :
    canonicalize L fs s pid (render ("proc".toList :: "self".toList :: ts) tr) deref_final buf 0
      = some (0, render ("proc".toList :: fmt_d pid :: ts) tr) := by
  have hts : ∀ c ∈ ts, IsName c := fun c hc => (hnorm c hc).1
  have hin : ∀ c ∈ "proc".toList :: "self".toList :: ts, IsName c := by
    intro c hc
    rcases List.mem_cons.mp hc with rfl | hc
    · decide
    · rcases List.mem_cons.mp hc with rfl | hc
      · decide
      · exact hts c hc
  have hkept : ∀ c ∈ ["proc".toList, fmt_d pid], IsName c := by
    intro c hc
    rcases List.mem_cons.mp hc with rfl | hc
    · decide
    · rw [List.mem_singleton.mp hc]; exact (fmt_d_normal pid).1
  have hcs := components_render _ tr hin
  have htr := render_getLast_iff _ tr (List.cons_ne_nil _ _) hin
  -- sizes of the paths met on the way
  have hsize : ∀ k, (s.root ++ render (("proc".toList :: fmt_d pid :: ts).take k) false).length
      < L.PATH_MAX := by
    intro k
    have := render_length_take ("proc".toList :: fmt_d pid :: ts) k tr
    rw [List.length_append] at hfit ⊢
    omega
  have hs1 := hsize 1
  have hs2 := hsize 2
  simp only [List.take_succ_cons, List.take_zero] at hs1 hs2
  unfold canonicalize canonicalize_depth
  dsimp only
  rw [if_neg (by omega), if_neg (by rw [render_head]; simp),
    if_neg (by rw [render_head]; simp)]
  generalize hrec : (fun fake_path result nb_readlink =>
    canonicalize_depth L fs s pid L.MAXSYMLINKS fake_path true result nb_readlink) = recur
  -- the component `proc`
  have hb1 : canonicalize_body L fs s pid deref_final recur
      (final_status ("self".toList :: ts)
        (decide ((render ("proc".toList :: "self".toList :: ts) tr).getLast? = some '/')))
      "proc".toList (render [] false) 0 = .next (render ([] ++ ["proc".toList]) false) 0 := by
    refine body_commit_ok (by simp) (by decide) (by decide) (by decide) ⟨?_, ?_, ?_, ?_⟩
    · rintro ⟨h, _⟩
      exact absurd h (by decide)
    · rw [List.nil_append]
      rw [List.length_append] at hs1
      omega
    · rw [List.nil_append, probe_no_mirror L s hm _ (render_head _ _) hs1]
      exact show ¬ ((0 : Int) < 0) by decide
    · rw [List.nil_append, probe_no_mirror L s hm _ (render_head _ _) hs1]
      exact Or.inl hfs1
  obtain ⟨_, hc1, _, hn1⟩ := next_component_of_components L _ _ _ hcs (by
    show "proc".toList.length < L.NAME_MAX
    have : "proc".toList.length = 4 := rfl
    omega)
  obtain ⟨hl1, hg1⟩ := hn1 (List.cons_ne_nil _ _)
  have h1 := loop_step L fs s pid deref_final recur
    ((render ("proc".toList :: "self".toList :: ts) tr).length + 1) _ (render [] false) 0
    "proc".toList ("self".toList :: ts) _ 0 (by omega) hcs (by
      have : "proc".toList.length = 4 := rfl
      omega) hb1
  rw [if_neg (List.cons_ne_nil _ _), List.nil_append] at h1
  have hr0 : (['/'] : Path) = render [] false := rfl
  rw [hr0, h1]
  -- the component `self`
  have hb2 := body_proc_self L fs s pid deref_final recur
    (final_status ts (decide ((after_separators
      (render ("proc".toList :: "self".toList :: ts) tr)).getLast? = some '/'))) 0 hm hfs2
    (by
      rcases hcond with h | h
      · left
        unfold final_status
        rw [if_pos h]
      · exact Or.inr h)
    hpid hs2
  have h2 := loop_step L fs s pid deref_final recur
    ((render ("proc".toList :: "self".toList :: ts) tr).length + 1 - 1) _
    (render ["proc".toList] false) 0 "self".toList ts _ 0 (by omega) hc1 (by
      have : "self".toList.length = 4 := rfl
      omega) hb2
  rw [h2, hg1, htr]
  by_cases hts0 : ts = []
  · subst hts0
    rw [if_pos rfl, end_final_status L _ tr hkept (fun h => by
      rw [h, List.length_append] at hfit
      omega)]
  · rw [if_neg hts0]
    obtain ⟨_, hc2, _, hn2⟩ := next_component_of_components L _ _ _ hc1 (by
      show "self".toList.length < L.NAME_MAX
      have : "self".toList.length = 4 := rfl
      omega)
    obtain ⟨hl2, hg2⟩ := hn2 hts0
    have hwalk : ∀ k, lexical_walk ["proc".toList, fmt_d pid] (ts.take k)
        = ("proc".toList :: fmt_d pid :: ts).take (k + 2) := by
      intro k
      rw [lexical_walk_normal _ _ (fun c hc => hnorm c (List.mem_of_mem_take hc))]
      rfl
    have hcom := commits_plain_probed L fs s deref_final tr hm ts ["proc".toList, fmt_d pid] hts
      hkept (fun k _ => by rw [hwalk k]; exact hsize (k + 2))
      (fun k _ h => by
        rw [hwalk k] at h
        have := congrArg (fun l => l.get? 1) h
        simp only [List.take_succ_cons, List.get?_cons_succ, List.get?_cons_zero] at this
        exact fmt_d_not_self pid (Option.some.inj this))
      hfs
    have := loop_commits L fs s pid deref_final recur
      ((render ("proc".toList :: "self".toList :: ts) tr).length + 1 - 1 - 1)
      (after_separators (after_separators (render ("proc".toList :: "self".toList :: ts) tr)))
      ["proc".toList, fmt_d pid] 0 (by omega) (by rw [hc2]; exact hts0) hkept
      (by rw [hc2]; exact hname) (by rw [hc2, hg2, hg1, htr]; exact hcom)
      (by
        intro hl
        rw [hg2, hg1] at hl
        have htrue : tr = true := by rw [← htr]; exact decide_eq_true hl
        rw [hc2, lexical_walk_normal _ _ hnorm]
        rw [htrue, List.length_append] at hfit
        exact Nat.lt_of_le_of_lt (Nat.le_add_left _ _) hfit)
    rw [this, hc2, hg2, hg1, htr, lexical_walk_normal _ _ hnorm]
    rfl

theorem render_proc_two (x : Path) :
    render ["proc".toList, x] false = "/proc/".toList ++ x := by
  simp [render, flat]

theorem render_proc_tail (x : Path) (ts : List Path) (tr : Bool) (t : Path)
    (ht : '/' :: t = flat ts ++ (if tr then ['/'] else [])) :
    render ("proc".toList :: x :: ts) tr = "/proc/".toList ++ x ++ '/' :: t := by
  unfold render
  rw [if_neg (List.cons_ne_nil _ _), ht]
  simp [flat]

/-- `canonicalize` of `/proc/self` without `deref_final`, without mirrors, when `/proc` is
not a link: `self` is kept, whatever it is on the host. -/
theorem canonicalize_proc_self_kept (L : Limits) (fs : FS) (s : State) (pid : Int)
    (buf : Path) (hm : s.mirror_list = [])
    (hfs : fs.lstat (s.root ++ render ["proc".toList] false) ≠ .symlink)
    (h4 : 4 < L.NAME_MAX)
    (hfit : (s.root ++ render ["proc".toList, "self".toList] false).length < L.PATH_MAX) :
    canonicalize L fs s pid (render ["proc".toList, "self".toList] false) false buf 0
      = some (0, render ["proc".toList, "self".toList] false) := by
  have hlen : (s.root ++ render ["proc".toList] false).length < L.PATH_MAX := by
    have := render_length_take ["proc".toList, "self".toList] 1 false
    simp only [List.take_succ_cons, List.take_zero] at this
    rw [List.length_append] at hfit ⊢
    omega
  have four : ∀ c ∈ ["proc".toList, "self".toList], c.length < L.NAME_MAX := by
    intro c hc
    rcases List.mem_cons.mp hc with rfl | hc
    · have : "proc".toList.length = 4 := rfl
      omega
    · rw [List.mem_singleton.mp hc]
      have : "self".toList.length = 4 := rfl
      omega
  refine canonicalize_fixed L fs s pid false buf 0 ["proc".toList, "self".toList] false
    (Nat.zero_le _) (List.cons_ne_nil _ _) (by decide) four ?_
    (by rw [List.length_append] at hfit; omega)
  refine ⟨fun _ _ => ⟨?_, ?_, ?_, Or.inl (by
      rw [List.nil_append, probe_no_mirror L s hm _ (render_head _ _) hlen]
      exact hfs)⟩, fun _ _ => ⟨?_, ?_, ?_, Or.inr ⟨rfl, rfl⟩⟩, trivial⟩
  · rintro ⟨h, _⟩
    exact absurd h (by decide)
  · rw [List.nil_append]
    rw [List.length_append] at hlen
    omega
  · rw [List.nil_append, probe_no_mirror L s hm _ (render_head _ _) hlen]
    exact show ¬ ((0 : Int) < 0) by decide
  · rintro ⟨_, _, h | h⟩
    · exact absurd h (by decide)
    · exact absurd h (by decide)
  · show (render ["proc".toList, "self".toList] false).length < L.PATH_MAX
    rw [List.length_append] at hfit
    omega
  · show ¬ (probe L s (render ["proc".toList, "self".toList] false)).1 < 0
    rw [probe_no_mirror L s hm _ (render_head _ _) hfit]
    exact show ¬ ((0 : Int) < 0) by decide

set_option maxRecDepth 100000 in
/-- C17, as stated, fails for a tail with a long component and for the empty tail: on a
host without links, with the root `/opt/jail`, no mirror and pid 42, the input
`/proc/self/` followed by 255 letters `a` makes `canonicalize` return `-ENAMETOOLONG`
(with `/proc/42` in the buffer) instead of an output; and the input `/proc/self/` without
`deref_final` is returned as it is, not as `/proc/42/`. -/
theorem canonicalize_proc_self_long_component :
    canonicalize Limits.linux plainHost jail 42
        ("/proc/self/".toList ++ List.replicate 255 'a') true [] 0
        = some (-ENAMETOOLONG, "/proc/42".toList) ∧
      canonicalize Limits.linux plainHost jail 42 ("/proc/self/".toList ++ []) false [] 0
        = some (0, "/proc/self/".toList) := by
  decide

theorem probed_entries_cons (L : Limits) (s : State) (kept : List Path) (c : Path)
    (rest : List Path) (hc : IsNormal c) :
    probed_entries L s kept (c :: rest) =
      (probe L s (render (kept ++ [c]) false)).2 :: probed_entries L s (kept ++ [c]) rest := by
  rw [probed_entries]
  unfold lexical_step
  rw [if_neg (by rintro (h | h); exact hc.2.1 h; exact hc.2.2 h), if_neg hc.2.1, if_neg hc.2.2]

/-- C17 (amended): with no mirror, for every pid whose decimal text is shorter than
`NAME_MAX` (itself above 4). For every non-empty sanitized relative tail `t` (normal
components separated by single `/`, with or without a trailing `/`) whose components are
shorter than `NAME_MAX`, such that the root followed by `/proc/<pid>/t` fits in
`PATH_MAX` and no entry that the run probes is a link, `canonicalize` of `/proc/self/t`
started at 0 returns 0 with the output `/proc/<pid>/t`, for either value of
`deref_final`. When the root followed by `/proc/<pid>` fits and neither `/proc` nor
`/proc/<pid>` is a link under the root, `canonicalize` of `/proc/self` with `deref_final`
outputs `/proc/<pid>`. When the root followed by `/proc/self` fits and `/proc` is not a
link under the root, `canonicalize` of `/proc/self` without `deref_final` outputs
`/proc/self`. -/
theorem canonicalize_proc_self (L : Limits) (fs : FS) (s : State) (pid : Int) (buf : Path)
    (hm : s.mirror_list = [])
    (h4 : 4 < L.NAME_MAX) (hpid : (fmt_d pid).length < L.NAME_MAX) :
    (∀ (ts : List Path) (tr deref_final : Bool) (t : Path), ts ≠ [] →
      (∀ c ∈ ts, IsNormal c) → (∀ c ∈ ts, c.length < L.NAME_MAX) →
      '/' :: t = flat ts ++ (if tr then ['/'] else []) →
      (s.root ++ ("/proc/".toList ++ fmt_d pid ++ '/' :: t)).length < L.PATH_MAX →
      (∀ p ∈ probed_entries L s [] ("proc".toList :: fmt_d pid :: ts),
        fs.lstat p ≠ .symlink) →
      canonicalize L fs s pid ("/proc/self/".toList ++ t) deref_final buf 0
        = some (0, "/proc/".toList ++ fmt_d pid ++ '/' :: t)) ∧
    ((s.root ++ ("/proc/".toList ++ fmt_d pid)).length < L.PATH_MAX →
      fs.lstat (s.root ++ "/proc".toList) ≠ .symlink →
      fs.lstat (s.root ++ ("/proc/".toList ++ fmt_d pid)) ≠ .symlink →
      canonicalize L fs s pid "/proc/self".toList true buf 0
        = some (0, "/proc/".toList ++ fmt_d pid)) ∧
    ((s.root ++ "/proc/self".toList).length < L.PATH_MAX →
      fs.lstat (s.root ++ "/proc".toList) ≠ .symlink →
      canonicalize L fs s pid "/proc/self".toList false buf 0
        = some (0, "/proc/self".toList)) := by
  refine ⟨fun ts tr deref_final t hne hnorm hname ht hfit hfs => ?_, fun hfit h1 h2 => ?_,
    fun hfit h1 => ?_⟩
  · have hin : "/proc/self/".toList ++ t = render ("proc".toList :: "self".toList :: ts) tr := by
      rw [render_proc_tail "self".toList ts tr t ht]
      rfl
    have hfit' : (s.root ++ render ("proc".toList :: fmt_d pid :: ts) tr).length
        < L.PATH_MAX := by
      rw [render_proc_tail (fmt_d pid) ts tr t ht]; exact hfit
    have hsize : ∀ k, (s.root ++ render (("proc".toList :: fmt_d pid :: ts).take k) false).length
        < L.PATH_MAX := by
      intro k
      have := render_length_take ("proc".toList :: fmt_d pid :: ts) k tr
      rw [List.length_append] at hfit' ⊢
      omega
    have hs1 := hsize 1
    have hs2 := hsize 2
    simp only [List.take_succ_cons, List.take_zero] at hs1 hs2
    rw [probed_entries_cons L s [] _ _ (by decide),
      probed_entries_cons L s _ _ _ (fmt_d_normal pid), List.nil_append,
      probe_no_mirror L s hm _ (render_head _ _) hs1] at hfs
    have hp2 : probe L s (render (["proc".toList] ++ [fmt_d pid]) false)
        = (0, s.root ++ render ["proc".toList, fmt_d pid] false) :=
      probe_no_mirror L s hm _ (render_head _ _) hs2
    rw [hp2] at hfs
    rw [hin, ← render_proc_tail (fmt_d pid) ts tr t ht]
    exact canonicalize_proc_self_run L fs s pid deref_final buf ts tr hm
      (hfs _ (List.mem_cons_self _ _))
      (hfs _ (List.mem_cons_of_mem _ (List.mem_cons_self _ _)))
      (fun p hp => hfs p (List.mem_cons_of_mem _ (List.mem_cons_of_mem _ hp)))
      h4 hpid hnorm hname (Or.inl hne) hfit'
  · have := canonicalize_proc_self_run L fs s pid true buf [] false hm h1
      (by rw [render_proc_two]; exact h2)
      (fun _ h => absurd h (List.not_mem_nil _)) h4 hpid
      (fun _ h => absurd h (List.not_mem_nil _)) (fun _ h => absurd h (List.not_mem_nil _))
      (Or.inr rfl) (by rw [render_proc_two]; exact hfit)
    rw [render_proc_two, render_proc_two] at this
    exact this
  · exact canonicalize_proc_self_kept L fs s pid buf hm h1 h4 hfit

theorem canonicalize_proc_self_witness :
    canonicalize Limits.linux strayLinkHost jail 42 ("/proc/self/".toList ++ "fd".toList)
        true [] 0 = some (0, "/proc/".toList ++ fmt_d 42 ++ '/' :: "fd".toList) ∧
      canonicalize Limits.linux strayLinkHost jail 42 "/proc/self".toList true [] 0
        = some (0, "/proc/".toList ++ fmt_d 42) ∧
      canonicalize Limits.linux strayLinkHost jail 42 "/proc/self".toList false [] 0
        = some (0, "/proc/self".toList) :=
  ⟨(canonicalize_proc_self Limits.linux strayLinkHost jail 42 [] rfl (by decide)
      (by decide)).1
      ["fd".toList] false true "fd".toList (by decide) (by decide) (by decide) (by decide)
      (by decide) (by decide),
    (canonicalize_proc_self Limits.linux strayLinkHost jail 42 [] rfl (by decide)
      (by decide)).2.1 (by decide) (by decide) (by decide),
    (canonicalize_proc_self Limits.linux strayLinkHost jail 42 [] rfl (by decide)
      (by decide)).2.2 (by decide) (by decide)⟩

/-! ## The new root `/` -/

/-- The translation of a sanitized path on a host without links and without mirrors: the
root followed by the path. -/
theorem translate_sanitized (L : Limits) (fs : FS) (s : State) (g buf : Path)
    (hN : 0 < L.NAME_MAX) (hm : s.mirror_list = []) (hfs : ∀ p, fs.lstat p ≠ .symlink)
    (hreal : ∀ p q, fs.realpath p = some q → strncmp q s.root (root_length s) = 0)
    (hg : Clean g)
    (hname : ∀ c ∈ components g, c.length < L.NAME_MAX)
    (hself : ¬ ["proc".toList, "self".toList] <+: components g)
    (hfit : (s.root ++ g).length < L.PATH_MAX) :
    translate_path L fs s none buf AT_FDCWD g true = some ⟨0, s.root ++ g, none⟩ := by
  obtain ⟨cs, tr, hcs, rfl⟩ := (clean_iff_sanitized g).mp hg
  have hnames := sanitized_names hcs
  rw [components_render cs tr hnames] at hname hself
  have hl := lexical_normalisation_render cs tr hcs
  have hwalk : ∀ k, lexical_walk [] (cs.take k) = cs.take k := fun k => by
    rw [lexical_walk_normal [] _ (fun c hc => hcs c (List.mem_of_mem_take hc)),
      List.nil_append]
  have := translate_lexical L fs s (render cs tr) buf hN hm hfs hreal (render_head cs tr)
    (by rw [components_render cs tr hnames]; exact hname)
    (by
      rw [components_render cs tr hnames]
      intro k _
      rw [hwalk k]
      have := render_length_take cs k tr
      rw [List.length_append] at hfit ⊢
      omega)
    (by
      rw [components_render cs tr hnames]
      intro k _ h
      rw [hwalk k] at h
      exact hself (h ▸ List.take_prefix _ _))
    (by rw [hl]; exact hfit)
  rw [this, hl]

/-- C18, as stated, fails: with the new root `/`, no mirror and a host without links, the
sanitized path `/etc/passwd` is translated with status 0 to `//etc/passwd`, the root
followed by the path, and not to `/etc/passwd` itself. -/
theorem translate_root_slash_doubles :
    rootJail.root = ['/'] ∧ root_length rootJail = 0 ∧
      translate_path Limits.linux plainHost rootJail none [] AT_FDCWD "/etc/passwd".toList true
        = some ⟨0, "//etc/passwd".toList, none⟩ ∧
      "//etc/passwd".toList ≠ "/etc/passwd".toList := by
  decide

/-- C18 (amended): when the new root is `/`, with no mirror and a host without links, for
every sanitized absolute guest path `g` that does not begin with `/proc/self`, whose
components are shorter than `NAME_MAX` and whose length plus one is below `PATH_MAX`,
`translate_path` returns 0 and writes `/` followed by `g`. -/
theorem translate_path_root_slash (L : Limits) (fs : FS) (s : State) (g buf : Path)
    (hN : 0 < L.NAME_MAX) (hroot : s.root = ['/']) (hm : s.mirror_list = [])
    (hfs : ∀ p, fs.lstat p ≠ .symlink) (hg : Clean g)
    (hname : ∀ c ∈ components g, c.length < L.NAME_MAX)
    (hself : ¬ ["proc".toList, "self".toList] <+: components g)
    (hfit : g.length + 1 < L.PATH_MAX) :
    translate_path L fs s none buf AT_FDCWD g true = some ⟨0, '/' :: g, none⟩ := by
  have h0 : root_length s = 0 := by unfold root_length; rw [if_pos hroot]
  have := translate_sanitized L fs s g buf hN hm hfs
    (fun p q _ => by rw [h0, strncmp_eq_zero]; rfl) hg hname hself
    (by rw [hroot]; simp; omega)
  rw [this, hroot]
  rfl

theorem translate_path_root_slash_witness :
    translate_path Limits.linux plainHost rootJail none [] AT_FDCWD "/etc/passwd".toList true
      = some ⟨0, '/' :: "/etc/passwd".toList, none⟩ :=
  translate_path_root_slash Limits.linux plainHost rootJail "/etc/passwd".toList []
    (by decide) rfl rfl (fun _ h => LstatResult.noConfusion h)
    ((clean_iff_sanitized _).mpr ⟨["etc".toList, "passwd".toList], false, by decide, rfl⟩)
    (by decide) (by decide) (by decide)

/-! ## The checks on the open descriptors of a process -/

/-- The test of `check_fd_callback` on a path that begins with `/`: the path starts with
the new root. -/
theorem strncmp_root_starts (s : State) (path : Path) (h : path.head? = some '/') :
    strncmp s.root path (root_length s) = 0 ↔ s.root <+: path := by
  rw [strncmp_eq_zero]
  unfold root_length
  by_cases hr : s.root = ['/']
  · rw [if_pos hr, hr]
    obtain ⟨t, rfl⟩ := List.head?_eq_some_iff.mp h
    simp
  · rw [if_neg hr, List.take_length, List.prefix_iff_eq_take]

theorem check_fd_callback_eq (s : State) (pid fd : Int) (path : Path)
    (h : path.head? = some '/') :
    check_fd_callback s pid fd path = if s.root <+: path then 0 else -pid := by
  unfold check_fd_callback
  by_cases hp : s.root <+: path
  · rw [if_pos hp, if_neg (not_not.mpr ((strncmp_root_starts s path h).mpr hp))]
  · rw [if_neg hp, if_pos (fun e => hp ((strncmp_root_starts s path h).mp e))]

/-- One turn of the loop of `foreach_fd` on a descriptor whose link was read. -/
theorem foreach_fd_loop_cons (L : Limits) (has_readlinkat : Bool) (pid : Int)
    (callback : Int → Int → Path → Int) (e : Int × Path) (rest : List dirent)
    (hlen : e.2.length < L.PATH_MAX)
    (hname : has_readlinkat = false →
      (proc_fd pid).length + (fmt_d e.1).length + 1 < L.PATH_MAX) :
    foreach_fd_loop L has_readlinkat pid callback (dirent.of e :: rest) =
      if e.2.head? ≠ some '/' then foreach_fd_loop L has_readlinkat pid callback rest
      else if callback pid e.1 e.2 < 0 then callback pid e.1 e.2
      else foreach_fd_loop L has_readlinkat pid callback rest := by
  rw [foreach_fd_loop]
  have h1 : ¬ (has_readlinkat = false ∧
      (proc_fd pid).length + (dirent.of e).d_name.length + 1 ≥ L.PATH_MAX) := by
    rintro ⟨h, h'⟩
    have := hname h
    unfold dirent.of at h'
    dsimp only at h'
    omega
  rw [if_neg h1]
  unfold dirent.of
  dsimp only
  rw [if_neg (by omega)]

theorem check_fd_loop_cons (L : Limits) (has_readlinkat : Bool) (s : State) (pid : Int)
    (hpid : 0 < pid) (e : Int × Path) (rest : List dirent)
    (hlen : e.2.length < L.PATH_MAX)
    (hname : has_readlinkat = false →
      (proc_fd pid).length + (fmt_d e.1).length + 1 < L.PATH_MAX) :
    foreach_fd_loop L has_readlinkat pid (check_fd_callback s) (dirent.of e :: rest) =
      if e.2.head? = some '/' ∧ ¬ s.root <+: e.2 then -pid
      else foreach_fd_loop L has_readlinkat pid (check_fd_callback s) rest := by
  rw [foreach_fd_loop_cons L has_readlinkat pid _ e rest hlen hname]
  by_cases hh : e.2.head? = some '/'
  · rw [if_neg (not_not.mpr hh), check_fd_callback_eq s pid e.1 e.2 hh]
    by_cases hp : s.root <+: e.2
    · rw [if_pos hp, if_neg (show ¬ ((0 : Int) < 0) by decide), if_neg (fun h => h.2 hp)]
    · rw [if_neg hp, if_pos (by omega), if_pos ⟨hh, hp⟩]
  · rw [if_pos hh, if_neg (fun h => hh h.1)]

/-- The descriptors before the first one outside the root are passed over. -/
theorem check_fd_loop_skip (L : Limits) (has_readlinkat : Bool) (s : State) (pid : Int)
    (hpid : 0 < pid) (rest : List dirent) :
    ∀ pre : List (Int × Path), (∀ e ∈ pre, e.2.length < L.PATH_MAX) →
      (has_readlinkat = false →
        ∀ e ∈ pre, (proc_fd pid).length + (fmt_d e.1).length + 1 < L.PATH_MAX) →
      (∀ e ∈ pre, ¬ (e.2.head? = some '/' ∧ ¬ s.root <+: e.2)) →
      foreach_fd_loop L has_readlinkat pid (check_fd_callback s) (pre.map dirent.of ++ rest) =
        foreach_fd_loop L has_readlinkat pid (check_fd_callback s) rest := by
  intro pre
  induction pre with
  | nil => intro _ _ _; rfl
  | cons e pre ih =>
    intro hlen hname hok
    rw [List.map_cons, List.cons_append,
      check_fd_loop_cons L has_readlinkat s pid hpid e _ (hlen e (List.mem_cons_self _ _))
        (fun h => hname h e (List.mem_cons_self _ _)),
      if_neg (hok e (List.mem_cons_self _ _))]
    exact ih (fun x hx => hlen x (List.mem_cons_of_mem _ hx))
      (fun h x hx => hname h x (List.mem_cons_of_mem _ hx))
      (fun x hx => hok x (List.mem_cons_of_mem _ hx))

theorem check_fd_loop_eq (L : Limits) (has_readlinkat : Bool) (s : State) (pid : Int)
    (hpid : 0 < pid) :
    ∀ fds : List (Int × Path), (∀ e ∈ fds, e.2.length < L.PATH_MAX) →
      (has_readlinkat = false →
        ∀ e ∈ fds, (proc_fd pid).length + (fmt_d e.1).length + 1 < L.PATH_MAX) →
      foreach_fd_loop L has_readlinkat pid (check_fd_callback s) (fds.map dirent.of) =
        if ∃ e ∈ fds, e.2.head? = some '/' ∧ ¬ s.root <+: e.2 then -pid else 0 := by
  intro fds
  induction fds with
  | nil =>
    intro _ _
    rw [if_neg (by simp)]
    rfl
  | cons e fds ih =>
    intro hlen hname
    rw [List.map_cons,
      check_fd_loop_cons L has_readlinkat s pid hpid e _ (hlen e (List.mem_cons_self _ _))
        (fun h => hname h e (List.mem_cons_self _ _))]
    by_cases hb : e.2.head? = some '/' ∧ ¬ s.root <+: e.2
    · rw [if_pos hb, if_pos ⟨e, List.mem_cons_self _ _, hb⟩]
    · rw [if_neg hb, ih (fun x hx => hlen x (List.mem_cons_of_mem _ hx))
        (fun h x hx => hname h x (List.mem_cons_of_mem _ hx))]
      by_cases hx : ∃ e ∈ fds, e.2.head? = some '/' ∧ ¬ s.root <+: e.2
      · obtain ⟨x, hm, hx'⟩ := hx
        rw [if_pos ⟨x, hm, hx'⟩, if_pos ⟨x, List.mem_cons_of_mem _ hm, hx'⟩]
      · rw [if_neg hx, if_neg]
        rintro ⟨x, hm, hx'⟩
        rcases List.mem_cons.mp hm with rfl | hm
        · exact hb hx'
        · exact hx ⟨x, hm, hx'⟩

theorem list_open_fd_loop (L : Limits) (has_readlinkat : Bool) (pid : Int) :
    ∀ entries : List dirent,
      foreach_fd_loop L has_readlinkat pid list_open_fd_callback entries = 0 := by
  intro entries
  induction entries with
  | nil => rfl
  | cons d rest ih =>
    rw [foreach_fd_loop]
    split_ifs
    · exact ih
    · split
      · exact ih
      · dsimp only
        split_ifs
        · exact ih
        · exact ih
        · rename_i h
          exact absurd h (by simp [list_open_fd_callback])
        · exact ih

/-- C19: over the descriptors of a process, each with the value of its link (shorter than
`PATH_MAX`, as `readlink` stores it), and a pid above 0 whose `/proc/<pid>/fd` fits in the
buffer of 32 bytes. `check_fd` returns `-pid` if and only if some descriptor whose target
begins with `/` has a target that does not start with the new root, and 0 otherwise; the
descriptors whose target does not begin with `/` never count. It stops at the first
descriptor outside the root: the result is `-pid` whatever entries follow it.
`list_open_fd` returns 0 for every content of the directory, also when it cannot be
opened. -/
theorem check_fd_spec (L : Limits) (has_readlinkat : Bool) (s : State) (pid : Int)
    (fds : List (Int × Path)) (hpid : 0 < pid) (hproc : (proc_fd pid).length < 32)
    (hlen : ∀ e ∈ fds, e.2.length < L.PATH_MAX)
    (hname : has_readlinkat = false →
      ∀ e ∈ fds, (proc_fd pid).length + (fmt_d e.1).length + 1 < L.PATH_MAX) :
    (check_fd L has_readlinkat s (some (fds.map dirent.of)) pid = -pid ↔
      ∃ e ∈ fds, e.2.head? = some '/' ∧ ¬ s.root <+: e.2) ∧
    ((¬ ∃ e ∈ fds, e.2.head? = some '/' ∧ ¬ s.root <+: e.2) →
      check_fd L has_readlinkat s (some (fds.map dirent.of)) pid = 0) ∧
    (∀ (pre : List (Int × Path)) (e : Int × Path) (post : List (Int × Path))
      (later : List dirent), fds = pre ++ e :: post →
      (∀ x ∈ pre, ¬ (x.2.head? = some '/' ∧ ¬ s.root <+: x.2)) →
      e.2.head? = some '/' → ¬ s.root <+: e.2 →
      check_fd L has_readlinkat s (some (pre.map dirent.of ++ dirent.of e :: later)) pid
        = -pid) ∧
    (∀ dir : Option (List dirent), list_open_fd L has_readlinkat dir pid = 0) := by
  have hcheck : ∀ entries, check_fd L has_readlinkat s (some entries) pid
      = foreach_fd_loop L has_readlinkat pid (check_fd_callback s) entries := by
    intro entries
    unfold check_fd foreach_fd
    rw [if_neg (by omega)]
  have heq := check_fd_loop_eq L has_readlinkat s pid hpid fds hlen hname
  refine ⟨?_, ?_, ?_, ?_⟩
  · rw [hcheck, heq]
    constructor
    · intro h
      by_contra hne
      rw [if_neg hne] at h
      omega
    · intro h
      rw [if_pos h]
  · intro h
    rw [hcheck, heq, if_neg h]
  · intro pre e post later hfds hpre hh hp
    have hmem : e ∈ fds := by rw [hfds]; simp
    have hsub : ∀ x ∈ pre, x ∈ fds := by
      intro x hx
      rw [hfds]
      exact List.mem_append_left _ hx
    rw [hcheck, check_fd_loop_skip L has_readlinkat s pid hpid _ pre
        (fun x hx => hlen x (hsub x hx)) (fun h x hx => hname h x (hsub x hx)) hpre,
      check_fd_loop_cons L has_readlinkat s pid hpid e later (hlen e hmem)
        (fun h => hname h e hmem), if_pos ⟨hh, hp⟩]
  · intro dir
    unfold list_open_fd foreach_fd
    split_ifs
    · rfl
    · cases dir with
      | none => rfl
      | some entries => exact list_open_fd_loop L has_readlinkat pid entries

theorem check_fd_spec_witness :
    check_fd Limits.linux false jail
        (some ([((0 : Int), "/opt/jail/a".toList), (3, "socket:[1]".toList),
          (4, "/etc/passwd".toList), (5, "/opt/jail/b".toList)].map dirent.of)) 7 = -7 ∧
      check_fd Limits.linux false jail
        (some ([((0 : Int), "/opt/jail/a".toList), (3, "socket:[1]".toList)].map dirent.of ++
          dirent.of (4, "/etc/passwd".toList) :: [⟨"5".toList, 5, none⟩])) 7 = -7 ∧
      list_open_fd Limits.linux false (none : Option (List dirent)) 7 = 0 :=
  ⟨(check_fd_spec Limits.linux false jail 7
      [((0 : Int), "/opt/jail/a".toList), (3, "socket:[1]".toList),
        (4, "/etc/passwd".toList), (5, "/opt/jail/b".toList)]
      (by decide) (by decide) (by decide) (by decide)).1.mpr
      ⟨(4, "/etc/passwd".toList), by decide, by decide, by decide⟩,
    (check_fd_spec Limits.linux false jail 7
      [((0 : Int), "/opt/jail/a".toList), (3, "socket:[1]".toList),
        (4, "/etc/passwd".toList), (5, "/opt/jail/b".toList)]
      (by decide) (by decide) (by decide) (by decide)).2.2.1
      [((0 : Int), "/opt/jail/a".toList), (3, "socket:[1]".toList)]
      (4, "/etc/passwd".toList) [(5, "/opt/jail/b".toList)] [⟨"5".toList, 5, none⟩]
      rfl (by decide) (by decide) (by decide),
    (check_fd_spec Limits.linux false jail 7
      [((0 : Int), "/opt/jail/a".toList), (3, "socket:[1]".toList),
        (4, "/etc/passwd".toList), (5, "/opt/jail/b".toList)]
      (by decide) (by decide) (by decide) (by decide)).2.2.2 none⟩

/-! ## `init_module_path` and `need_substitution` -/

/-- C20: a mirror registered with `mirror_path("/usr/lib/", NULL)` on a host where
`realpath` gives `/usr/lib` is sanitized by `init_module_path` (root `/opt/jail`) into an
entry whose real path and stored location are both `/usr/lib`, with `need_substitution`
set: the comparison of line 575 sees the location `/usr/lib/` before its trailing `/` is
removed. `substitute_mirror` then returns 1 (substituted) on `/usr/lib/x`, writing the
same text. -/
theorem init_module_path_trailing_slash :
    mirror_path Limits.linux libHost [] "/usr/lib/".toList none
        = [⟨"/usr/lib".toList, "/usr/lib/".toList, false, false⟩] ∧
      (init_module_path Limits.linux libHost "/opt/jail".toList false
          (mirror_path Limits.linux libHost [] "/usr/lib/".toList none)).map
          (fun s => s.mirror_list)
        = some [⟨"/usr/lib".toList, "/usr/lib".toList, true, true⟩] ∧
      substitute_mirror Limits.linux
          ⟨"/opt/jail".toList, false, [⟨"/usr/lib".toList, "/usr/lib".toList, true, true⟩]⟩
          MIRROR_LOCATION "/usr/lib/x".toList = (1, "/usr/lib/x".toList) := by
  decide

theorem canonicalize_relative_no_base (L : Limits) (fs : FS) (s : State) (pid : Int)
    (fake_path : Path) (deref_final : Bool) (h : fake_path.head? ≠ some '/') :
    canonicalize L fs s pid fake_path deref_final [] 0 = some (-EINVAL, []) := by
  unfold canonicalize canonicalize_depth
  rw [if_neg (by omega), if_pos ⟨h, by simp⟩]

theorem render_true_dropLast (cs : List Path) (h : cs ≠ []) :
    (render cs true).dropLast = render cs false := by
  unfold render
  rw [if_neg h, if_neg h]
  simp

/-- What a turn of the loop of `init_module_path` establishes for an entry that it marks
as sanitized, when the real path does not end with `/` (or is `/`), as a result of
`realpath` does not. -/
theorem init_mirror_sanitized (L : Limits) (fs : FS) (s : State) (m m' : mirror)
    (h : init_mirror L fs s m = some m') (hs : m'.sanitized = true)
    (hreal : m.real.getLast? = some '/' → m.real = ['/']) :
    (∃ cs, cs ≠ [] ∧ (∀ c ∈ cs, IsNormal c) ∧ m'.location = render cs false) ∧
      (m'.need_substitution = false → m'.real = m'.location) := by
  unfold init_mirror at h
  by_cases h0 : m.sanitized = true
  · rw [if_pos h0] at h
    exact absurd h (by simp)
  · rw [if_neg h0] at h
    cases hc : canonicalize L fs s 0 m.location true [] 0 with
    | none => rw [hc] at h; exact absurd h (by simp)
    | some c =>
      rw [hc] at h
      dsimp only at h
      by_cases h1 : c.1 < 0
      · rw [if_pos h1] at h
        injection h with h
        rw [← h] at hs
        exact absurd hs (by simp)
      · rw [if_neg h1] at h
        by_cases h2 : c.2 = ['/']
        · rw [if_pos h2] at h
          injection h with h
          rw [← h] at hs
          exact absurd hs (by simp)
        · rw [if_neg h2] at h
          injection h with h
          have habs : m.location.head? = some '/' := by
            by_contra hrel
            rw [canonicalize_relative_no_base L fs s 0 m.location true hrel] at hc
            injection hc with hc
            rw [← hc] at h1
            exact h1 (show -EINVAL < 0 by decide)
          obtain ⟨cs, tr, hcs, e⟩ : Sanitized c.2 :=
            depth_invariant (sanitized_invariant L) fs s 0 _ m.location true [] 0 c
              (fun hr => absurd habs hr) hc h1
          have hne : cs ≠ [] := by
            intro h0
            rw [h0] at e
            exact h2 e
          have hnames := sanitized_names hcs
          have hlast := render_getLast_iff cs tr hne hnames
          rw [← e] at hlast
          rw [← h]
          dsimp only
          cases tr with
          | true =>
            have hl : c.2.getLast? = some '/' := of_decide_eq_true hlast
            rw [if_pos hl, e, render_true_dropLast cs hne]
            refine ⟨⟨cs, hne, hcs, rfl⟩, fun hn => ?_⟩
            exfalso
            have hreq : m.real = render cs true := by simpa using hn
            rw [hreq, ← e] at hreal
            exact h2 (hreal hl)
          | false =>
            have hl : ¬ c.2.getLast? = some '/' := of_decide_eq_false hlast
            rw [if_neg hl, e]
            refine ⟨⟨cs, hne, hcs, rfl⟩, fun hn => ?_⟩
            have hreq : m.real = render cs false := by simpa using hn
            exact hreq

theorem init_mirrors_sanitized (L : Limits) (fs : FS) (root : Path) (use_runner : Bool)
    (P : mirror → Prop)
    (hturn : ∀ s m m', init_mirror L fs s m = some m' → m'.sanitized = true →
      (m.real.getLast? = some '/' → m.real = ['/']) → P m') :
    ∀ (todo done out : List mirror),
      (∀ m ∈ done, m.sanitized = true → P m) →
      (∀ m ∈ todo, m.real.getLast? = some '/' → m.real = ['/']) →
      init_mirrors L fs root use_runner done todo = some out →
      ∀ m ∈ out, m.sanitized = true → P m := by
  intro todo
  induction todo with
  | nil =>
    intro done out hd _ h
    unfold init_mirrors at h
    injection h with h
    rw [← h]
    exact hd
  | cons m rest ih =>
    intro done out hd hr h
    unfold init_mirrors at h
    cases hm : init_mirror L fs ⟨root, use_runner, done ++ { m with location := [] } :: rest⟩ m with
    | none => rw [hm] at h; exact absurd h (by simp)
    | some m' =>
      rw [hm] at h
      dsimp only at h
      refine ih (done ++ [m']) out ?_ (fun x hx => hr x (List.mem_cons_of_mem _ hx)) h
      intro x hx hxs
      rcases List.mem_append.mp hx with hx | hx
      · exact hd x hx hxs
      · rw [List.mem_singleton.mp hx] at hxs ⊢
        exact hturn _ m m' hm hxs (hr m (List.mem_cons_self _ _))

/-- The module state that `init_module_path` leaves is `Initialised`, when no real path
of the registered mirrors ends with `/` unless it is `/`. -/
theorem init_module_path_initialised (L : Limits) (fs : FS) (root : Path) (opt_runner : Bool)
    (mirror_list : List mirror) (s : State)
    (hreal : ∀ m ∈ mirror_list, m.real.getLast? = some '/' → m.real = ['/'])
    (h : init_module_path L fs root opt_runner mirror_list = some s) : Initialised s := by
  unfold init_module_path at h
  cases hl : init_mirrors L fs root opt_runner [] mirror_list with
  | none => rw [hl] at h; exact absurd h (by simp)
  | some l =>
    rw [hl] at h
    injection h with h
    rw [← h]
    exact init_mirrors_sanitized L fs root opt_runner _
      (fun s m m' hm hs hr => init_mirror_sanitized L fs s m m' hm hs hr)
      mirror_list [] l (fun _ hx => absurd hx (List.not_mem_nil _)) hreal hl

/-! ## `substitute_mirror` against its reference definition -/

/-- On a string without a NUL byte, the byte at an index is NUL exactly at the end. -/
theorem getD_nul_iff (path : Path) (n : Nat) (hnul : '\x00' ∉ path) (hn : n ≤ path.length) :
    path.getD n '\x00' = '\x00' ↔ n = path.length := by
  constructor
  · intro h
    by_contra hne
    have hlt : n < path.length := by omega
    rw [List.getD_eq_getElem _ _ hlt] at h
    exact hnul (h ▸ List.getElem_mem _)
  · intro h
    rw [List.getD_eq_default _ _ (by omega)]

theorem getD_slash_iff (path : Path) (n : Nat) :
    path.getD n '\x00' = '/' ↔ path.get? n = some '/' := by
  by_cases hlt : n < path.length
  · rw [List.getD_eq_getElem _ _ hlt, List.get?_eq_get hlt]
    simp
  · rw [List.getD_eq_default _ _ (by omega), List.get?_eq_none.mpr (by omega)]
    constructor
    · intro h; exact absurd h (by decide)
    · intro h; exact absurd h (by simp)

/-- The acceptance test of the specification is the test of the source. -/
theorem spec_accepts_iff (which : Nat) (path : Path) (m : mirror) (hnul : '\x00' ∉ path) :
    spec_accepts which path m = true ↔ m.sanitized = true ∧ Matches (m.ref which) path := by
  unfold spec_accepts Matches
  simp only [Bool.and_eq_true, decide_eq_true_eq]
  constructor
  · rintro ⟨hs, hl, hb, ht⟩
    refine ⟨hs, hl, ?_, ht.symm⟩
    rcases hb with hb | hb
    · exact Or.inl ((getD_slash_iff _ _).mpr hb)
    · exact Or.inr ((getD_nul_iff _ _ hnul hl).mpr hb)
  · rintro ⟨hs, hl, hb, ht⟩
    refine ⟨hs, hl, ?_, ht.symm⟩
    rcases hb with hb | hb
    · exact Or.inl ((getD_slash_iff _ _).mp hb)
    · exact Or.inr ((getD_nul_iff _ _ hnul hl).mp hb)

/-- The loop of `substitute_mirror` as a search for the first accepted entry. -/
theorem substitute_mirror_from_find (L : Limits) (which : Nat) (path : Path)
    (hw : which = MIRROR_LOCATION ∨ which = MIRROR_REAL) (hnul : '\x00' ∉ path) :
    ∀ ms : List mirror,
      substitute_mirror_from L which path ms =
        match ms.find? (spec_accepts which path) with
        | none => (-1, path)
        | some m =>
          if m.need_substitution = false then (0, path)
          else if path.length - (m.ref which).length + (m.anti_ref which).length ≥ L.PATH_MAX
            then (-1, path)
          else (1, m.anti_ref which ++ path.drop (m.ref which).length) := by
  intro ms
  induction ms with
  | nil => rfl
  | cons m ms ih =>
    rw [substitute_mirror_from_cons]
    by_cases ha : spec_accepts which path m = true
    · obtain ⟨hs, hM⟩ := (spec_accepts_iff which path m hnul).mp ha
      rw [List.find?_cons_of_pos _ ha, if_neg (by rw [hs]; simp),
        if_neg (by rintro ⟨h1, h2⟩; rcases hw with h | h; exact h1 h; exact h2 h),
        if_neg (not_not.mpr hM)]
    · rw [List.find?_cons_of_neg _ ha, ← ih]
      by_cases hs : m.sanitized = false
      · rw [if_pos hs]
      · have hs' : m.sanitized = true := by simpa using hs
        have hM : ¬ Matches (m.ref which) path :=
          fun hM => ha ((spec_accepts_iff which path m hnul).mpr ⟨hs', hM⟩)
        rw [if_neg hs,
          if_neg (by rintro ⟨h1, h2⟩; rcases hw with h | h; exact h1 h; exact h2 h),
          if_pos hM]

/-- Entries that are not sanitized can be removed from the list. -/
theorem substitute_mirror_from_filter (L : Limits) (which : Nat) (path : Path) :
    ∀ ms : List mirror,
      substitute_mirror_from L which path (ms.filter (fun m => m.sanitized)) =
        substitute_mirror_from L which path ms := by
  intro ms
  induction ms with
  | nil => rfl
  | cons m ms ih =>
    by_cases hs : m.sanitized = true
    · rw [List.filter_cons_of_pos hs, substitute_mirror_from_cons,
        substitute_mirror_from_cons L which path m ms, ih]
    · rw [List.filter_cons_of_neg hs, substitute_mirror_from_cons L which path m ms,
        if_pos (by simpa using hs), ih]

/-- C21: for the two directions and every path (a C string, without a NUL byte),
`substitute_mirror` returns what the reference definition of the specification returns:
`NOT_A_MIRROR` with the path unchanged when no sanitized entry is accepted, and otherwise
what the first accepted entry in list order decides, `MATCHED_NO_SUBSTITUTION` with the
path unchanged without `need_substitution`, and else `SUBSTITUTED` with `anti_ref`
followed by the path after `ref`, the new length being below `PATH_MAX`. The entries that
are not sanitized can be removed from the list without changing the result, and
`mirror_path` registers an entry at the head of the list. -/
theorem substitute_mirror_refines (L : Limits) (s : State) (which : Nat) (path : Path)
    (hw : which = MIRROR_LOCATION ∨ which = MIRROR_REAL) (hnul : '\x00' ∉ path)
    (hfit : ∀ m, s.mirror_list.find? (spec_accepts which path) = some m →
      m.need_substitution = true →
      (m.anti_ref which).length + (path.length - (m.ref which).length) < L.PATH_MAX) :
    substitute_mirror L s which path = substitute_reference L s which path ∧
      substitute_mirror L { s with mirror_list := s.mirror_list.filter (fun m => m.sanitized) }
        which path = substitute_mirror L s which path ∧
      (∀ (fs : FS) (real : Path) (location : Option Path),
        mirror_path L fs s.mirror_list real location = s.mirror_list ∨
          ∃ m, mirror_path L fs s.mirror_list real location = m :: s.mirror_list) := by
  refine ⟨?_, substitute_mirror_from_filter L which path s.mirror_list, ?_⟩
  swap
  · intro fs real location
    unfold mirror_path
    cases fs.realpath real with
    | none => exact Or.inl rfl
    | some r =>
      dsimp only
      split_ifs
      · exact Or.inl rfl
      · exact Or.inr ⟨_, rfl⟩
  unfold substitute_mirror substitute_reference
  rw [substitute_mirror_from_find L which path hw hnul]
  cases hf : s.mirror_list.find? (spec_accepts which path) with
  | none => rfl
  | some m =>
    dsimp only
    cases hn : m.need_substitution with
    | false => rfl
    | true =>
      have := hfit m hf hn
      rw [if_neg (show ¬ (true = false) by decide),
        if_neg (show ¬ (path.length - (m.ref which).length + (m.anti_ref which).length
          ≥ L.PATH_MAX) by omega),
        if_neg (show ¬ ((m.anti_ref which).length + (path.length - (m.ref which).length)
          ≥ L.PATH_MAX) by omega)]
      rfl

theorem substitute_mirror_refines_witness :
    substitute_mirror Limits.linux libMirrorJail MIRROR_LOCATION "/lib/x".toList
        = substitute_reference Limits.linux libMirrorJail MIRROR_LOCATION "/lib/x".toList ∧
      substitute_mirror Limits.linux
          { libMirrorJail with
            mirror_list := libMirrorJail.mirror_list.filter (fun m => m.sanitized) }
          MIRROR_LOCATION "/lib/x".toList
        = substitute_mirror Limits.linux libMirrorJail MIRROR_LOCATION "/lib/x".toList ∧
      (∀ (fs : FS) (real : Path) (location : Option Path),
        mirror_path Limits.linux fs libMirrorJail.mirror_list real location
            = libMirrorJail.mirror_list ∨
          ∃ m, mirror_path Limits.linux fs libMirrorJail.mirror_list real location
            = m :: libMirrorJail.mirror_list) :=
  substitute_mirror_refines Limits.linux libMirrorJail MIRROR_LOCATION "/lib/x".toList
    (Or.inl rfl) (by decide)
    (fun m h _ => by
      have hm : libMirrorJail.mirror_list.find? (spec_accepts MIRROR_LOCATION "/lib/x".toList)
          = some ⟨"/usr/lib".toList, "/lib".toList, true, true⟩ := by decide
      rw [hm] at h
      rw [← Option.some.inj h]
      decide)

/-! ## `pop_component` on sanitized paths -/

theorem render_dropLast_starts (cs : List Path) (tr : Bool) :
    render cs.dropLast false <+: render cs tr := by
  rcases snoc_cases cs with rfl | ⟨cs', l, rfl⟩
  · exact List.prefix_refl _
  · rw [List.dropLast_concat, render_snoc]
    unfold render
    by_cases h : cs' = []
    · subst h
      exact ⟨l ++ (if tr then ['/'] else []), by simp [flat]⟩
    · rw [if_neg h]
      exact ⟨'/' :: l ++ (if tr then ['/'] else []), by simp⟩

/-- C22: `pop_component` never climbs above the root. On `/` it changes nothing. On every
absolute sanitized path, with or without a trailing `/`, it returns (no assertion fails)
the path of the components but the last, without a trailing `/`: the input is that path
followed by `/`, the last component and the optional trailing `/`, and the result is `/`
when the input has one component. The result begins with `/` and is a leading part of
the input. -/
theorem pop_component_parent (p : Path) (hp : Clean p) :
    pop_component ['/'] = some ['/'] ∧
      ∃ cs tr, (∀ c ∈ cs, IsNormal c) ∧ p = render cs tr ∧
        pop_component p = some (render cs.dropLast false) ∧
        (render cs.dropLast false).head? = some '/' ∧
        render cs.dropLast false <+: p ∧
        (cs.length ≤ 1 → render cs.dropLast false = ['/']) ∧
        (∀ cs' l, cs = cs' ++ [l] →
          p = flat cs' ++ '/' :: l ++ (if tr then ['/'] else []) ∧
            (cs' ≠ [] → render cs.dropLast false = flat cs')) := by
  refine ⟨rfl, ?_⟩
  obtain ⟨cs, tr, hcs, rfl⟩ := (clean_iff_sanitized p).mp hp
  refine ⟨cs, tr, hcs, rfl, pop_component_render cs tr (sanitized_names hcs),
    render_head _ _, render_dropLast_starts cs tr, ?_, ?_⟩
  · intro h
    rcases snoc_cases cs with rfl | ⟨cs', l, rfl⟩
    · rfl
    · rw [List.dropLast_concat]
      have : cs' = [] := by
        rw [List.length_append, List.length_singleton] at h
        exact List.length_eq_zero.mp (by omega)
      rw [this]
      rfl
  · intro cs' l e
    subst e
    refine ⟨render_snoc cs' l tr, fun hne => ?_⟩
    rw [List.dropLast_concat]
    unfold render
    rw [if_neg hne]
    simp

theorem pop_component_parent_witness :
    pop_component ['/'] = some ['/'] ∧
      ∃ cs tr, (∀ c ∈ cs, IsNormal c) ∧ "/usr/lib/".toList = render cs tr ∧
        pop_component "/usr/lib/".toList = some (render cs.dropLast false) ∧
        (render cs.dropLast false).head? = some '/' ∧
        render cs.dropLast false <+: "/usr/lib/".toList ∧
        (cs.length ≤ 1 → render cs.dropLast false = ['/']) ∧
        (∀ cs' l, cs = cs' ++ [l] →
          "/usr/lib/".toList = flat cs' ++ '/' :: l ++ (if tr then ['/'] else []) ∧
            (cs' ≠ [] → render cs.dropLast false = flat cs')) :=
  pop_component_parent "/usr/lib/".toList
    ((clean_iff_sanitized _).mpr ⟨["usr".toList, "lib".toList], true, by decide, rfl⟩)

/-! ## A mirrored path whose substitution does not fit -/

theorem flat_length (cs : List Path) :
    (flat cs).length = (cs.map (fun c => c.length + 1)).sum := by
  induction cs with
  | nil => rfl
  | cons c cs ih =>
    simp only [flat, List.length_cons, List.length_append, List.map_cons, List.sum_cons, ih]

theorem replicate_normal (n : Nat) (a : Char) (hn : 3 ≤ n) (ha : a ≠ '/') :
    IsNormal (List.replicate n a) := by
  have hlen : (List.replicate n a).length = n := List.length_replicate _ _
  refine ⟨⟨fun h => ?_, fun h => ha (List.eq_of_mem_replicate h).symm⟩, fun h => ?_, fun h => ?_⟩
  · rw [h] at hlen; simp at hlen; omega
  · rw [h] at hlen; simp at hlen; omega
  · rw [h] at hlen; simp at hlen; omega

theorem deepComponents_normal :
    ∀ c ∈ deepComponents, IsNormal c ∧ c.length < 255 ∧ c ≠ ['s', 'e', 'l', 'f'] := by
  intro c hc
  unfold deepComponents at hc
  rcases List.mem_cons.mp hc with rfl | hc
  · decide
  · rcases List.mem_append.mp hc with hc | hc
    · rw [List.eq_of_mem_replicate hc]
      refine ⟨replicate_normal 254 'a' (by omega) (by decide), ?_, fun h => ?_⟩
      · rw [List.length_replicate]; omega
      · have := congrArg List.length h
        rw [List.length_replicate] at this
        simp at this
    · rw [List.mem_singleton.mp hc]
      decide

theorem deepMirrored_length : deepMirrored.length = 4092 := by
  unfold deepMirrored render
  rw [if_neg (by unfold deepComponents; exact List.cons_ne_nil _ _), if_neg (by decide),
    List.append_nil, flat_length]
  unfold deepComponents
  simp only [List.map_cons, List.map_append, List.map_replicate, List.length_replicate,
    List.sum_cons, List.sum_append, List.sum_replicate, List.map_nil, List.sum_nil]
  rfl

theorem deepMirrored_matches : Matches "/lib".toList deepMirrored := by
  have h : deepMirrored = render ["lib".toList] false ++
      (flat (List.replicate 16 (List.replicate 254 'a') ++ [List.replicate 7 'b']) ++
        (if false = true then ['/'] else [])) :=
    render_append ["lib".toList] _ false (List.cons_ne_nil _ _)
  rw [h]
  exact matches_append _ _
    (flat_cases (List.replicate 16 (List.replicate 254 'a') ++ [List.replicate 7 'b']) false)

/-- The path that `lstat` is asked about exists whenever the root followed by the guest
path fits, whatever the mirrors. -/
theorem probe_ok (L : Limits) (s : State) (tmp : Path) (ht : tmp.head? = some '/')
    (h : (s.root ++ tmp).length < L.PATH_MAX) : ¬ (probe L s tmp).1 < 0 := by
  unfold probe
  by_cases h1 : (substitute_mirror L s MIRROR_LOCATION tmp).1 ≥ 0
  · rw [if_pos h1]
    exact show ¬ ((0 : Int) < 0) by decide
  · rw [if_neg h1]
    rcases substitute_mirror_cases L s MIRROR_LOCATION tmp with e | ⟨_, _, _, _, ⟨_, e⟩ | ⟨_, _, e⟩⟩
    · rw [e, join_root L _ _ ht h]
      exact show ¬ ((0 : Int) < 0) by decide
    · rw [e] at h1
      exact absurd (show (0 : Int) ≥ 0 by decide) h1
    · rw [e] at h1
      exact absurd (show (1 : Int) ≥ 0 by decide) h1

/-- Normal components other than `self` are appended as they are when the root followed
by the whole path fits and no probed entry is a link, whatever the mirrors. -/
theorem commits_fits (L : Limits) (fs : FS) (s : State) (deref_final tr : Bool) :
    ∀ (cs kept : List Path), (∀ c ∈ kept ++ cs, IsNormal c) →
      (∀ c ∈ cs, c ≠ ['s', 'e', 'l', 'f']) →
      (s.root ++ render (kept ++ cs) false).length < L.PATH_MAX →
      (∀ p ∈ probed_entries L s kept cs, fs.lstat p ≠ .symlink) →
      Commits L fs s deref_final tr kept cs := by
  intro cs
  induction cs with
  | nil => intro _ _ _ _ _; trivial
  | cons c rest ih =>
    intro kept hnorm hself hfit hfs
    have hc : IsNormal c := hnorm c (by simp)
    have hstep : lexical_step kept c = kept ++ [c] := by
      unfold lexical_step; rw [if_neg hc.2.1, if_neg hc.2.2]
    have hall : kept ++ c :: rest = (kept ++ [c]) ++ rest := by simp
    rw [probed_entries_cons L s kept c rest hc] at hfs
    rw [hall] at hnorm hfit
    have hlen : (render (kept ++ [c]) false).length
        ≤ (render ((kept ++ [c]) ++ rest) false).length := by
      have := render_length_take ((kept ++ [c]) ++ rest) (kept ++ [c]).length false
      rwa [List.take_left] at this
    refine ⟨fun _ _ => ⟨?_, ?_, ?_, Or.inl (hfs _ (List.mem_cons_self _ _))⟩, ?_⟩
    · rintro ⟨h, _⟩
      exact hself c (List.mem_cons_self _ _) h
    · rw [List.length_append] at hfit; omega
    · exact probe_ok L s _ (render_head _ _) (by
        rw [List.length_append] at hfit ⊢; omega)
    · rw [hstep]
      exact ih (kept ++ [c]) hnorm (fun x hx => hself x (List.mem_cons_of_mem _ hx)) hfit
        (fun p hp => hfs p (List.mem_cons_of_mem _ hp))

/-- The end of `translate_path` for a path that `substitute_mirror` reports as not
mirrored. -/
theorem translate_tail_unmatched (L : Limits) (fs : FS) (s : State) (g c : Path)
    (deref_final : Bool)
    (hsub : substitute_mirror L s MIRROR_LOCATION c = (-1, c))
    (hc : c.head? = some '/') (hfit : (s.root ++ c).length < L.PATH_MAX)
    (hreal : ∀ q, fs.realpath (s.root ++ c) = some q → strncmp q s.root (root_length s) = 0) :
    translate_tail L fs s none g deref_final c = ⟨0, s.root ++ c, none⟩ := by
  unfold translate_tail
  dsimp only
  rw [if_neg (by simp), hsub]
  dsimp only
  rw [if_neg (show ¬ ((-1 : Int) ≥ 0) by decide), join_root L _ _ hc hfit]
  dsimp only
  rw [if_neg (show ¬ ((0 : Int) < 0) by decide)]
  split
  · next tmp h =>
    cases deref_final with
    | false => simp at h
    | true =>
      simp only [if_true] at h
      rw [if_neg (not_not.mpr (hreal _ h))]
  · rfl

/-- C13, the failing input: with the new root `/r` and the sanitized asymmetric mirror
`real = /usr/lib`, `location = /lib`, on a host without links, the guest path of 4092
bytes `/lib/aaa.../bbbbbbb` (components of at most 254 bytes) matches the location on a
component boundary and its substitution would have 4096 bytes. `substitute_mirror`
returns -1 with the path unchanged, the value for a path that is not a mirror, and
`translate_path` returns 0 with the root followed by the path, `/r/lib/aaa...`, a host
path outside the mirror, instead of failing with `-ENAMETOOLONG`. -/
theorem translate_path_mirror_overflow :
    Matches "/lib".toList deepMirrored ∧
      deepMirrored.length - "/lib".toList.length + "/usr/lib".toList.length
        ≥ Limits.linux.PATH_MAX ∧
      substitute_mirror Limits.linux smallRootJail MIRROR_LOCATION deepMirrored
        = (-1, deepMirrored) ∧
      translate_path Limits.linux plainHost smallRootJail none [] AT_FDCWD deepMirrored true
        = some ⟨0, "/r".toList ++ deepMirrored, none⟩ := by
  have hlong : deepMirrored.length - "/lib".toList.length + "/usr/lib".toList.length
      ≥ Limits.linux.PATH_MAX := by
    rw [deepMirrored_length]
    decide
  have hsub : substitute_mirror Limits.linux smallRootJail MIRROR_LOCATION deepMirrored
      = (-1, deepMirrored) :=
    substitute_mirror_from_too_long Limits.linux MIRROR_LOCATION deepMirrored (Or.inl rfl)
      ⟨"/usr/lib".toList, "/lib".toList, true, true⟩ [] rfl rfl deepMirrored_matches
      (by rw [deepMirrored_length]; decide)
  have hroot : ("/r".toList ++ deepMirrored).length < Limits.linux.PATH_MAX := by
    rw [List.length_append, deepMirrored_length]
    decide
  have hcom : Commits Limits.linux plainHost smallRootJail true false [] deepComponents :=
    commits_fits Limits.linux plainHost smallRootJail true false deepComponents []
      (fun c hc => (deepComponents_normal c (by simpa using hc)).1)
      (fun c hc => (deepComponents_normal c hc).2.2)
      hroot (fun _ _ h => LstatResult.noConfusion h)
  have hcanon := canonicalize_fixed Limits.linux plainHost smallRootJail plainHost.getpid true
    ['/'] 0 deepComponents false (Nat.zero_le _)
    (by unfold deepComponents; exact List.cons_ne_nil _ _)
    (fun c hc => (deepComponents_normal c hc).1) (fun c hc => (deepComponents_normal c hc).2.1)
    hcom (by
      show deepMirrored.length < Limits.linux.PATH_MAX
      rw [deepMirrored_length]
      decide)
  refine ⟨deepMirrored_matches, hlong, hsub, ?_⟩
  rw [translate_path_absolute Limits.linux plainHost smallRootJail [] deepMirrored AT_FDCWD
    true deepMirrored (render_head _ _) hcanon]
  exact congrArg some (translate_tail_unmatched Limits.linux plainHost smallRootJail
    deepMirrored deepMirrored true hsub (render_head _ _) hroot
    (fun _ h => Option.noConfusion h))

end PRoot
